import Mathlib

/-!
Verification development for the stake-tracker pallet
(`substrate/frame/staking/stake-tracker/src/lib.rs`).

The pallet keeps two sorted-list providers — `VoterList` and `TargetList` —
in sync with a staking interface.  We shallowly embed the pallet's state and
its nine `OnStakingUpdate` entry points as executable Lean functions over
association lists, and prove/refute the specification claims about them.

Modelling conventions:

* Accounts, balances, vote weights and extended balances are all `Nat`
  (machine integers of the source are embedded as unbounded naturals; the
  `ExtendedBalance` accumulator of the source exists solely to avoid
  overflow, which `Nat` cannot suffer, so the `CurrencyToVote` conversion
  family is embedded as the identity conversion — the instance in which the
  balance and vote-weight units coincide).
* The staking interface (`T::Staking`) is a finite association list of
  bonded stakers; `status` and `stake` both read the same bonded entry, so
  they succeed exactly for bonded accounts, as in `sp_staking`.
* A `SortedListProvider` (the bags-list, which is not part of the sources)
  is modelled from the spec as an association list kept in non-increasing
  score order; `on_insert`/`on_update`/`on_increase`/`on_remove` fail
  (return `none`) exactly when the membership precondition fails.
* A Rust `expect`/`panic!` is embedded as an `Option`-valued result
  (`none` = abort); `defensive!` log-and-continue branches return the state
  unchanged, as the production build does.
-/

namespace StakeTracker

/-- Account identifiers. -/
abbrev AccountId := Nat

/-- The staking balance type. -/
abbrev Balance := Nat

/-- The voter-list score type (`VoteWeight`). -/
abbrev VoteWeight := Nat

/-- The extended-precision accumulator type (`ExtendedBalance`). -/
abbrev ExtendedBalance := Nat

/-- `sp_staking::StakerStatus`: the role of a bonded staker. -/
inductive StakerStatus where
  | Validator : StakerStatus
  | Nominator (targets : List AccountId) : StakerStatus
  | Idle : StakerStatus
deriving DecidableEq, Repr

/-- Represents a stake imbalance to be applied to a staker's score
(`StakeImbalance` in the source). -/
inductive StakeImbalance where
  | Negative (b : ExtendedBalance) : StakeImbalance
  | Positive (b : ExtendedBalance) : StakeImbalance
deriving DecidableEq, Repr

/-! ## The sorted-list provider

Modelled from the spec: the `RankedSet`/`SortedListProvider` capability
(implemented outside these sources by a bags-list pallet) is an
ordered-by-score container keyed by account with
insert/remove/update/increase/contains/score-lookup/ordered-iteration,
iterating in non-increasing score order. -/

/-- The state of one sorted-list provider: `(account, score)` nodes held in
non-increasing score order (head = highest score). -/
abbrev ListState := List (AccountId × Nat)

/-- `SortedListProvider::contains`. -/
def containsAcc (l : ListState) (a : AccountId) : Bool :=
  l.any (fun p => p.1 == a)

/-- `SortedListProvider::get_score` (`none` = `Err(..)`). -/
def getScore (l : ListState) (a : AccountId) : Option Nat :=
  (l.find? (fun p => p.1 == a)).map (fun p => p.2)

/-- Insert a node into a score-ordered list, keeping non-increasing order:
the node is placed after every node of score `≥ s`. -/
def insertSorted (a : AccountId) (s : Nat) : ListState → ListState
  | [] => [(a, s)]
  | (b, t) :: rest =>
      if s ≤ t then (b, t) :: insertSorted a s rest else (a, s) :: (b, t) :: rest

/-- Drop every node of a given account. -/
def removeKey (l : ListState) (a : AccountId) : ListState :=
  l.filter (fun p => p.1 != a)

/-- `SortedListProvider::on_insert`: fails if the account is present. -/
def onInsert (l : ListState) (a : AccountId) (s : Nat) : Option ListState :=
  if containsAcc l a then none else some (insertSorted a s l)

/-- `SortedListProvider::on_remove`: fails if the account is absent. -/
def onRemove (l : ListState) (a : AccountId) : Option ListState :=
  if containsAcc l a then some (removeKey l a) else none

/-- `SortedListProvider::on_update`: fails if the account is absent;
re-inserts at the position demanded by the new score. -/
def onUpdate (l : ListState) (a : AccountId) (s : Nat) : Option ListState :=
  if containsAcc l a then some (insertSorted a s (removeKey l a)) else none

/-- `SortedListProvider::on_increase`: adds a delta to the current score. -/
def onIncrease (l : ListState) (a : AccountId) (d : Nat) : Option ListState :=
  match getScore l a with
  | some cur => onUpdate l a (cur + d)
  | none => none

/-! ## The staking interface -/

/-- One bonded staker: its role and its active stake. -/
structure Bond where
  role : StakerStatus
  active : Balance
deriving DecidableEq, Repr

/-- The staking interface's state: the bonded stakers.  `status` and
`stake` lookups both read this map, so they fail exactly for unbonded
accounts (as in `sp_staking`, where both derive from the bonded ledger). -/
structure StakingState where
  stakers : List (AccountId × Bond)
deriving DecidableEq, Repr

/-- The bonded entry of an account, if any. -/
def StakingState.bondOf (σ : StakingState) (a : AccountId) : Option Bond :=
  (σ.stakers.find? (fun p => p.1 == a)).map (fun p => p.2)

/-- `T::Staking::status` (`none` = `Err(..)`, the unbonded/unknown case). -/
def StakingState.status (σ : StakingState) (a : AccountId) : Option StakerStatus :=
  (σ.bondOf a).map (fun b => b.role)

/-- `T::Staking::stake(..).map(|s| s.active)` (`none` = `Err(..)`). -/
def StakingState.stake (σ : StakingState) (a : AccountId) : Option Balance :=
  (σ.bondOf a).map (fun b => b.active)

/-- `StakingInterface::nominations`: the nomination list of a nominator. -/
def StakingState.nominationsOf (σ : StakingState) (a : AccountId) : Option (List AccountId) :=
  match σ.status a with
  | some (.Nominator ts) => some ts
  | _ => none

/-- Replace (or create) the bonded entry of an account. -/
def StakingState.setBond (σ : StakingState) (a : AccountId) (b : Bond) : StakingState :=
  ⟨(a, b) :: σ.stakers.filter (fun p => p.1 != a)⟩

/-- Remove the bonded entry of an account (full unbond / ledger kill). -/
def StakingState.removeBond (σ : StakingState) (a : AccountId) : StakingState :=
  ⟨σ.stakers.filter (fun p => p.1 != a)⟩

/-! ## Weight conversion

`weight_of`/`to_vote_extended`/`to_currency` wrap the configured
`CurrencyToVote` at the current total issuance.  With balances embedded as
unbounded `Nat` the faithful instance is the identity conversion (the
source's extended-precision round-trip loses nothing); the three names are
kept separate because the source applies them at distinct points. -/

/-- `Pallet::weight_of`: balance → vote weight. -/
def weight_of (b : Balance) : VoteWeight := b

/-- `Pallet::to_vote_extended`: balance → extended balance. -/
def to_vote_extended (b : Balance) : ExtendedBalance := b

/-- `Pallet::to_currency`: extended balance → balance. -/
def to_currency (e : ExtendedBalance) : Balance := e

/-- `Pallet::active_vote_of`: the active stake of a staker, defaulting to
zero when the staking interface does not know the account
(`defensive_unwrap_or_default`). -/
def active_vote_of (σ : StakingState) (who : AccountId) : Balance :=
  (σ.stake who).getD 0

/-! ## The pallet state -/

/-- The whole system state: the staking interface plus the two lists.  The
event handlers mutate only the two lists; the staking state is mutated by
the event emitter *before* each handler runs (see `stepEvent`). -/
structure Sys where
  staking : StakingState
  voterList : ListState
  targetList : ListState
deriving DecidableEq, Repr

/-- `Pallet::should_remove_target`: a target leaves the target list iff its
approvals are zero *and* its ledger is unbonded (dangling). -/
def should_remove_target (σ : StakingState) (who : AccountId) (score : Balance) : Bool :=
  score == 0 && (σ.status who).isNone

/-- The imbalance-application tail of `Pallet::update_target_score` (the
code that runs once the target is known to be in the list, or has just been
lazily inserted).  It reads the staking state and mutates only the target
list, which is what the Rust function does. -/
def apply_target_imbalance (σ : StakingState) (tl : ListState) (who : AccountId)
    (imbalance : StakeImbalance) : ListState :=
  match imbalance with
  | .Positive imb =>
      -- `on_increase` with a defensive proof: on failure the list is kept.
      (onIncrease tl who (to_currency imb)).getD tl
  | .Negative imb =>
      match getScore tl who with
      | some current_score =>
          -- `saturating_sub`: `Nat` subtraction saturates at zero.
          let balance := to_vote_extended current_score - imb
          if should_remove_target σ who (to_currency balance) then
            (onRemove tl who).getD tl
          else
            (onUpdate tl who (to_currency balance)).getD tl
      | none =>
          -- defensive: unable to fetch the score of an existent staker.
          tl

/-- The target-list transformation of `Pallet::update_target_score`. -/
def update_target_score_tl (σ : StakingState) (tl : ListState) (who : AccountId)
    (imbalance : StakeImbalance) : ListState :=
  if containsAcc tl who then
    apply_target_imbalance σ tl who imbalance
  else
    match σ.status who with
    | none => tl                       -- defensive: unbonded ledger.
    | some (.Nominator _) => tl        -- defensive: nominator as target.
    | some .Validator => tl            -- defensive: untracked active validator.
    | some .Idle =>
        -- lazy insert with score zero, then proceed; the `expect` cannot
        -- fail because the membership check above just failed.
        apply_target_imbalance σ ((onInsert tl who 0).getD tl) who imbalance

/-- `Pallet::update_target_score`: update a target's score by an imbalance;
if the target is missing from the list, a dangling/nominator/validator
status is a defensive no-op, while an `Idle` target is lazily inserted with
score zero before the imbalance is applied.  Only the target list is
mutated. -/
def update_target_score (s : Sys) (who : AccountId) (imbalance : StakeImbalance) : Sys :=
  { s with targetList := update_target_score_tl s.staking s.targetList who imbalance }

/-! ## The nine `OnStakingUpdate` entry points -/

/-- `OnStakingUpdate::on_nominator_add`: insert `who` into the voter list
(silent no-op when already present — re-enabling a chilled nominator) and,
when `who` is a nominator, add its vote weight to every listed target. -/
def on_nominator_add (s : Sys) (who : AccountId) (nominations : List AccountId) : Sys :=
  let nominator_vote := weight_of (active_vote_of s.staking who)
  -- voter may exist in the list in case of re-enabling a chilled nominator.
  if containsAcc s.voterList who then s
  else
    let s := { s with voterList := (onInsert s.voterList who nominator_vote).getD s.voterList }
    match s.staking.status who with
    | some (.Nominator _) =>
        nominations.foldl
          (fun acc t => update_target_score acc t (.Positive nominator_vote)) s
    | some .Idle | some .Validator | none => s  -- nada.

/-- `OnStakingUpdate::on_nominator_remove`: subtract `who`'s vote weight
from every listed target, then remove `who` from the voter list. -/
def on_nominator_remove (s : Sys) (who : AccountId) (nominations : List AccountId) : Sys :=
  let nominator_vote := weight_of (active_vote_of s.staking who)
  let s := nominations.foldl
    (fun acc t => update_target_score acc t (.Negative nominator_vote)) s
  { s with voterList := (onRemove s.voterList who).getD s.voterList }

/-- `OnStakingUpdate::on_nominator_idle`: chilling a nominator is the same
as removing it from the voter list's perspective. -/
def on_nominator_idle (s : Sys) (who : AccountId) (nominations : List AccountId) : Sys :=
  on_nominator_remove s who nominations

/-- `OnStakingUpdate::on_validator_add`: a fresh target is inserted with
its self-stake as score; a target already in the list (idle and/or
dangling) has the self-stake added as a positive imbalance.  A validator is
also a (self-voting) nominator. -/
def on_validator_add (s : Sys) (who : AccountId) (self_stake : Option Balance) : Sys :=
  let self_stake := self_stake.getD 0   -- `unwrap_or_default().active`
  let s :=
    if containsAcc s.targetList who then
      update_target_score s who (.Positive (to_vote_extended self_stake))
    else
      { s with targetList := (onInsert s.targetList who self_stake).getD s.targetList }
  on_nominator_add s who []

/-- `OnStakingUpdate::on_validator_idle`: subtract the self-stake from the
target score (nominator contributions remain) and leave the voter list. -/
def on_validator_idle (s : Sys) (who : AccountId) : Sys :=
  let self_stake := weight_of (active_vote_of s.staking who)
  let s := update_target_score s who (.Negative self_stake)
  on_nominator_idle s who []

/-- `OnStakingUpdate::on_validator_remove`: requires an idle role (a
validator is first idled; a nominator or unknown role is a defensive
no-op), then removes `who` from the target list iff its score is zero.
`none` models the `expect` panic of the final `on_remove`. -/
def on_validator_remove (s : Sys) (who : AccountId) : Option Sys :=
  let removeIfZero : Sys → Option Sys := fun s =>
    if (getScore s.targetList who).getD 0 == 0 then
      (onRemove s.targetList who).map (fun tl => { s with targetList := tl })
    else
      some s
  match s.staking.status who with
  | some .Idle => removeIfZero s
  | some .Validator => removeIfZero (on_validator_idle s who)
  | some (.Nominator _) => some s   -- defensive: unexpected nominator.
  | none => some s                  -- defensive: non-existing target.

/-- The stake-imbalance closure of `on_stake_update`. -/
def stake_imbalance_of (prev_stake : Option Balance) (voter_weight : ExtendedBalance) :
    StakeImbalance :=
  match prev_stake with
  | some prev =>
      let prev_voter_weight := to_vote_extended prev
      if prev_voter_weight > voter_weight then
        .Negative (prev_voter_weight - voter_weight)
      else
        .Positive (voter_weight - prev_voter_weight)
  | none => .Positive voter_weight

/-- `OnStakingUpdate::on_stake_update`: on a stake change of a known
staker, update the voter-list score and propagate the signed weight delta
to the nominated targets (nominator) or to the own target score
(validator); idle stakers are a no-op, as are unknown stakers (defensive
guard). -/
def on_stake_update (s : Sys) (who : AccountId) (prev_stake : Option Balance)
    (stake : Balance) : Sys :=
  -- `status(who).and(stake(who)).is_ok()` defensive guard.
  if (s.staking.status who).isSome && (s.staking.stake who).isSome then
    let voter_weight := weight_of stake
    match s.staking.status who with
    | some (.Nominator nominations) =>
        let s := { s with voterList := (onUpdate s.voterList who voter_weight).getD s.voterList }
        let stake_imbalance := stake_imbalance_of prev_stake (to_vote_extended voter_weight)
        nominations.foldl (fun acc t => update_target_score acc t stake_imbalance) s
    | some .Validator =>
        let stake_imbalance := stake_imbalance_of prev_stake (to_vote_extended voter_weight)
        let s := update_target_score s who stake_imbalance
        { s with voterList := (onUpdate s.voterList who voter_weight).getD s.voterList }
    | some .Idle => s   -- nothing to see here.
    | none => s         -- unreachable: guarded above.
  else s

/-- `OnStakingUpdate::on_nominator_update`: apply a positive imbalance to
targets freshly nominated, a negative one to targets no longer nominated;
targets in both sets are untouched. -/
def on_nominator_update (s : Sys) (who : AccountId) (prev_nominations : List AccountId)
    (nominations : List AccountId) : Sys :=
  let nominator_vote := weight_of (active_vote_of s.staking who)
  -- new nominations
  let s := nominations.foldl
    (fun acc target =>
      if !prev_nominations.contains target then
        update_target_score acc target (.Positive nominator_vote)
      else acc) s
  -- removed nominations
  prev_nominations.foldl
    (fun acc target =>
      if !nominations.contains target then
        update_target_score acc target (.Negative nominator_vote)
      else acc) s

/-- `OnStakingUpdate::on_slash`: a no-op — slashes surface as ledger stake
reductions independently reported via `on_stake_update`. -/
def on_slash (s : Sys) (_stash : AccountId) : Sys := s

/-! ## The consistency checker (`do_try_state`) -/

/-- Outcome of a try-state check: `ok`, an `ensure!`/`Err` failure, or an
`expect`/`panic!` abort. -/
inductive CheckOutcome where
  | ok : CheckOutcome
  | failed (msg : String) : CheckOutcome
  | aborted (msg : String) : CheckOutcome
deriving DecidableEq, Repr

/-- The approvals accumulator (`BTreeMap<AccountId, ExtendedBalance>`). -/
abbrev AccMap := List (AccountId × ExtendedBalance)

/-- Accumulator lookup. -/
def mapLookup (m : AccMap) (k : AccountId) : Option ExtendedBalance :=
  (m.find? (fun p => p.1 == k)).map (fun p => p.2)

/-- `if let Some(stake) = map.get_mut(k) { *stake += v } else { map.insert(k, v) }`. -/
def mapAdd (m : AccMap) (k : AccountId) (v : ExtendedBalance) : AccMap :=
  match m with
  | [] => [(k, v)]
  | (k', v') :: rest => if k' = k then (k', v' + v) :: rest else (k', v') :: mapAdd rest k v

/-- First pass of `do_try_state_approvals`: scan the voter list and, for
every nominator, add its voter-list score to the accumulator entry of each
of its nominations (sanity-checking the score against the active stake). -/
def scanVoters (σ : StakingState) (vl : ListState) :
    List AccountId → AccMap → Except CheckOutcome AccMap
  | [], m => .ok m
  | voter :: rest, m =>
      match σ.nominationsOf voter with
      | none => scanVoters σ vl rest m
      | some nominations =>
          match getScore vl voter with
          | none => .error (.failed "nominator score must exist in voter bags list")
          | some score =>
              match σ.stake voter with
              | none => .error (.aborted "active voter has bonded stake; qed.")
              | some st =>
                  if weight_of st == score then
                    scanVoters σ vl rest
                      (nominations.foldl (fun m n => mapAdd m n (to_vote_extended score)) m)
                  else .error (.failed "voter score must be the same as its active stake")

/-- Second pass of `do_try_state_approvals`: scan the target list, check
the role-consistency side assertions, and add the self-stake of active
targets (and a zero entry for idle targets) to the accumulator. -/
def scanTargets (σ : StakingState) (vl tl : ListState) :
    List AccountId → AccMap → Except CheckOutcome AccMap
  | [], m => .ok m
  | target :: rest, m =>
      match σ.status target with
      | none =>
          if containsAcc vl target then
            .error (.failed "dangling target (i.e. unbonded) should not be part of the voter list")
          else
            match getScore tl target with
            | none => .error (.aborted "target must have score")
            | some sc =>
                if 0 < sc then scanTargets σ vl tl rest m   -- no self-stake entry
                else .error (.failed
                  "dangling target (i.e. unbonded) is part of the TargetList IFF its approval voting > 0")
      | some .Idle =>
          if containsAcc vl target then
            .error (.failed "chilled validator (idle target) should not be part of the voter list")
          else scanTargets σ vl tl rest (mapAdd m target 0)
      | some .Validator =>
          if containsAcc vl target then
            match σ.stake target with
            | some st => scanTargets σ vl tl rest (mapAdd m target (weight_of st))
            | none => scanTargets σ vl tl rest m   -- unbonded target: no self-stake.
          else
            .error (.failed "bonded and active validator should also be part of the voter list")
      | some (.Nominator _) =>
          .error (.aborted "staker with nominator status should not be part of the target list")

/-- Third pass: compare every calculated approval with the live target-list
score. -/
def compareApprovals (tl : ListState) : AccMap → CheckOutcome
  | [] => .ok
  | (target, calculated_stake) :: rest =>
      match getScore tl target with
      | none => .aborted "target must exist; qed."
      | some stake_in_list =>
          if calculated_stake = to_vote_extended stake_in_list then compareApprovals tl rest
          else .failed "target score in the target list is different than the expected"

/-- `Pallet::do_try_state_approvals`: build the approvals map from the two
lists and the staking state, compare it key by key against the live target
list, and require the key counts to agree. -/
def do_try_state_approvals (s : Sys) : CheckOutcome :=
  match scanVoters s.staking s.voterList (s.voterList.map (fun p => p.1)) [] with
  | .error e => e
  | .ok m =>
      match scanTargets s.staking s.voterList s.targetList (s.targetList.map (fun p => p.1)) m with
      | .error e => e
      | .ok m =>
          match compareApprovals s.targetList m with
          | .ok =>
              if m.length = s.targetList.length then .ok
              else .failed "calculated approvals count is different from total of target list."
          | e => e

/-- `Pallet::do_try_state`: only the approvals check runs — the sort-order
check (`do_try_state_target_sorting`) is commented out in the source. -/
def do_try_state (s : Sys) : CheckOutcome :=
  do_try_state_approvals s

/-! ## Events, the staking contract, and reachability

The event emitter (the staking pallet, outside these sources) mutates the
staking ledger *before* delivering each event.  `stepEvent` performs the
ledger mutation dictated by the event and then runs the handler, except for
the two full-removal events, whose handlers read the ledger state from just
before the ledger kill.  `validEvent` is the staking-side contract of each
event, modelled from the spec (role preconditions, matching previous
stake/nominations, nominations being a set of active validators, and a
nominator never being tracked as a target). -/

/-- One staking lifecycle event (the nine `OnStakingUpdate` calls). -/
inductive Event where
  | stakeUpdate (who : AccountId) (prevStake : Option Balance) (stake : Balance) : Event
  | validatorAdd (who : AccountId) (selfStake : Option Balance) : Event
  | validatorIdle (who : AccountId) : Event
  | validatorRemove (who : AccountId) : Event
  | nominatorAdd (who : AccountId) (noms : List AccountId) : Event
  | nominatorIdle (who : AccountId) (noms : List AccountId) : Event
  | nominatorRemove (who : AccountId) (noms : List AccountId) : Event
  | nominatorUpdate (who : AccountId) (prev next : List AccountId) : Event
  | slash (who : AccountId) : Event
deriving DecidableEq, Repr

/-- Boolean `Nodup` check for nomination lists. -/
def allDistinct : List AccountId → Bool
  | [] => true
  | a :: rest => !rest.contains a && allDistinct rest

/-- Modelled from the spec: the staking-side precondition of each event
(the ledger/nomination mutation contract of `Config::Staking`, which lives
outside these sources).  In particular: role-change events require the
matching previous role; `prev_stake`/`self_stake` parameters report the
ledger state as contracted; nominations are duplicate-free sets of
currently-active validators; and an account tracked in the target list
never starts nominating (spec invariant: "every Nominator is present only
in VoterRanking"). -/
def validEvent (s : Sys) : Event → Bool
  | .stakeUpdate who prevStake _stake =>
      -- the reported previous stake is the pre-event ledger state.
      prevStake == s.staking.stake who
  | .validatorAdd who selfStake =>
      -- an (already bonded) idle staker declares intent to validate; the
      -- reported self-stake is its current active stake.
      s.staking.status who == some .Idle && selfStake == s.staking.stake who
  | .validatorIdle who => s.staking.status who == some .Validator
  | .validatorRemove who => s.staking.status who == some .Idle
  | .nominatorAdd who noms =>
      s.staking.status who == some .Idle &&
      allDistinct noms &&
      noms.all (fun t => s.staking.status t == some .Validator) &&
      !containsAcc s.targetList who
  | .nominatorIdle who noms => s.staking.status who == some (.Nominator noms)
  | .nominatorRemove who noms => s.staking.status who == some (.Nominator noms)
  | .nominatorUpdate who prev next =>
      s.staking.status who == some (.Nominator prev) &&
      allDistinct next &&
      next.all (fun t => s.staking.status t == some .Validator)
  | .slash _ => true

/-- Apply one event: mutate the staking ledger as the event dictates, then
run the handler (`none` = the handler panicked). -/
def stepEvent (s : Sys) : Event → Option Sys
  | .stakeUpdate who prevStake stake =>
      -- ledger first: set the new active stake (a fresh bond starts idle).
      let σ' := match s.staking.bondOf who with
        | some b => s.staking.setBond who ⟨b.role, stake⟩
        | none => s.staking.setBond who ⟨.Idle, stake⟩
      some (on_stake_update { s with staking := σ' } who prevStake stake)
  | .validatorAdd who selfStake =>
      let σ' := match s.staking.bondOf who with
        | some b => s.staking.setBond who ⟨.Validator, b.active⟩
        | none => s.staking
      some (on_validator_add { s with staking := σ' } who selfStake)
  | .validatorIdle who =>
      let σ' := match s.staking.bondOf who with
        | some b => s.staking.setBond who ⟨.Idle, b.active⟩
        | none => s.staking
      some (on_validator_idle { s with staking := σ' } who)
  | .validatorRemove who =>
      -- the handler reads the (still idle) ledger; full unbond follows it.
      (on_validator_remove s who).map
        (fun s' => { s' with staking := s'.staking.removeBond who })
  | .nominatorAdd who noms =>
      let σ' := match s.staking.bondOf who with
        | some b => s.staking.setBond who ⟨.Nominator noms, b.active⟩
        | none => s.staking
      some (on_nominator_add { s with staking := σ' } who noms)
  | .nominatorIdle who noms =>
      -- chilling drops the nominations but keeps the ledger.
      let σ' := match s.staking.bondOf who with
        | some b => s.staking.setBond who ⟨.Idle, b.active⟩
        | none => s.staking
      some (on_nominator_idle { s with staking := σ' } who noms)
  | .nominatorRemove who noms =>
      -- the handler reads the ledger from just before the ledger kill.
      let s' := on_nominator_remove s who noms
      some { s' with staking := s'.staking.removeBond who }
  | .nominatorUpdate who prev next =>
      let σ' := match s.staking.bondOf who with
        | some b => s.staking.setBond who ⟨.Nominator next, b.active⟩
        | none => s.staking
      some (on_nominator_update { s with staking := σ' } who prev next)
  | .slash who => some (on_slash s who)

/-- The empty initial state: nobody bonded, both lists empty. -/
def initSys : Sys := ⟨⟨[]⟩, [], []⟩

/-- States reachable from the empty state by valid event sequences. -/
inductive Reach : Sys → Prop where
  | init : Reach initSys
  | step {s s' : Sys} {e : Event} :
      Reach s → validEvent s e = true → stepEvent s e = some s' → Reach s'

/-- Run a list of events, checking validity at each step. -/
def runEvents (s : Sys) : List Event → Option Sys
  | [] => some s
  | e :: rest =>
      if validEvent s e then
        match stepEvent s e with
        | some s' => runEvents s' rest
        | none => none
      else none

/-! ## Lemmas about the sorted-list operations -/

/-- The accounts of a list state, in iteration order. -/
def keysOf (l : ListState) : List AccountId := l.map (fun p => p.1)

/-- Target-list sort invariant: scores are non-increasing in iteration
order. -/
def TLSorted (l : ListState) : Prop := l.Pairwise (fun p q => q.2 ≤ p.2)

theorem keysOf_nil : keysOf [] = [] := rfl

theorem keysOf_cons (p : AccountId × Nat) (l : ListState) :
    keysOf (p :: l) = p.1 :: keysOf l := rfl

theorem mem_keysOf {l : ListState} {a : AccountId} :
    a ∈ keysOf l ↔ ∃ c, (a, c) ∈ l := by
  induction l with
  | nil => simp [keysOf]
  | cons p rest ih =>
      cases p with
      | mk b c =>
          simp only [keysOf_cons, List.mem_cons, ih]
          constructor
          · rintro (rfl | ⟨c', hc'⟩)
            · exact ⟨c, Or.inl rfl⟩
            · exact ⟨c', Or.inr hc'⟩
          · rintro ⟨c', (h | h)⟩
            · cases h; exact Or.inl rfl
            · exact Or.inr ⟨c', h⟩

theorem containsAcc_iff {l : ListState} {a : AccountId} :
    containsAcc l a = true ↔ a ∈ keysOf l := by
  induction l with
  | nil => simp [containsAcc, keysOf]
  | cons p rest ih =>
      simp only [containsAcc, List.any_cons, Bool.or_eq_true, beq_iff_eq, keysOf_cons,
        List.mem_cons] at *
      constructor
      · rintro (h | h)
        · exact Or.inl h.symm
        · exact Or.inr (ih.mp h)
      · rintro (h | h)
        · exact Or.inl h.symm
        · exact Or.inr (ih.mpr h)

theorem containsAcc_eq_false {l : ListState} {a : AccountId} :
    containsAcc l a = false ↔ a ∉ keysOf l := by
  rw [← Bool.not_eq_true, not_iff_not]
  exact containsAcc_iff

theorem getScore_nil (a : AccountId) : getScore [] a = none := rfl

theorem getScore_cons (b : AccountId) (c : Nat) (l : ListState) (a : AccountId) :
    getScore ((b, c) :: l) a = if b = a then some c else getScore l a := by
  by_cases h : b = a <;> simp [getScore, List.find?_cons, h]

theorem getScore_isSome_iff {l : ListState} {a : AccountId} :
    (getScore l a).isSome = true ↔ a ∈ keysOf l := by
  induction l with
  | nil => simp [getScore, keysOf]
  | cons p rest ih =>
      cases p with
      | mk b c =>
          rw [getScore_cons, keysOf_cons]
          by_cases h : b = a
          · subst h; simp
          · rw [if_neg h]
            simp only [List.mem_cons, ih]
            constructor
            · exact Or.inr
            · rintro (rfl | hh)
              · exact absurd rfl h
              · exact hh

theorem getScore_eq_none_iff {l : ListState} {a : AccountId} :
    getScore l a = none ↔ a ∉ keysOf l := by
  rw [← getScore_isSome_iff]
  cases getScore l a <;> simp

theorem getScore_mem {l : ListState} {a : AccountId} {c : Nat}
    (h : getScore l a = some c) : (a, c) ∈ l := by
  induction l with
  | nil => simp [getScore] at h
  | cons p rest ih =>
      cases p with
      | mk b c' =>
          rw [getScore_cons] at h
          by_cases hb : b = a
          · subst hb
            rw [if_pos rfl, Option.some.injEq] at h
            subst h
            exact List.mem_cons_self _ _
          · rw [if_neg hb] at h
            exact List.mem_cons_of_mem _ (ih h)

theorem mem_getScore {l : ListState} {a : AccountId} {c : Nat}
    (hnd : (keysOf l).Nodup) (h : (a, c) ∈ l) : getScore l a = some c := by
  induction l with
  | nil => simp at h
  | cons p rest ih =>
      cases p with
      | mk b c' =>
          rw [keysOf_cons, List.nodup_cons] at hnd
          rw [getScore_cons]
          rcases List.mem_cons.mp h with h | h
          · cases h; simp
          · have hb : b ≠ a := by
              rintro rfl
              exact hnd.1 (mem_keysOf.mpr ⟨c, h⟩)
            simp [hb, ih hnd.2 h]

theorem getScore_eq_some_iff {l : ListState} {a : AccountId} {c : Nat}
    (hnd : (keysOf l).Nodup) : getScore l a = some c ↔ (a, c) ∈ l :=
  ⟨getScore_mem, mem_getScore hnd⟩

theorem mem_insertSorted {l : ListState} {a : AccountId} {s : Nat} {x : AccountId × Nat} :
    x ∈ insertSorted a s l ↔ x = (a, s) ∨ x ∈ l := by
  induction l with
  | nil => simp [insertSorted]
  | cons p rest ih =>
      cases p with
      | mk b t =>
          by_cases h : s ≤ t
          · simp only [insertSorted, if_pos h, List.mem_cons, ih]
            tauto
          · rw [insertSorted, if_neg h]
            exact List.mem_cons

theorem keysOf_insertSorted {l : ListState} {a b : AccountId} {s : Nat} :
    b ∈ keysOf (insertSorted a s l) ↔ b = a ∨ b ∈ keysOf l := by
  simp only [mem_keysOf, mem_insertSorted]
  constructor
  · rintro ⟨c, (h | h)⟩
    · cases h; exact Or.inl rfl
    · exact Or.inr ⟨c, h⟩
  · rintro (rfl | ⟨c, h⟩)
    · exact ⟨s, Or.inl rfl⟩
    · exact ⟨c, Or.inr h⟩

theorem getScore_insertSorted_other {l : ListState} {a b : AccountId} {s : Nat}
    (h : b ≠ a) : getScore (insertSorted a s l) b = getScore l b := by
  have hab : a ≠ b := fun hh => h hh.symm
  induction l with
  | nil => simp [insertSorted, getScore_cons, hab]
  | cons p rest ih =>
      cases p with
      | mk b' t =>
          by_cases hle : s ≤ t
          · rw [insertSorted, if_pos hle, getScore_cons, getScore_cons, ih]
          · rw [insertSorted, if_neg hle, getScore_cons, if_neg hab, getScore_cons]

theorem getScore_insertSorted_self {l : ListState} {a : AccountId} {s : Nat}
    (h : a ∉ keysOf l) : getScore (insertSorted a s l) a = some s := by
  induction l with
  | nil => simp [insertSorted, getScore_cons]
  | cons p rest ih =>
      cases p with
      | mk b t =>
          rw [keysOf_cons, List.mem_cons] at h
          push_neg at h
          by_cases hle : s ≤ t
          · rw [insertSorted, if_pos hle, getScore_cons, if_neg (fun hh => h.1 hh.symm)]
            exact ih h.2
          · rw [insertSorted, if_neg hle, getScore_cons, if_pos rfl]

theorem nodup_keysOf_insertSorted {l : ListState} {a : AccountId} {s : Nat}
    (hnd : (keysOf l).Nodup) (h : a ∉ keysOf l) : (keysOf (insertSorted a s l)).Nodup := by
  induction l with
  | nil => simp [insertSorted, keysOf]
  | cons p rest ih =>
      cases p with
      | mk b t =>
          rw [keysOf_cons, List.nodup_cons] at hnd
          rw [keysOf_cons, List.mem_cons] at h
          push_neg at h
          by_cases hle : s ≤ t
          · rw [insertSorted, if_pos hle, keysOf_cons, List.nodup_cons]
            refine ⟨fun hb => ?_, ih hnd.2 h.2⟩
            rcases keysOf_insertSorted.mp hb with hb | hb
            · exact h.1 hb.symm
            · exact hnd.1 hb
          · rw [insertSorted, if_neg hle, keysOf_cons, keysOf_cons, List.nodup_cons,
              List.nodup_cons]
            refine ⟨fun hb => ?_, hnd.1, hnd.2⟩
            rcases List.mem_cons.mp hb with hb | hb
            · exact h.1 hb
            · exact h.2 hb

theorem tlsorted_insertSorted {l : ListState} {a : AccountId} {s : Nat}
    (hs : TLSorted l) : TLSorted (insertSorted a s l) := by
  induction l with
  | nil => simp [insertSorted, TLSorted]
  | cons p rest ih =>
      cases p with
      | mk b t =>
          rw [TLSorted, List.pairwise_cons] at hs
          by_cases hle : s ≤ t
          · rw [insertSorted, if_pos hle, TLSorted, List.pairwise_cons]
            refine ⟨fun x hx => ?_, ih hs.2⟩
            rcases mem_insertSorted.mp hx with rfl | hx
            · exact hle
            · exact hs.1 x hx
          · rw [insertSorted, if_neg hle, TLSorted, List.pairwise_cons]
            push_neg at hle
            refine ⟨fun x hx => ?_, List.pairwise_cons.mpr hs⟩
            rcases List.mem_cons.mp hx with rfl | hx
            · exact le_of_lt hle
            · exact le_trans (hs.1 x hx) (le_of_lt hle)

theorem removeKey_cons (b : AccountId) (t : Nat) (l : ListState) (a : AccountId) :
    removeKey ((b, t) :: l) a =
      if b = a then removeKey l a else (b, t) :: removeKey l a := by
  by_cases h : b = a <;> simp [removeKey, List.filter_cons, h]

theorem mem_removeKey {l : ListState} {a : AccountId} {x : AccountId × Nat} :
    x ∈ removeKey l a ↔ x ∈ l ∧ x.1 ≠ a := by
  simp [removeKey, List.mem_filter, bne_iff_ne]

theorem keysOf_removeKey {l : ListState} {a b : AccountId} :
    b ∈ keysOf (removeKey l a) ↔ b ∈ keysOf l ∧ b ≠ a := by
  simp only [mem_keysOf, mem_removeKey]
  constructor
  · rintro ⟨c, hc, hne⟩
    exact ⟨⟨c, hc⟩, hne⟩
  · rintro ⟨⟨c, hc⟩, hne⟩
    exact ⟨c, hc, hne⟩

theorem getScore_removeKey_self {l : ListState} {a : AccountId} :
    getScore (removeKey l a) a = none := by
  rw [getScore_eq_none_iff, keysOf_removeKey]
  simp

theorem getScore_removeKey_other {l : ListState} {a b : AccountId} (h : b ≠ a) :
    getScore (removeKey l a) b = getScore l b := by
  induction l with
  | nil => rfl
  | cons p rest ih =>
      cases p with
      | mk b' t =>
          rw [removeKey_cons, getScore_cons]
          by_cases hb : b' = a
          · subst hb
            rw [if_pos rfl, if_neg (fun hh => h hh.symm)]
            exact ih
          · rw [if_neg hb, getScore_cons]
            split
            · rfl
            · exact ih

theorem nodup_keysOf_removeKey {l : ListState} {a : AccountId}
    (hnd : (keysOf l).Nodup) : (keysOf (removeKey l a)).Nodup := by
  induction l with
  | nil => simp [removeKey, keysOf]
  | cons p rest ih =>
      cases p with
      | mk b t =>
          rw [keysOf_cons, List.nodup_cons] at hnd
          rw [removeKey_cons]
          by_cases hb : b = a
          · rw [if_pos hb]
            exact ih hnd.2
          · rw [if_neg hb, keysOf_cons, List.nodup_cons]
            refine ⟨fun hmem => ?_, ih hnd.2⟩
            exact hnd.1 (keysOf_removeKey.mp hmem).1

theorem tlsorted_removeKey {l : ListState} {a : AccountId} (hs : TLSorted l) :
    TLSorted (removeKey l a) :=
  List.Pairwise.sublist (List.filter_sublist l) hs

/-! ## Lemmas about the staking state -/

/-- The bonded accounts. -/
def stakerKeys (σ : StakingState) : List AccountId := σ.stakers.map (fun p => p.1)

theorem mem_stakerKeys {σ : StakingState} {a : AccountId} :
    a ∈ stakerKeys σ ↔ ∃ b, (a, b) ∈ σ.stakers := by
  rw [stakerKeys]
  constructor
  · intro h
    obtain ⟨⟨x, y⟩, hm, he⟩ := List.mem_map.mp h
    simp only at he
    subst he
    exact ⟨y, hm⟩
  · rintro ⟨b, hb⟩
    exact List.mem_map.mpr ⟨(a, b), hb, rfl⟩

theorem bondOf_cons (a' : AccountId) (b' : Bond) (l : List (AccountId × Bond))
    (a : AccountId) :
    StakingState.bondOf ⟨(a', b') :: l⟩ a =
      if a' = a then some b' else StakingState.bondOf ⟨l⟩ a := by
  by_cases h : a' = a <;> simp [StakingState.bondOf, List.find?_cons, h]

theorem bondOf_eq_none_iff {σ : StakingState} {a : AccountId} :
    σ.bondOf a = none ↔ a ∉ stakerKeys σ := by
  obtain ⟨l⟩ := σ
  induction l with
  | nil => simp [StakingState.bondOf, stakerKeys]
  | cons p rest ih =>
      cases p with
      | mk a' b' =>
          rw [bondOf_cons]
          by_cases h : a' = a
          · subst h
            simp [stakerKeys]
          · rw [if_neg h, ih]
            simp only [stakerKeys, List.map_cons, List.mem_cons]
            constructor
            · rintro hn (hh | hh)
              · exact h hh.symm
              · exact hn hh
            · intro hn hh
              exact hn (Or.inr hh)

theorem bondOf_isSome_iff {σ : StakingState} {a : AccountId} :
    (σ.bondOf a).isSome = true ↔ a ∈ stakerKeys σ := by
  constructor
  · intro h
    by_contra hn
    rw [← bondOf_eq_none_iff] at hn
    rw [hn] at h
    simp at h
  · intro h
    cases hb : σ.bondOf a with
    | some b => rfl
    | none => exact absurd (bondOf_eq_none_iff.mp hb) (by simpa using h)

theorem bondOf_mem {σ : StakingState} {a : AccountId} {b : Bond}
    (h : σ.bondOf a = some b) : (a, b) ∈ σ.stakers := by
  obtain ⟨l⟩ := σ
  induction l with
  | nil => simp [StakingState.bondOf] at h
  | cons p rest ih =>
      cases p with
      | mk a' b' =>
          rw [bondOf_cons] at h
          by_cases ha : a' = a
          · subst ha
            rw [if_pos rfl, Option.some.injEq] at h
            subst h
            exact List.mem_cons_self _ _
          · rw [if_neg ha] at h
            exact List.mem_cons_of_mem _ (ih h)

theorem mem_bondOf {σ : StakingState} {a : AccountId} {b : Bond}
    (hnd : (stakerKeys σ).Nodup) (h : (a, b) ∈ σ.stakers) : σ.bondOf a = some b := by
  obtain ⟨l⟩ := σ
  induction l with
  | nil => simp at h
  | cons p rest ih =>
      cases p with
      | mk a' b' =>
          rw [stakerKeys] at hnd
          simp only [List.map_cons, List.nodup_cons] at hnd
          rw [bondOf_cons]
          rcases List.mem_cons.mp h with h | h
          · cases h
            simp
          · have ha : a' ≠ a := by
              rintro rfl
              refine hnd.1 ?_
              have : a' ∈ stakerKeys ⟨rest⟩ := mem_stakerKeys.mpr ⟨b, h⟩
              simpa [stakerKeys] using this
            rw [if_neg ha]
            exact ih hnd.2 h

theorem bondOf_setBond_self (σ : StakingState) (a : AccountId) (b : Bond) :
    (σ.setBond a b).bondOf a = some b := by
  simp [StakingState.setBond, bondOf_cons]

theorem bondOf_filter_ne {l : List (AccountId × Bond)} {a a' : AccountId}
    (h : a' ≠ a) :
    StakingState.bondOf ⟨l.filter (fun p => p.1 != a)⟩ a' = StakingState.bondOf ⟨l⟩ a' := by
  induction l with
  | nil => rfl
  | cons p rest ih =>
      cases p with
      | mk x y =>
          rw [List.filter_cons]
          by_cases hx : x = a
          · subst hx
            simp only [bne_self_eq_false, Bool.false_eq_true, if_false]
            rw [ih, bondOf_cons, if_neg (fun hh => h hh.symm)]
          · have : ((x, y).1 != a) = true := by simpa [bne_iff_ne] using hx
            rw [if_pos this, bondOf_cons, bondOf_cons, ih]

theorem bondOf_setBond_other {σ : StakingState} {a a' : AccountId} (b : Bond)
    (h : a' ≠ a) : (σ.setBond a b).bondOf a' = σ.bondOf a' := by
  rw [StakingState.setBond]
  rw [bondOf_cons, if_neg (fun hh => h hh.symm)]
  exact bondOf_filter_ne h

theorem bondOf_removeBond_self (σ : StakingState) (a : AccountId) :
    (σ.removeBond a).bondOf a = none := by
  rw [bondOf_eq_none_iff]
  intro hmem
  obtain ⟨b, hb⟩ := mem_stakerKeys.mp hmem
  rw [StakingState.removeBond] at hb
  simp only [List.mem_filter, bne_iff_ne] at hb
  exact hb.2 rfl

theorem bondOf_removeBond_other {σ : StakingState} {a a' : AccountId}
    (h : a' ≠ a) : (σ.removeBond a).bondOf a' = σ.bondOf a' :=
  bondOf_filter_ne h

theorem nodup_stakerKeys_setBond {σ : StakingState} {a : AccountId} {b : Bond}
    (hnd : (stakerKeys σ).Nodup) : (stakerKeys (σ.setBond a b)).Nodup := by
  rw [StakingState.setBond, stakerKeys, List.map_cons, List.nodup_cons]
  constructor
  · intro hmem
    have : a ∈ stakerKeys ⟨σ.stakers.filter (fun p => p.1 != a)⟩ := hmem
    obtain ⟨b', hb'⟩ := mem_stakerKeys.mp this
    simp only [List.mem_filter, bne_iff_ne] at hb'
    exact hb'.2 rfl
  · have hsub : (σ.stakers.filter (fun p => p.1 != a)).map (fun p => p.1) |>.Sublist
        (σ.stakers.map (fun p => p.1)) :=
      List.Sublist.map _ (List.filter_sublist _)
    exact hnd.sublist hsub

theorem nodup_stakerKeys_removeBond {σ : StakingState} {a : AccountId}
    (hnd : (stakerKeys σ).Nodup) : (stakerKeys (σ.removeBond a)).Nodup := by
  have hsub : (σ.stakers.filter (fun p => p.1 != a)).map (fun p => p.1) |>.Sublist
      (σ.stakers.map (fun p => p.1)) :=
    List.Sublist.map _ (List.filter_sublist _)
  exact hnd.sublist hsub

theorem status_eq_map_bondOf (σ : StakingState) (a : AccountId) :
    σ.status a = (σ.bondOf a).map (fun b => b.role) := rfl

theorem stake_eq_map_bondOf (σ : StakingState) (a : AccountId) :
    σ.stake a = (σ.bondOf a).map (fun b => b.active) := rfl

/-! ## Approval-score bookkeeping

`selfWeight` and `listersSum` express, over the embedded staking state, the
quantity the spec calls the *approval weight* of a target: self-weight (the
weight of the active stake for a validator, zero otherwise) plus the sum of
the weights of the active stakes of every nominator currently listing the
target. -/

/-- Whether a bonded staker currently lists `t` among its nominations. -/
def listsTarget (b : Bond) (t : AccountId) : Bool :=
  match b.role with
  | .Nominator noms => noms.contains t
  | _ => false

/-- The approval contribution of one bonded staker to target `t`. -/
def contribOf (b : Bond) (t : AccountId) : Nat :=
  if listsTarget b t then weight_of b.active else 0

/-- The approval contribution of an optional bonded entry. -/
def accContrib (ob : Option Bond) (t : AccountId) : Nat :=
  match ob with
  | some b => contribOf b t
  | none => 0

/-- Sum of the weights of the active stakes of all nominators currently
listing `t`. -/
def listersSum (σ : StakingState) (t : AccountId) : Nat :=
  (σ.stakers.map (fun p => contribOf p.2 t)).sum

/-- The self-weight of a target: the weight of its active stake if its role
is `Validator`, else zero. -/
def selfWeight (σ : StakingState) (a : AccountId) : Nat :=
  match σ.status a with
  | some .Validator => weight_of ((σ.stake a).getD 0)
  | _ => 0

/-- The approval contribution to `t` summed over a list of accounts. -/
def contribKeysSum (σ : StakingState) (t : AccountId) (voters : List AccountId) : Nat :=
  (voters.map (fun a => accContrib (σ.bondOf a) t)).sum

theorem contribSum_filter_ne (l : List (AccountId × Bond)) (who t : AccountId)
    (hnd : (l.map (fun p => p.1)).Nodup) :
    (l.map (fun p => contribOf p.2 t)).sum
      = ((l.filter (fun p => p.1 != who)).map (fun p => contribOf p.2 t)).sum
        + accContrib (StakingState.bondOf ⟨l⟩ who) t := by
  induction l with
  | nil => simp [StakingState.bondOf, accContrib]
  | cons p rest ih =>
      cases p with
      | mk x y =>
          simp only [List.map_cons, List.nodup_cons] at hnd
          rw [List.map_cons, List.sum_cons, List.filter_cons, bondOf_cons]
          by_cases hx : x = who
          · subst hx
            simp only [bne_self_eq_false, Bool.false_eq_true, if_false, if_pos rfl]
            have hrest : rest.filter (fun p => p.1 != x) = rest := by
              refine List.filter_eq_self.mpr (fun p hp => ?_)
              simp only [bne_iff_ne]
              rintro rfl
              exact hnd.1 (List.mem_map.mpr ⟨p, hp, rfl⟩)
            rw [hrest]
            simp only [if_true, accContrib]
            omega
          · have hcond : ((x, y).1 != who) = true := by simpa [bne_iff_ne] using hx
            rw [if_pos hcond, if_neg hx, List.map_cons, List.sum_cons, ih hnd.2]
            omega

theorem listersSum_setBond (σ : StakingState) (who t : AccountId) (b : Bond)
    (hnd : (stakerKeys σ).Nodup) :
    listersSum (σ.setBond who b) t + accContrib (σ.bondOf who) t
      = listersSum σ t + contribOf b t := by
  have h := contribSum_filter_ne σ.stakers who t hnd
  have h4 : StakingState.bondOf ⟨σ.stakers⟩ who = σ.bondOf who := rfl
  rw [h4] at h
  have h2 : listersSum (σ.setBond who b) t
      = contribOf b t
        + ((σ.stakers.filter (fun p => p.1 != who)).map (fun p => contribOf p.2 t)).sum := by
    simp [listersSum, StakingState.setBond]
  have h3 : listersSum σ t = (σ.stakers.map (fun p => contribOf p.2 t)).sum := rfl
  omega

theorem listersSum_removeBond (σ : StakingState) (who t : AccountId)
    (hnd : (stakerKeys σ).Nodup) :
    listersSum (σ.removeBond who) t + accContrib (σ.bondOf who) t = listersSum σ t := by
  have h := contribSum_filter_ne σ.stakers who t hnd
  have h4 : StakingState.bondOf ⟨σ.stakers⟩ who = σ.bondOf who := rfl
  rw [h4] at h
  have h2 : listersSum (σ.removeBond who) t
      = ((σ.stakers.filter (fun p => p.1 != who)).map (fun p => contribOf p.2 t)).sum := rfl
  have h3 : listersSum σ t = (σ.stakers.map (fun p => contribOf p.2 t)).sum := rfl
  omega

/-! ## Behaviour of `update_target_score` -/

theorem should_remove_target_eq_true {σ : StakingState} {who : AccountId} {x : Balance} :
    should_remove_target σ who x = true ↔ x = 0 ∧ σ.status who = none := by
  rw [should_remove_target, Bool.and_eq_true, beq_iff_eq, Option.isNone_iff_eq_none]

theorem contains_of_getScore {tl : ListState} {who : AccountId} {c : Nat}
    (hc : getScore tl who = some c) : containsAcc tl who = true :=
  containsAcc_iff.mpr (getScore_isSome_iff.mp (by rw [hc]; rfl))

theorem apply_pos {σ : StakingState} {tl : ListState} {who : AccountId} {d c : Nat}
    (hc : getScore tl who = some c) :
    apply_target_imbalance σ tl who (.Positive d)
      = insertSorted who (c + d) (removeKey tl who) := by
  have hmem := contains_of_getScore hc
  simp [apply_target_imbalance, onIncrease, hc, onUpdate, hmem, to_currency]

theorem apply_neg_keep {σ : StakingState} {tl : ListState} {who : AccountId} {d c : Nat}
    (hc : getScore tl who = some c)
    (hkeep : ¬(c - d = 0 ∧ σ.status who = none)) :
    apply_target_imbalance σ tl who (.Negative d)
      = insertSorted who (c - d) (removeKey tl who) := by
  have hmem := contains_of_getScore hc
  have hsr : should_remove_target σ who (c - d) = false := by
    rw [← Bool.not_eq_true, should_remove_target_eq_true]
    exact hkeep
  simp [apply_target_imbalance, hc, hsr, onUpdate, hmem, to_currency, to_vote_extended]

theorem apply_neg_remove {σ : StakingState} {tl : ListState} {who : AccountId} {d c : Nat}
    (hc : getScore tl who = some c) (h0 : c - d = 0) (hst : σ.status who = none) :
    apply_target_imbalance σ tl who (.Negative d) = removeKey tl who := by
  have hmem := contains_of_getScore hc
  have hsr : should_remove_target σ who (c - d) = true :=
    should_remove_target_eq_true.mpr ⟨h0, hst⟩
  simp [apply_target_imbalance, hc, hsr, onRemove, hmem, to_currency, to_vote_extended]

theorem apply_getScore_other {σ : StakingState} {tl : ListState} {who b : AccountId}
    {imb : StakeImbalance} (h : b ≠ who) :
    getScore (apply_target_imbalance σ tl who imb) b = getScore tl b := by
  cases imb with
  | Positive d =>
      cases hc : getScore tl who with
      | none => rw [apply_target_imbalance, onIncrease, hc]; rfl
      | some c =>
          rw [apply_pos hc, getScore_insertSorted_other h, getScore_removeKey_other h]
  | Negative d =>
      cases hc : getScore tl who with
      | none => rw [apply_target_imbalance, hc]
      | some c =>
          by_cases hk : c - d = 0 ∧ σ.status who = none
          · rw [apply_neg_remove hc hk.1 hk.2, getScore_removeKey_other h]
          · rw [apply_neg_keep hc hk, getScore_insertSorted_other h,
              getScore_removeKey_other h]

theorem apply_nodup {σ : StakingState} {tl : ListState} {who : AccountId}
    {imb : StakeImbalance} (hnd : (keysOf tl).Nodup) :
    (keysOf (apply_target_imbalance σ tl who imb)).Nodup := by
  have hrem : (keysOf (removeKey tl who)).Nodup := nodup_keysOf_removeKey hnd
  have hwho : who ∉ keysOf (removeKey tl who) := fun hmem =>
    (keysOf_removeKey.mp hmem).2 rfl
  cases imb with
  | Positive d =>
      cases hc : getScore tl who with
      | none => rw [apply_target_imbalance, onIncrease, hc]; exact hnd
      | some c => rw [apply_pos hc]; exact nodup_keysOf_insertSorted hrem hwho
  | Negative d =>
      cases hc : getScore tl who with
      | none => rw [apply_target_imbalance, hc]; exact hnd
      | some c =>
          by_cases hk : c - d = 0 ∧ σ.status who = none
          · rw [apply_neg_remove hc hk.1 hk.2]; exact hrem
          · rw [apply_neg_keep hc hk]; exact nodup_keysOf_insertSorted hrem hwho

theorem apply_sorted {σ : StakingState} {tl : ListState} {who : AccountId}
    {imb : StakeImbalance} (hs : TLSorted tl) :
    TLSorted (apply_target_imbalance σ tl who imb) := by
  have hrem : TLSorted (removeKey tl who) := tlsorted_removeKey hs
  cases imb with
  | Positive d =>
      cases hc : getScore tl who with
      | none => rw [apply_target_imbalance, onIncrease, hc]; exact hs
      | some c => rw [apply_pos hc]; exact tlsorted_insertSorted hrem
  | Negative d =>
      cases hc : getScore tl who with
      | none => rw [apply_target_imbalance, hc]; exact hs
      | some c =>
          by_cases hk : c - d = 0 ∧ σ.status who = none
          · rw [apply_neg_remove hc hk.1 hk.2]; exact hrem
          · rw [apply_neg_keep hc hk]; exact tlsorted_insertSorted hrem

theorem utsl_of_mem {σ : StakingState} {tl : ListState} {who : AccountId}
    {imb : StakeImbalance} (hmem : containsAcc tl who = true) :
    update_target_score_tl σ tl who imb = apply_target_imbalance σ tl who imb := by
  rw [update_target_score_tl, if_pos hmem]

theorem utsl_absent_skip {σ : StakingState} {tl : ListState} {who : AccountId}
    {imb : StakeImbalance} (hmem : containsAcc tl who = false)
    (hst : σ.status who = none ∨ (∃ noms, σ.status who = some (.Nominator noms)) ∨
      σ.status who = some .Validator) :
    update_target_score_tl σ tl who imb = tl := by
  rw [update_target_score_tl, if_neg (by rw [hmem]; exact Bool.false_ne_true)]
  rcases hst with h | ⟨noms, h⟩ | h <;> rw [h]

theorem utsl_absent_idle {σ : StakingState} {tl : ListState} {who : AccountId}
    {imb : StakeImbalance} (hmem : containsAcc tl who = false)
    (hst : σ.status who = some .Idle) :
    update_target_score_tl σ tl who imb
      = apply_target_imbalance σ (insertSorted who 0 tl) who imb := by
  rw [update_target_score_tl, if_neg (by rw [hmem]; exact Bool.false_ne_true), hst]
  rw [onInsert, if_neg (by rw [hmem]; exact Bool.false_ne_true)]
  rfl

theorem utsl_getScore_other {σ : StakingState} {tl : ListState} {who b : AccountId}
    {imb : StakeImbalance} (h : b ≠ who) :
    getScore (update_target_score_tl σ tl who imb) b = getScore tl b := by
  cases hmem : containsAcc tl who with
  | true => rw [utsl_of_mem hmem, apply_getScore_other h]
  | false =>
      cases hst : σ.status who with
      | none => rw [utsl_absent_skip hmem (Or.inl hst)]
      | some st =>
          cases st with
          | Nominator noms => rw [utsl_absent_skip hmem (Or.inr (Or.inl ⟨noms, hst⟩))]
          | Validator => rw [utsl_absent_skip hmem (Or.inr (Or.inr hst))]
          | Idle =>
              rw [utsl_absent_idle hmem hst, apply_getScore_other h,
                getScore_insertSorted_other h]

theorem utsl_nodup {σ : StakingState} {tl : ListState} {who : AccountId}
    {imb : StakeImbalance} (hnd : (keysOf tl).Nodup) :
    (keysOf (update_target_score_tl σ tl who imb)).Nodup := by
  cases hmem : containsAcc tl who with
  | true => rw [utsl_of_mem hmem]; exact apply_nodup hnd
  | false =>
      cases hst : σ.status who with
      | none => rw [utsl_absent_skip hmem (Or.inl hst)]; exact hnd
      | some st =>
          cases st with
          | Nominator noms =>
              rw [utsl_absent_skip hmem (Or.inr (Or.inl ⟨noms, hst⟩))]; exact hnd
          | Validator => rw [utsl_absent_skip hmem (Or.inr (Or.inr hst))]; exact hnd
          | Idle =>
              rw [utsl_absent_idle hmem hst]
              exact apply_nodup
                (nodup_keysOf_insertSorted hnd (containsAcc_eq_false.mp hmem))

theorem utsl_sorted {σ : StakingState} {tl : ListState} {who : AccountId}
    {imb : StakeImbalance} (hs : TLSorted tl) :
    TLSorted (update_target_score_tl σ tl who imb) := by
  cases hmem : containsAcc tl who with
  | true => rw [utsl_of_mem hmem]; exact apply_sorted hs
  | false =>
      cases hst : σ.status who with
      | none => rw [utsl_absent_skip hmem (Or.inl hst)]; exact hs
      | some st =>
          cases st with
          | Nominator noms =>
              rw [utsl_absent_skip hmem (Or.inr (Or.inl ⟨noms, hst⟩))]; exact hs
          | Validator => rw [utsl_absent_skip hmem (Or.inr (Or.inr hst))]; exact hs
          | Idle =>
              rw [utsl_absent_idle hmem hst]
              exact apply_sorted (tlsorted_insertSorted hs)

theorem utsl_pos_mem {σ : StakingState} {tl : ListState} {who : AccountId} {d c : Nat}
    (hc : getScore tl who = some c) :
    getScore (update_target_score_tl σ tl who (.Positive d)) who = some (c + d) := by
  rw [utsl_of_mem (contains_of_getScore hc), apply_pos hc]
  exact getScore_insertSorted_self (fun hmem => (keysOf_removeKey.mp hmem).2 rfl)

theorem utsl_neg_mem_keep {σ : StakingState} {tl : ListState} {who : AccountId} {d c : Nat}
    (hc : getScore tl who = some c) (hkeep : ¬(c - d = 0 ∧ σ.status who = none)) :
    getScore (update_target_score_tl σ tl who (.Negative d)) who = some (c - d) := by
  rw [utsl_of_mem (contains_of_getScore hc), apply_neg_keep hc hkeep]
  exact getScore_insertSorted_self (fun hmem => (keysOf_removeKey.mp hmem).2 rfl)

theorem utsl_neg_mem_remove {σ : StakingState} {tl : ListState} {who : AccountId} {d c : Nat}
    (hc : getScore tl who = some c) (h0 : c - d = 0) (hst : σ.status who = none) :
    who ∉ keysOf (update_target_score_tl σ tl who (.Negative d)) := by
  rw [utsl_of_mem (contains_of_getScore hc), apply_neg_remove hc h0 hst]
  intro hmem
  exact (keysOf_removeKey.mp hmem).2 rfl

theorem utsl_absent_idle_pos {σ : StakingState} {tl : ListState} {who : AccountId} {d : Nat}
    (hmem : containsAcc tl who = false) (hst : σ.status who = some .Idle) :
    getScore (update_target_score_tl σ tl who (.Positive d)) who = some d := by
  have hwho : who ∉ keysOf tl := containsAcc_eq_false.mp hmem
  have h0 : getScore (insertSorted who 0 tl) who = some 0 := getScore_insertSorted_self hwho
  rw [utsl_absent_idle hmem hst, apply_pos h0, Nat.zero_add]
  exact getScore_insertSorted_self (fun hm => (keysOf_removeKey.mp hm).2 rfl)

theorem utsl_absent_idle_neg {σ : StakingState} {tl : ListState} {who : AccountId} {d : Nat}
    (hmem : containsAcc tl who = false) (hst : σ.status who = some .Idle) :
    getScore (update_target_score_tl σ tl who (.Negative d)) who = some 0 := by
  have hwho : who ∉ keysOf tl := containsAcc_eq_false.mp hmem
  have h0 : getScore (insertSorted who 0 tl) who = some 0 := getScore_insertSorted_self hwho
  have hkeep : ¬((0 : Nat) - d = 0 ∧ σ.status who = none) := by
    rintro ⟨-, hn⟩
    rw [hst] at hn
    cases hn
  rw [utsl_absent_idle hmem hst, apply_neg_keep h0 hkeep]
  have : (0 : Nat) - d = 0 := Nat.zero_sub d
  rw [this]
  exact getScore_insertSorted_self (fun hm => (keysOf_removeKey.mp hm).2 rfl)

theorem onInsert_getD_of_not_mem {l : ListState} {a : AccountId} {s : Nat}
    (hmem : containsAcc l a = false) : (onInsert l a s).getD l = insertSorted a s l := by
  rw [onInsert, if_neg (by rw [hmem]; exact Bool.false_ne_true), Option.getD_some]

theorem onInsert_getD_of_mem {l : ListState} {a : AccountId} {s : Nat}
    (hmem : containsAcc l a = true) : (onInsert l a s).getD l = l := by
  rw [onInsert, if_pos hmem, Option.getD_none]

theorem onUpdate_getD_of_mem {l : ListState} {a : AccountId} {s : Nat}
    (hmem : containsAcc l a = true) :
    (onUpdate l a s).getD l = insertSorted a s (removeKey l a) := by
  rw [onUpdate, if_pos hmem, Option.getD_some]

theorem onUpdate_getD_of_not_mem {l : ListState} {a : AccountId} {s : Nat}
    (hmem : containsAcc l a = false) : (onUpdate l a s).getD l = l := by
  rw [onUpdate, if_neg (by rw [hmem]; exact Bool.false_ne_true), Option.getD_none]

theorem onRemove_getD_of_mem {l : ListState} {a : AccountId}
    (hmem : containsAcc l a = true) : (onRemove l a).getD l = removeKey l a := by
  rw [onRemove, if_pos hmem, Option.getD_some]

theorem onRemove_getD_of_not_mem {l : ListState} {a : AccountId}
    (hmem : containsAcc l a = false) : (onRemove l a).getD l = l := by
  rw [onRemove, if_neg (by rw [hmem]; exact Bool.false_ne_true), Option.getD_none]

/-- The key set of `update_target_score_tl` is contained in the original
one whenever the subject is already tracked. -/
theorem utsl_mem_keys_subset {σ : StakingState} {tl : ListState} {who b : AccountId}
    {imb : StakeImbalance} (hwho : containsAcc tl who = true)
    (hb : b ∈ keysOf (update_target_score_tl σ tl who imb)) : b ∈ keysOf tl := by
  by_cases hbw : b = who
  · subst hbw
    exact containsAcc_iff.mp hwho
  · have := @utsl_getScore_other σ tl who b imb hbw
    rw [← getScore_isSome_iff, this, getScore_isSome_iff] at hb
    exact hb

/-- Membership is preserved exactly by a positive update of a tracked
target. -/
theorem utsl_pos_keys {σ : StakingState} {tl : ListState} {who b : AccountId} {d c : Nat}
    (hc : getScore tl who = some c) :
    b ∈ keysOf (update_target_score_tl σ tl who (.Positive d)) ↔ b ∈ keysOf tl := by
  by_cases hbw : b = who
  · subst hbw
    rw [← getScore_isSome_iff, ← getScore_isSome_iff, utsl_pos_mem hc, hc]
    simp
  · rw [← getScore_isSome_iff, ← getScore_isSome_iff, utsl_getScore_other hbw]

/-! ## Folds of target updates over nomination lists -/

/-- The fold each handler performs over a nomination list. -/
def foldTargets (σ : StakingState) (imb : StakeImbalance) (tl : ListState)
    (ts : List AccountId) : ListState :=
  ts.foldl (fun tl t => update_target_score_tl σ tl t imb) tl

theorem foldTargets_nil (σ : StakingState) (imb : StakeImbalance) (tl : ListState) :
    foldTargets σ imb tl [] = tl := rfl

theorem foldTargets_cons (σ : StakingState) (imb : StakeImbalance) (tl : ListState)
    (t : AccountId) (ts : List AccountId) :
    foldTargets σ imb tl (t :: ts)
      = foldTargets σ imb (update_target_score_tl σ tl t imb) ts := rfl

theorem foldTargets_nodup {σ : StakingState} {imb : StakeImbalance} {ts : List AccountId} :
    ∀ {tl : ListState}, (keysOf tl).Nodup → (keysOf (foldTargets σ imb tl ts)).Nodup := by
  induction ts with
  | nil => intro tl h; exact h
  | cons t rest ih =>
      intro tl h
      rw [foldTargets_cons]
      exact ih (utsl_nodup h)

theorem foldTargets_sorted {σ : StakingState} {imb : StakeImbalance} {ts : List AccountId} :
    ∀ {tl : ListState}, TLSorted tl → TLSorted (foldTargets σ imb tl ts) := by
  induction ts with
  | nil => intro tl h; exact h
  | cons t rest ih =>
      intro tl h
      rw [foldTargets_cons]
      exact ih (utsl_sorted h)

theorem foldTargets_getScore_not_mem {σ : StakingState} {imb : StakeImbalance}
    {ts : List AccountId} {b : AccountId} (hb : b ∉ ts) :
    ∀ {tl : ListState}, getScore (foldTargets σ imb tl ts) b = getScore tl b := by
  induction ts with
  | nil => intro tl; rfl
  | cons t rest ih =>
      intro tl
      rw [List.mem_cons] at hb
      push_neg at hb
      rw [foldTargets_cons, ih hb.2, utsl_getScore_other hb.1]

/-- A single target update can only add its own subject as a key. -/
theorem utsl_keys_subset_or {σ : StakingState} {tl : ListState} {who b : AccountId}
    {imb : StakeImbalance} (hb : b ∈ keysOf (update_target_score_tl σ tl who imb)) :
    b ∈ keysOf tl ∨ b = who := by
  by_cases hbw : b = who
  · exact Or.inr hbw
  · refine Or.inl ?_
    rw [← getScore_isSome_iff, utsl_getScore_other hbw, getScore_isSome_iff] at hb
    exact hb

theorem foldTargets_keys_subset_or {σ : StakingState} {imb : StakeImbalance}
    {ts : List AccountId} {b : AccountId} :
    ∀ {tl : ListState}, b ∈ keysOf (foldTargets σ imb tl ts) → b ∈ keysOf tl ∨ b ∈ ts := by
  induction ts with
  | nil => intro tl h; exact Or.inl h
  | cons t rest ih =>
      intro tl hb
      rw [foldTargets_cons] at hb
      rcases ih hb with hb | hb
      · rcases utsl_keys_subset_or hb with hb | hb
        · exact Or.inl hb
        · exact Or.inr (by rw [hb]; exact List.mem_cons_self _ _)
      · exact Or.inr (List.mem_cons_of_mem _ hb)

theorem foldTargets_mem_keys_subset {σ : StakingState} {imb : StakeImbalance}
    {ts : List AccountId} {b : AccountId} {tl : ListState}
    (hmem : ∀ t ∈ ts, t ∈ keysOf tl)
    (hb : b ∈ keysOf (foldTargets σ imb tl ts)) : b ∈ keysOf tl := by
  rcases foldTargets_keys_subset_or hb with h | h
  · exact h
  · exact hmem b h

theorem foldTargets_pos_getScore {σ : StakingState} {d : Nat} {ts : List AccountId}
    (hts : ts.Nodup) :
    ∀ {tl : ListState} {b : AccountId} {c : Nat}, (∀ t ∈ ts, t ∈ keysOf tl) →
      getScore tl b = some c →
      getScore (foldTargets σ (.Positive d) tl ts) b
        = some (c + if b ∈ ts then d else 0) := by
  induction ts with
  | nil =>
      intro tl b c _ hc
      simp [foldTargets_nil, hc]
  | cons t rest ih =>
      intro tl b c hmem hc
      rw [List.nodup_cons] at hts
      obtain ⟨ct, hct⟩ :=
        Option.isSome_iff_exists.mp (getScore_isSome_iff.mpr (hmem t (List.mem_cons_self _ _)))
      have hmem' : ∀ t' ∈ rest, t' ∈ keysOf (update_target_score_tl σ tl t (.Positive d)) := by
        intro t' ht'
        rw [utsl_pos_keys hct]
        exact hmem t' (List.mem_cons_of_mem _ ht')
      rw [foldTargets_cons]
      by_cases hbt : b = t
      · subst hbt
        rw [hc] at hct
        cases hct
        rw [foldTargets_getScore_not_mem hts.1, utsl_pos_mem hc]
        simp
      · have hb1 : getScore (update_target_score_tl σ tl t (.Positive d)) b = some c := by
          rw [utsl_getScore_other hbt, hc]
        have hbm : (if b ∈ t :: rest then d else 0) = (if b ∈ rest then d else 0) := by
          by_cases h : b ∈ rest <;> simp [List.mem_cons, hbt, h]
        rw [ih hts.2 hmem' hb1, hbm]

theorem foldTargets_neg_getScore {σ : StakingState} {d : Nat} {ts : List AccountId}
    (hts : ts.Nodup) :
    ∀ {tl : ListState} {b : AccountId} {c : Nat}, (∀ t ∈ ts, t ∈ keysOf tl) →
      b ∈ ts → getScore tl b = some c →
      (if c - d = 0 ∧ σ.status b = none
        then b ∉ keysOf (foldTargets σ (.Negative d) tl ts)
        else getScore (foldTargets σ (.Negative d) tl ts) b = some (c - d)) := by
  induction ts with
  | nil => intro tl b c _ hb _; simp at hb
  | cons t rest ih =>
      intro tl b c hmem hb hc
      rw [List.nodup_cons] at hts
      rw [foldTargets_cons]
      by_cases hbt : b = t
      · subst hbt
        by_cases hrem : c - d = 0 ∧ σ.status b = none
        · rw [if_pos hrem]
          have hout : b ∉ keysOf (update_target_score_tl σ tl b (.Negative d)) :=
            utsl_neg_mem_remove hc hrem.1 hrem.2
          intro hkeys
          refine hout ?_
          rw [← getScore_isSome_iff] at hkeys ⊢
          rwa [foldTargets_getScore_not_mem hts.1] at hkeys
        · rw [if_neg hrem]
          rw [foldTargets_getScore_not_mem hts.1]
          exact utsl_neg_mem_keep hc hrem
      · have hb' : b ∈ rest := by
          rcases List.mem_cons.mp hb with h | h
          · exact absurd h hbt
          · exact h
        obtain ⟨ct, hct⟩ :=
          Option.isSome_iff_exists.mp
            (getScore_isSome_iff.mpr (hmem t (List.mem_cons_self _ _)))
        have hb1 : getScore (update_target_score_tl σ tl t (.Negative d)) b = some c := by
          rw [utsl_getScore_other hbt, hc]
        have hmem' : ∀ t' ∈ rest, t' ∈ keysOf (update_target_score_tl σ tl t (.Negative d)) := by
          intro t' ht'
          by_cases htt : t' = t
          · subst htt
            exact absurd ht' hts.1
          · rw [← getScore_isSome_iff, utsl_getScore_other htt, getScore_isSome_iff]
            exact hmem t' (List.mem_cons_of_mem _ ht')
        exact ih hts.2 hmem' hb' hb1

/-- Folding with a guard is folding over the filtered list. -/
theorem foldl_ite_filter {α : Type} (f : α → AccountId → α) (p : AccountId → Bool) :
    ∀ (ts : List AccountId) (x : α),
      ts.foldl (fun acc t => if p t then f acc t else acc) x = (ts.filter p).foldl f x := by
  intro ts
  induction ts with
  | nil => intro x; rfl
  | cons t rest ih =>
      intro x
      rw [List.foldl_cons, List.filter_cons]
      by_cases hp : p t
      · rw [if_pos hp, if_pos hp, List.foldl_cons, ih]
      · rw [if_neg hp, if_neg (by simpa using hp), ih]

/-! ## Handler characterizations -/

theorem sysFold_eq {imb : StakeImbalance} {ts : List AccountId} :
    ∀ {s : Sys},
      ts.foldl (fun acc t => update_target_score acc t imb) s
        = { s with targetList := foldTargets s.staking imb s.targetList ts } := by
  induction ts with
  | nil => intro s; rfl
  | cons t rest ih =>
      intro s
      rw [List.foldl_cons, ih]
      rfl

theorem on_nominator_add_mem {s : Sys} {who : AccountId} {noms : List AccountId}
    (h : containsAcc s.voterList who = true) : on_nominator_add s who noms = s := by
  rw [on_nominator_add, if_pos h]

theorem on_nominator_add_not_mem_nom {s : Sys} {who : AccountId} {noms noms₀ : List AccountId}
    (hvl : containsAcc s.voterList who = false)
    (hst : s.staking.status who = some (.Nominator noms₀)) :
    on_nominator_add s who noms
      = { s with
          voterList := insertSorted who (weight_of (active_vote_of s.staking who)) s.voterList,
          targetList := foldTargets s.staking
            (.Positive (weight_of (active_vote_of s.staking who))) s.targetList noms } := by
  rw [on_nominator_add, if_neg (by rw [hvl]; exact Bool.false_ne_true)]
  simp only [onInsert_getD_of_not_mem hvl, hst, sysFold_eq]

theorem on_nominator_add_not_mem_other {s : Sys} {who : AccountId} {noms : List AccountId}
    (hvl : containsAcc s.voterList who = false)
    (hst : ∀ noms₀, s.staking.status who ≠ some (.Nominator noms₀)) :
    on_nominator_add s who noms
      = { s with
          voterList := insertSorted who (weight_of (active_vote_of s.staking who)) s.voterList } := by
  rw [on_nominator_add, if_neg (by rw [hvl]; exact Bool.false_ne_true)]
  simp only [onInsert_getD_of_not_mem hvl]
  cases hh : s.staking.status who with
  | none => rfl
  | some st =>
      cases st with
      | Validator => rfl
      | Idle => rfl
      | Nominator noms₀ => exact absurd hh (hst noms₀)

theorem on_nominator_remove_eq (s : Sys) (who : AccountId) (noms : List AccountId) :
    on_nominator_remove s who noms
      = { s with
          voterList := (onRemove s.voterList who).getD s.voterList,
          targetList := foldTargets s.staking
            (.Negative (weight_of (active_vote_of s.staking who))) s.targetList noms } := by
  rw [on_nominator_remove]
  simp only [sysFold_eq]

theorem on_nominator_idle_eq (s : Sys) (who : AccountId) (noms : List AccountId) :
    on_nominator_idle s who noms = on_nominator_remove s who noms := rfl

theorem on_validator_idle_eq (s : Sys) (who : AccountId) :
    on_validator_idle s who
      = { s with
          voterList := (onRemove s.voterList who).getD s.voterList,
          targetList := update_target_score_tl s.staking s.targetList who
            (.Negative (weight_of (active_vote_of s.staking who))) } := by
  rw [on_validator_idle, on_nominator_idle_eq, on_nominator_remove_eq]
  rfl

theorem on_validator_add_eq (s : Sys) (who : AccountId) (ss : Option Balance) :
    on_validator_add s who ss
      = on_nominator_add
          (if containsAcc s.targetList who then
            { s with targetList :=
                update_target_score_tl s.staking s.targetList who (.Positive (to_vote_extended (ss.getD 0))) }
          else
            { s with targetList := (onInsert s.targetList who (ss.getD 0)).getD s.targetList })
          who [] := by
  rw [on_validator_add]
  by_cases h : containsAcc s.targetList who
  · rw [if_pos h, if_pos h]
    rfl
  · rw [if_neg h, if_neg h]

theorem on_stake_update_unknown {s : Sys} {who : AccountId} {prev : Option Balance}
    {st : Balance} (h : s.staking.status who = none) :
    on_stake_update s who prev st = s := by
  rw [on_stake_update]
  rw [if_neg (by rw [h]; simp)]

theorem on_stake_update_idle {s : Sys} {who : AccountId} {prev : Option Balance}
    {st : Balance} (h : s.staking.status who = some .Idle) :
    on_stake_update s who prev st = s := by
  rw [on_stake_update]
  by_cases hg : ((s.staking.status who).isSome && (s.staking.stake who).isSome) = true
  · rw [if_pos hg, h]
  · rw [if_neg hg]

theorem on_stake_update_nominator {s : Sys} {who : AccountId} {prev : Option Balance}
    {st : Balance} {noms : List AccountId}
    (hst : s.staking.status who = some (.Nominator noms))
    (hstake : (s.staking.stake who).isSome = true) :
    on_stake_update s who prev st
      = { s with
          voterList := (onUpdate s.voterList who (weight_of st)).getD s.voterList,
          targetList := foldTargets s.staking
            (stake_imbalance_of prev (to_vote_extended (weight_of st))) s.targetList noms } := by
  rw [on_stake_update, if_pos (by rw [hst, hstake]; rfl), hst]
  simp only [sysFold_eq]

theorem on_stake_update_validator {s : Sys} {who : AccountId} {prev : Option Balance}
    {st : Balance} (hst : s.staking.status who = some .Validator)
    (hstake : (s.staking.stake who).isSome = true) :
    on_stake_update s who prev st
      = { s with
          voterList := (onUpdate s.voterList who (weight_of st)).getD s.voterList,
          targetList := update_target_score_tl s.staking s.targetList who
            (stake_imbalance_of prev (to_vote_extended (weight_of st))) } := by
  rw [on_stake_update, if_pos (by rw [hst, hstake]; rfl), hst]
  rfl

theorem on_validator_remove_nominator {s : Sys} {who : AccountId} {noms : List AccountId}
    (hst : s.staking.status who = some (.Nominator noms)) :
    on_validator_remove s who = some s := by
  rw [on_validator_remove, hst]

theorem on_validator_remove_unknown {s : Sys} {who : AccountId}
    (hst : s.staking.status who = none) :
    on_validator_remove s who = some s := by
  rw [on_validator_remove, hst]

theorem on_validator_remove_idle {s : Sys} {who : AccountId}
    (hst : s.staking.status who = some .Idle) :
    on_validator_remove s who
      = if (getScore s.targetList who).getD 0 = 0 then
          (onRemove s.targetList who).map (fun tl => { s with targetList := tl })
        else some s := by
  simp only [on_validator_remove, hst, beq_iff_eq]

theorem on_validator_remove_validator {s : Sys} {who : AccountId}
    (hst : s.staking.status who = some .Validator) :
    on_validator_remove s who
      = (let si := on_validator_idle s who
         if (getScore si.targetList who).getD 0 = 0 then
          (onRemove si.targetList who).map (fun tl => { si with targetList := tl })
         else some si) := by
  simp only [on_validator_remove, hst, beq_iff_eq]

theorem on_nominator_update_eq (s : Sys) (who : AccountId)
    (prev next : List AccountId) :
    on_nominator_update s who prev next
      = { s with targetList :=
            (foldTargets s.staking
              (.Negative (weight_of (active_vote_of s.staking who)))
              (foldTargets s.staking
                (.Positive (weight_of (active_vote_of s.staking who)))
                s.targetList (next.filter (fun t => !prev.contains t)))
              (prev.filter (fun t => !next.contains t))) } := by
  rw [on_nominator_update]
  rw [foldl_ite_filter (fun acc t =>
    update_target_score acc t (.Positive (weight_of (active_vote_of s.staking who))))
    (fun t => !prev.contains t) next s]
  rw [sysFold_eq]
  rw [foldl_ite_filter (fun acc t =>
    update_target_score acc t (.Negative (weight_of (active_vote_of s.staking who))))
    (fun t => !next.contains t) prev]
  rw [sysFold_eq]

/-! ## The strengthened (positive-weight) staking contract

The correctness invariant of the target list holds only when no nominator
ever has weight zero: `posEvent` adds that to the baseline contract. -/

/-- Modelled from the spec: the additional staking-side guarantee that a
nominator's active stake always converts to a positive vote weight (real
deployments enforce a positive minimum nominator bond). -/
def posEvent (s : Sys) : Event → Bool
  | .stakeUpdate who _ stake =>
      match s.staking.status who with
      | some (.Nominator _) => stake != 0
      | _ => true
  | .nominatorAdd who _ => (s.staking.stake who).getD 0 != 0
  | _ => true

/-- States reachable from the empty state by valid event sequences that
also respect the positive-nominator-weight contract. -/
inductive PReach : Sys → Prop where
  | init : PReach initSys
  | step {s s' : Sys} {e : Event} :
      PReach s → validEvent s e = true → posEvent s e = true →
      stepEvent s e = some s' → PReach s'

/-- Run a list of events, also checking the positive-weight contract. -/
def runEventsPos (s : Sys) : List Event → Option Sys
  | [] => some s
  | e :: rest =>
      if validEvent s e && posEvent s e then
        match stepEvent s e with
        | some s' => runEventsPos s' rest
        | none => none
      else none

theorem runEvents_reach {evs : List Event} :
    ∀ {s s' : Sys}, Reach s → runEvents s evs = some s' → Reach s' := by
  induction evs with
  | nil =>
      intro s s' hr h
      rw [runEvents] at h
      cases h
      exact hr
  | cons e rest ih =>
      intro s s' hr h
      rw [runEvents] at h
      by_cases hv : validEvent s e = true
      · rw [if_pos hv] at h
        cases hstep : stepEvent s e with
        | none => rw [hstep] at h; cases h
        | some s₁ =>
            rw [hstep] at h
            exact ih (Reach.step hr hv hstep) h
      · rw [if_neg hv] at h
        cases h

theorem runEventsPos_preach {evs : List Event} :
    ∀ {s s' : Sys}, PReach s → runEventsPos s evs = some s' → PReach s' := by
  induction evs with
  | nil =>
      intro s s' hr h
      rw [runEventsPos] at h
      cases h
      exact hr
  | cons e rest ih =>
      intro s s' hr h
      rw [runEventsPos] at h
      by_cases hv : (validEvent s e && posEvent s e) = true
      · rw [if_pos hv] at h
        rw [Bool.and_eq_true] at hv
        cases hstep : stepEvent s e with
        | none => rw [hstep] at h; cases h
        | some s₁ =>
            rw [hstep] at h
            exact ih (PReach.step hr hv.1 hv.2 hstep) h
      · rw [if_neg hv] at h
        cases h

theorem preach_reach {s : Sys} (h : PReach s) : Reach s := by
  induction h with
  | init => exact Reach.init
  | step hr hv _ hstep ih => exact Reach.step ih hv hstep

/-! ## The inductive invariant -/

/-- The inductive invariant maintained by every positively-weighted valid
event: the two lists are duplicate-free, the target list carries exactly
the approval weights, and membership mirrors the staker roles as the spec
demands. -/
structure Inv (s : Sys) : Prop where
  stNodup : (stakerKeys s.staking).Nodup
  tlNodup : (keysOf s.targetList).Nodup
  vlNodup : (keysOf s.voterList).Nodup
  approvals : ∀ a c, getScore s.targetList a = some c →
      c = selfWeight s.staking a + listersSum s.staking a
  valInTL : ∀ a, s.staking.status a = some .Validator → a ∈ keysOf s.targetList
  valInVL : ∀ a, s.staking.status a = some .Validator → a ∈ keysOf s.voterList
  nomInVL : ∀ a noms, s.staking.status a = some (.Nominator noms) →
      getScore s.voterList a = some (weight_of ((s.staking.stake a).getD 0))
  nomNotInTL : ∀ a noms, s.staking.status a = some (.Nominator noms) →
      a ∉ keysOf s.targetList
  nomPos : ∀ a noms, s.staking.status a = some (.Nominator noms) →
      (s.staking.stake a).getD 0 ≠ 0
  nomNodup : ∀ a noms, s.staking.status a = some (.Nominator noms) → noms.Nodup
  nomNotSelf : ∀ a noms, s.staking.status a = some (.Nominator noms) → a ∉ noms
  listedInTL : ∀ a noms t, s.staking.status a = some (.Nominator noms) → t ∈ noms →
      t ∈ keysOf s.targetList
  idleNotInVL : ∀ a, s.staking.status a = some .Idle → a ∉ keysOf s.voterList
  unknownNotInVL : ∀ a, s.staking.status a = none → a ∉ keysOf s.voterList
  danglingPos : ∀ a c, getScore s.targetList a = some c → s.staking.status a = none →
      c ≠ 0

theorem inv_init : Inv initSys := by
  refine ⟨?_, ?_, ?_, ?_, ?_, ?_, ?_, ?_, ?_, ?_, ?_, ?_, ?_, ?_, ?_⟩ <;>
    simp [initSys, stakerKeys, keysOf, getScore, StakingState.status, StakingState.bondOf]

/-! ### Staking corollaries used in the preservation proofs -/

theorem status_setBond_self (σ : StakingState) (a : AccountId) (b : Bond) :
    (σ.setBond a b).status a = some b.role := by
  rw [status_eq_map_bondOf, bondOf_setBond_self]
  rfl

theorem status_setBond_other {σ : StakingState} {a a' : AccountId} (b : Bond)
    (h : a' ≠ a) : (σ.setBond a b).status a' = σ.status a' := by
  rw [status_eq_map_bondOf, bondOf_setBond_other b h, status_eq_map_bondOf]

theorem stake_setBond_self (σ : StakingState) (a : AccountId) (b : Bond) :
    (σ.setBond a b).stake a = some b.active := by
  rw [stake_eq_map_bondOf, bondOf_setBond_self]
  rfl

theorem stake_setBond_other {σ : StakingState} {a a' : AccountId} (b : Bond)
    (h : a' ≠ a) : (σ.setBond a b).stake a' = σ.stake a' := by
  rw [stake_eq_map_bondOf, bondOf_setBond_other b h, stake_eq_map_bondOf]

theorem status_removeBond_self (σ : StakingState) (a : AccountId) :
    (σ.removeBond a).status a = none := by
  rw [status_eq_map_bondOf, bondOf_removeBond_self]
  rfl

theorem status_removeBond_other {σ : StakingState} {a a' : AccountId}
    (h : a' ≠ a) : (σ.removeBond a).status a' = σ.status a' := by
  rw [status_eq_map_bondOf, bondOf_removeBond_other h, status_eq_map_bondOf]

theorem stake_removeBond_self (σ : StakingState) (a : AccountId) :
    (σ.removeBond a).stake a = none := by
  rw [stake_eq_map_bondOf, bondOf_removeBond_self]
  rfl

theorem stake_removeBond_other {σ : StakingState} {a a' : AccountId}
    (h : a' ≠ a) : (σ.removeBond a).stake a' = σ.stake a' := by
  rw [stake_eq_map_bondOf, bondOf_removeBond_other h, stake_eq_map_bondOf]

theorem selfWeight_congr {σ σ' : StakingState} {a : AccountId}
    (hst : σ'.status a = σ.status a) (hsk : σ'.stake a = σ.stake a) :
    selfWeight σ' a = selfWeight σ a := by
  rw [selfWeight, selfWeight, hst, hsk]

theorem status_of_bondOf {σ : StakingState} {a : AccountId} {b : Bond}
    (h : σ.bondOf a = some b) : σ.status a = some b.role := by
  rw [status_eq_map_bondOf, h]
  rfl

theorem stake_of_bondOf {σ : StakingState} {a : AccountId} {b : Bond}
    (h : σ.bondOf a = some b) : σ.stake a = some b.active := by
  rw [stake_eq_map_bondOf, h]
  rfl

theorem bondOf_of_status {σ : StakingState} {a : AccountId} {r : StakerStatus}
    (h : σ.status a = some r) : ∃ st, σ.bondOf a = some ⟨r, st⟩ := by
  rw [status_eq_map_bondOf] at h
  cases hb : σ.bondOf a with
  | none => rw [hb] at h; cases h
  | some b =>
      rw [hb] at h
      cases b with
      | mk role active =>
          have hr : role = r := by simpa using h
          subst hr
          exact ⟨active, rfl⟩

theorem contains_iff_mem {l : List AccountId} {a : AccountId} :
    l.contains a = true ↔ a ∈ l := List.elem_iff

theorem allDistinct_iff_nodup {l : List AccountId} :
    allDistinct l = true ↔ l.Nodup := by
  induction l with
  | nil => simp [allDistinct]
  | cons a rest ih =>
      rw [allDistinct, Bool.and_eq_true, List.nodup_cons, ih, Bool.not_eq_true']
      rw [← Bool.not_eq_true, contains_iff_mem]

theorem contribOf_nominator {noms : List AccountId} {st : Nat} {t : AccountId} :
    contribOf ⟨.Nominator noms, st⟩ t = if t ∈ noms then weight_of st else 0 := by
  simp only [contribOf, listsTarget]
  by_cases h : t ∈ noms
  · rw [if_pos (contains_iff_mem.mpr h), if_pos h]
  · have hc : noms.contains t = false := by
      rw [← Bool.not_eq_true]
      exact fun hh => h (contains_iff_mem.mp hh)
    rw [if_neg (by rw [hc]; exact Bool.false_ne_true), if_neg h]

theorem contribOf_validator {st : Nat} {t : AccountId} :
    contribOf ⟨.Validator, st⟩ t = 0 := rfl

theorem contribOf_idle {st : Nat} {t : AccountId} :
    contribOf ⟨.Idle, st⟩ t = 0 := rfl

theorem accContrib_of_status_not_nominator {σ : StakingState} {a : AccountId}
    (h : ∀ noms, σ.status a ≠ some (.Nominator noms)) (t : AccountId) :
    accContrib (σ.bondOf a) t = 0 := by
  cases hb : σ.bondOf a with
  | none => rfl
  | some b =>
      cases b with
      | mk role active =>
          cases role with
          | Nominator noms =>
              exact absurd (status_of_bondOf hb) (h noms)
          | Validator => rfl
          | Idle => rfl

theorem accContrib_nominator {σ : StakingState} {a : AccountId} {noms : List AccountId}
    {st : Nat} (hb : σ.bondOf a = some ⟨.Nominator noms, st⟩) (t : AccountId) :
    accContrib (σ.bondOf a) t = if t ∈ noms then weight_of st else 0 := by
  rw [hb, accContrib, contribOf_nominator]

/-- `listersSum` is unchanged at every target when the mutated account is
not a nominator before or after the mutation. -/
theorem listersSum_setBond_not_nominator {σ : StakingState} {who : AccountId} {b : Bond}
    (hnd : (stakerKeys σ).Nodup)
    (hpre : ∀ noms, σ.status who ≠ some (.Nominator noms))
    (hpost : ∀ noms, b.role ≠ .Nominator noms) (t : AccountId) :
    listersSum (σ.setBond who b) t = listersSum σ t := by
  have h := listersSum_setBond σ who t b hnd
  rw [accContrib_of_status_not_nominator hpre] at h
  have hb : contribOf b t = 0 := by
    rw [contribOf, listsTarget]
    cases hr : b.role with
    | Nominator noms => exact absurd hr (hpost noms)
    | Validator => rfl
    | Idle => rfl
  omega

theorem listersSum_removeBond_not_nominator {σ : StakingState} {who : AccountId}
    (hnd : (stakerKeys σ).Nodup)
    (hpre : ∀ noms, σ.status who ≠ some (.Nominator noms)) (t : AccountId) :
    listersSum (σ.removeBond who) t = listersSum σ t := by
  have h := listersSum_removeBond σ who t hnd
  rw [accContrib_of_status_not_nominator hpre] at h
  omega

/-! ## Preservation of the invariant, event by event -/

theorem mem_keys_utsl_other {σ : StakingState} {tl : ListState} {imb : StakeImbalance}
    {who b : AccountId} (h : b ≠ who) :
    b ∈ keysOf (update_target_score_tl σ tl who imb) ↔ b ∈ keysOf tl := by
  rw [← getScore_isSome_iff, ← getScore_isSome_iff, utsl_getScore_other h]

theorem mem_keys_removeKey_other {l : ListState} {a b : AccountId} (h : b ≠ a) :
    b ∈ keysOf (removeKey l a) ↔ b ∈ keysOf l := by
  rw [keysOf_removeKey]
  exact ⟨fun hh => hh.1, fun hh => ⟨hh, h⟩⟩

theorem inv_step_slash {s s' : Sys} {who : AccountId} (hInv : Inv s)
    (hs' : stepEvent s (.slash who) = some s') : Inv s' := by
  rw [stepEvent] at hs'
  cases hs'
  exact hInv

theorem inv_step_validatorIdle {s s' : Sys} {who : AccountId} (hInv : Inv s)
    (hv : validEvent s (.validatorIdle who) = true)
    (hs' : stepEvent s (.validatorIdle who) = some s') : Inv s' := by
  have hval : s.staking.status who = some .Validator := by
    simpa [validEvent] using hv
  obtain ⟨st, hb⟩ := bondOf_of_status hval
  have hstake : s.staking.stake who = some st := stake_of_bondOf hb
  -- unfold the step
  simp only [stepEvent, hb] at hs'
  set σ' := s.staking.setBond who ⟨.Idle, st⟩ with hσ'
  have hs'' : s' = on_validator_idle { s with staking := σ' } who := by
    exact ((Option.some.injEq _ _).mp hs').symm
  subst hs''
  -- staking facts
  have hst_self : σ'.status who = some .Idle := status_setBond_self _ _ _
  have hsk_self : σ'.stake who = some st := stake_setBond_self _ _ _
  have hst_other : ∀ a, a ≠ who → σ'.status a = s.staking.status a :=
    fun a ha => status_setBond_other _ ha
  have hsk_other : ∀ a, a ≠ who → σ'.stake a = s.staking.stake a :=
    fun a ha => stake_setBond_other _ ha
  have hstnd : (stakerKeys σ').Nodup := nodup_stakerKeys_setBond hInv.stNodup
  have hls : ∀ t, listersSum σ' t = listersSum s.staking t :=
    listersSum_setBond_not_nominator hInv.stNodup
      (fun noms h => by rw [hval] at h; cases h) (fun noms h => by cases h)
  -- the handler
  have hw : active_vote_of σ' who = st := by
    rw [active_vote_of, hsk_self]
    rfl
  rw [on_validator_idle_eq] at *
  simp only [hw] at *
  -- target list effect
  have hwtl : who ∈ keysOf s.targetList := hInv.valInTL who hval
  obtain ⟨c, hc⟩ := Option.isSome_iff_exists.mp (getScore_isSome_iff.mpr hwtl)
  have hcval : c = weight_of st + listersSum s.staking who := by
    have := hInv.approvals who c hc
    rw [selfWeight, hval, hstake] at this
    simpa using this
  have hkeep : ¬(c - weight_of st = 0 ∧ σ'.status who = none) := by
    rintro ⟨-, h⟩
    rw [hst_self] at h
    cases h
  have htl_who : getScore (update_target_score_tl σ' s.targetList who
      (.Negative (weight_of st))) who = some (c - weight_of st) :=
    utsl_neg_mem_keep hc hkeep
  have hwvl : containsAcc s.voterList who = true :=
    containsAcc_iff.mpr (hInv.valInVL who hval)
  -- assemble
  refine ⟨hstnd, utsl_nodup hInv.tlNodup, ?_, ?_, ?_, ?_, ?_, ?_, ?_, ?_, ?_, ?_, ?_, ?_, ?_⟩
  · rw [onRemove_getD_of_mem hwvl]
    exact nodup_keysOf_removeKey hInv.vlNodup
  · -- approvals
    intro a c' hc'
    by_cases ha : a = who
    · subst ha
      rw [htl_who, Option.some.injEq] at hc'
      subst hc'
      simp only [selfWeight, hst_self, hls]
      omega
    · rw [utsl_getScore_other ha] at hc'
      have := hInv.approvals a c' hc'
      rw [selfWeight_congr (hst_other a ha) (hsk_other a ha), hls]
      exact this
  · -- valInTL
    intro a hsta
    have ha : a ≠ who := by
      rintro rfl
      rw [hst_self] at hsta
      cases hsta
    rw [mem_keys_utsl_other ha]
    rw [hst_other a ha] at hsta
    exact hInv.valInTL a hsta
  · -- valInVL
    intro a hsta
    have ha : a ≠ who := by
      rintro rfl
      rw [hst_self] at hsta
      cases hsta
    rw [hst_other a ha] at hsta
    rw [onRemove_getD_of_mem hwvl, mem_keys_removeKey_other ha]
    exact hInv.valInVL a hsta
  · -- nomInVL
    intro a noms hsta
    have ha : a ≠ who := by
      rintro rfl
      rw [hst_self] at hsta
      cases hsta
    rw [hst_other a ha] at hsta
    rw [onRemove_getD_of_mem hwvl, getScore_removeKey_other ha, hsk_other a ha]
    exact hInv.nomInVL a noms hsta
  · -- nomNotInTL
    intro a noms hsta
    have ha : a ≠ who := by
      rintro rfl
      rw [hst_self] at hsta
      cases hsta
    rw [hst_other a ha] at hsta
    rw [mem_keys_utsl_other ha]
    exact hInv.nomNotInTL a noms hsta
  · -- nomPos
    intro a noms hsta
    have ha : a ≠ who := by
      rintro rfl
      rw [hst_self] at hsta
      cases hsta
    rw [hsk_other a ha]
    rw [hst_other a ha] at hsta
    exact hInv.nomPos a noms hsta
  · -- nomNodup
    intro a noms hsta
    have ha : a ≠ who := by
      rintro rfl
      rw [hst_self] at hsta
      cases hsta
    rw [hst_other a ha] at hsta
    exact hInv.nomNodup a noms hsta
  · -- nomNotSelf
    intro a noms hsta
    have ha : a ≠ who := by
      rintro rfl
      rw [hst_self] at hsta
      cases hsta
    rw [hst_other a ha] at hsta
    exact hInv.nomNotSelf a noms hsta
  · -- listedInTL
    intro a noms t hsta ht
    have ha : a ≠ who := by
      rintro rfl
      rw [hst_self] at hsta
      cases hsta
    rw [hst_other a ha] at hsta
    by_cases htw : t = who
    · subst htw
      rw [← getScore_isSome_iff, htl_who]
      rfl
    · rw [mem_keys_utsl_other htw]
      exact hInv.listedInTL a noms t hsta ht
  · -- idleNotInVL
    intro a hsta
    rw [onRemove_getD_of_mem hwvl]
    by_cases ha : a = who
    · subst ha
      intro hmem
      exact (keysOf_removeKey.mp hmem).2 rfl
    · rw [mem_keys_removeKey_other ha]
      rw [hst_other a ha] at hsta
      exact hInv.idleNotInVL a hsta
  · -- unknownNotInVL
    intro a hsta
    have ha : a ≠ who := by
      rintro rfl
      rw [hst_self] at hsta
      cases hsta
    rw [hst_other a ha] at hsta
    rw [onRemove_getD_of_mem hwvl, mem_keys_removeKey_other ha]
    exact hInv.unknownNotInVL a hsta
  · -- danglingPos
    intro a c' hc' hsta
    have ha : a ≠ who := by
      rintro rfl
      rw [hst_self] at hsta
      cases hsta
    rw [utsl_getScore_other ha] at hc'
    rw [hst_other a ha] at hsta
    exact hInv.danglingPos a c' hc' hsta

theorem listersSum_eq_zero {σ : StakingState} {t : AccountId}
    (hnd : (stakerKeys σ).Nodup)
    (h : ∀ a noms, σ.status a = some (.Nominator noms) → t ∉ noms) :
    listersSum σ t = 0 := by
  rw [listersSum]
  refine List.sum_eq_zero ?_
  intro x hx
  obtain ⟨⟨a, b⟩, hmem, he⟩ := List.mem_map.mp hx
  subst he
  cases b with
  | mk role active =>
      cases role with
      | Nominator noms =>
          have hsta : σ.status a = some (.Nominator noms) :=
            status_of_bondOf (mem_bondOf hnd hmem)
          rw [contribOf_nominator, if_neg (h a noms hsta)]
      | Validator => rfl
      | Idle => rfl

theorem inv_step_validatorAdd {s s' : Sys} {who : AccountId} {ss : Option Balance}
    (hInv : Inv s) (hv : validEvent s (.validatorAdd who ss) = true)
    (hs' : stepEvent s (.validatorAdd who ss) = some s') : Inv s' := by
  have hval : s.staking.status who = some .Idle ∧ ss = s.staking.stake who := by
    have := hv
    rw [validEvent, Bool.and_eq_true, beq_iff_eq, beq_iff_eq] at this
    exact this
  obtain ⟨st, hb⟩ := bondOf_of_status hval.1
  have hstake : s.staking.stake who = some st := stake_of_bondOf hb
  have hss : ss = some st := by rw [hval.2, hstake]
  have hss0 : ss.getD 0 = st := by rw [hss]; rfl
  -- unfold the step
  simp only [stepEvent, hb] at hs'
  set σ' := s.staking.setBond who ⟨.Validator, st⟩ with hσ'
  have hs'' : s' = on_validator_add { s with staking := σ' } who ss :=
    ((Option.some.injEq _ _).mp hs').symm
  subst hs''
  -- staking facts
  have hst_self : σ'.status who = some .Validator := status_setBond_self _ _ _
  have hsk_self : σ'.stake who = some st := stake_setBond_self _ _ _
  have hst_other : ∀ a, a ≠ who → σ'.status a = s.staking.status a :=
    fun a ha => status_setBond_other _ ha
  have hsk_other : ∀ a, a ≠ who → σ'.stake a = s.staking.stake a :=
    fun a ha => stake_setBond_other _ ha
  have hstnd : (stakerKeys σ').Nodup := nodup_stakerKeys_setBond hInv.stNodup
  have hls : ∀ t, listersSum σ' t = listersSum s.staking t :=
    listersSum_setBond_not_nominator hInv.stNodup
      (fun noms h => by rw [hval.1] at h; cases h) (fun noms h => by cases h)
  have hwvl : containsAcc s.voterList who = false :=
    containsAcc_eq_false.mpr (hInv.idleNotInVL who hval.1)
  have hw : active_vote_of σ' who = st := by
    rw [active_vote_of, hsk_self]
    rfl
  -- the handler: target-list part then `on_nominator_add who []`
  set tl' : ListState :=
    if containsAcc s.targetList who then
      update_target_score_tl σ' s.targetList who (.Positive (to_vote_extended (ss.getD 0)))
    else (onInsert s.targetList who (ss.getD 0)).getD s.targetList with htl'
  have hmain : on_validator_add { s with staking := σ' } who ss
      = { s with
            staking := σ',
            voterList := insertSorted who (weight_of st) s.voterList,
            targetList := tl' } := by
    rw [on_validator_add_eq]
    have h2 : ∀ tlx : ListState,
        on_nominator_add { s with staking := σ', targetList := tlx } who []
          = { s with
                staking := σ',
                voterList := insertSorted who (weight_of st) s.voterList,
                targetList := tlx } := by
      intro tlx
      rw [on_nominator_add_not_mem_other (s := { s with staking := σ', targetList := tlx })
        hwvl (fun noms h => by rw [hst_self] at h; cases h)]
      rw [hw]
    by_cases h : containsAcc s.targetList who
    · rw [htl', if_pos h, if_pos h, h2]
    · rw [htl', if_neg h, if_neg h, h2]
  rw [hmain]
  -- facts about tl'
  have htl_who : getScore tl' who = some (st + listersSum s.staking who) := by
    by_cases hmem : containsAcc s.targetList who
    · obtain ⟨c, hc⟩ :=
        Option.isSome_iff_exists.mp (getScore_isSome_iff.mpr (containsAcc_iff.mp hmem))
      have hcval : c = listersSum s.staking who := by
        have := hInv.approvals who c hc
        rw [selfWeight, hval.1] at this
        simpa using this
      rw [htl', if_pos hmem, hss0]
      rw [utsl_pos_mem (σ := σ') (d := to_vote_extended st) hc, hcval]
      simp only [Option.some.injEq, to_vote_extended]
      omega
    · have hmem' : containsAcc s.targetList who = false := Bool.eq_false_iff.mpr hmem
      have hnolist : listersSum s.staking who = 0 := by
        refine listersSum_eq_zero hInv.stNodup (fun a noms hsta ht => ?_)
        exact (containsAcc_eq_false.mp hmem') (hInv.listedInTL a noms who hsta ht)
      rw [htl', if_neg (by rw [hmem']; exact Bool.false_ne_true), hss0,
        onInsert_getD_of_not_mem hmem', hnolist]
      exact getScore_insertSorted_self (containsAcc_eq_false.mp hmem')
  have htl_other : ∀ b, b ≠ who → getScore tl' b = getScore s.targetList b := by
    intro b hbw
    rw [htl']
    by_cases hmem : containsAcc s.targetList who
    · rw [if_pos hmem]
      exact utsl_getScore_other hbw
    · rw [if_neg hmem, onInsert_getD_of_not_mem (Bool.eq_false_iff.mpr hmem)]
      exact getScore_insertSorted_other hbw
  have htl_nodup : (keysOf tl').Nodup := by
    rw [htl']
    by_cases hmem : containsAcc s.targetList who
    · rw [if_pos hmem]
      exact utsl_nodup hInv.tlNodup
    · have hmem' : containsAcc s.targetList who = false := Bool.eq_false_iff.mpr hmem
      rw [if_neg hmem, onInsert_getD_of_not_mem hmem']
      exact nodup_keysOf_insertSorted hInv.tlNodup (containsAcc_eq_false.mp hmem')
  -- now all fields
  refine ⟨hstnd, htl_nodup, ?_, ?_, ?_, ?_, ?_, ?_, ?_, ?_, ?_, ?_, ?_, ?_, ?_⟩
  · exact nodup_keysOf_insertSorted hInv.vlNodup (containsAcc_eq_false.mp hwvl)
  · -- approvals
    intro a c' hc'
    by_cases ha : a = who
    · subst ha
      rw [htl_who, Option.some.injEq] at hc'
      subst hc'
      simp only [selfWeight, hst_self, hsk_self, hls]
      simp [weight_of]
    · rw [htl_other a ha] at hc'
      rw [selfWeight_congr (hst_other a ha) (hsk_other a ha), hls]
      exact hInv.approvals a c' hc'
  · -- valInTL
    intro a hsta
    by_cases ha : a = who
    · subst ha
      rw [← getScore_isSome_iff, htl_who]
      rfl
    · rw [hst_other a ha] at hsta
      rw [← getScore_isSome_iff, htl_other a ha, getScore_isSome_iff]
      exact hInv.valInTL a hsta
  · -- valInVL
    intro a hsta
    rw [keysOf_insertSorted]
    by_cases ha : a = who
    · exact Or.inl ha
    · rw [hst_other a ha] at hsta
      exact Or.inr (hInv.valInVL a hsta)
  · -- nomInVL
    intro a noms hsta
    have ha : a ≠ who := by
      rintro rfl
      rw [hst_self] at hsta
      cases hsta
    rw [hst_other a ha] at hsta
    rw [getScore_insertSorted_other ha, hsk_other a ha]
    exact hInv.nomInVL a noms hsta
  · -- nomNotInTL
    intro a noms hsta
    have ha : a ≠ who := by
      rintro rfl
      rw [hst_self] at hsta
      cases hsta
    rw [hst_other a ha] at hsta
    rw [← getScore_isSome_iff, htl_other a ha, getScore_isSome_iff]
    exact hInv.nomNotInTL a noms hsta
  · -- nomPos
    intro a noms hsta
    have ha : a ≠ who := by
      rintro rfl
      rw [hst_self] at hsta
      cases hsta
    rw [hsk_other a ha]
    rw [hst_other a ha] at hsta
    exact hInv.nomPos a noms hsta
  · -- nomNodup
    intro a noms hsta
    have ha : a ≠ who := by
      rintro rfl
      rw [hst_self] at hsta
      cases hsta
    rw [hst_other a ha] at hsta
    exact hInv.nomNodup a noms hsta
  · -- nomNotSelf
    intro a noms hsta
    have ha : a ≠ who := by
      rintro rfl
      rw [hst_self] at hsta
      cases hsta
    rw [hst_other a ha] at hsta
    exact hInv.nomNotSelf a noms hsta
  · -- listedInTL
    intro a noms t hsta ht
    have ha : a ≠ who := by
      rintro rfl
      rw [hst_self] at hsta
      cases hsta
    rw [hst_other a ha] at hsta
    by_cases htw : t = who
    · subst htw
      rw [← getScore_isSome_iff, htl_who]
      rfl
    · rw [← getScore_isSome_iff, htl_other t htw, getScore_isSome_iff]
      exact hInv.listedInTL a noms t hsta ht
  · -- idleNotInVL
    intro a hsta
    have ha : a ≠ who := by
      rintro rfl
      rw [hst_self] at hsta
      cases hsta
    rw [hst_other a ha] at hsta
    intro hmem
    rcases keysOf_insertSorted.mp hmem with h | h
    · exact ha h
    · exact hInv.idleNotInVL a hsta h
  · -- unknownNotInVL
    intro a hsta
    have ha : a ≠ who := by
      rintro rfl
      rw [hst_self] at hsta
      cases hsta
    rw [hst_other a ha] at hsta
    intro hmem
    rcases keysOf_insertSorted.mp hmem with h | h
    · exact ha h
    · exact hInv.unknownNotInVL a hsta h
  · -- danglingPos
    intro a c' hc' hsta
    have ha : a ≠ who := by
      rintro rfl
      rw [hst_self] at hsta
      cases hsta
    rw [htl_other a ha] at hc'
    rw [hst_other a ha] at hsta
    exact hInv.danglingPos a c' hc' hsta

theorem listersSum_ne_zero_of_lister {σ : StakingState} {a t : AccountId}
    {noms : List AccountId} (hsta : σ.status a = some (.Nominator noms)) (ht : t ∈ noms)
    (hpos : (σ.stake a).getD 0 ≠ 0) : listersSum σ t ≠ 0 := by
  obtain ⟨st, hb⟩ := bondOf_of_status hsta
  have hstk : σ.stake a = some st := stake_of_bondOf hb
  have hmem : (a, (⟨.Nominator noms, st⟩ : Bond)) ∈ σ.stakers := bondOf_mem hb
  intro hzero
  rw [listersSum, List.sum_eq_zero_iff] at hzero
  have hcm : contribOf ⟨.Nominator noms, st⟩ t ∈ σ.stakers.map (fun p => contribOf p.2 t) :=
    List.mem_map.mpr ⟨(a, ⟨.Nominator noms, st⟩), hmem, rfl⟩
  have := hzero _ hcm
  rw [contribOf_nominator, if_pos ht] at this
  rw [hstk] at hpos
  exact hpos (by simpa [weight_of] using this)

theorem inv_step_validatorRemove {s s' : Sys} {who : AccountId} (hInv : Inv s)
    (hv : validEvent s (.validatorRemove who) = true)
    (hs' : stepEvent s (.validatorRemove who) = some s') : Inv s' := by
  have hval : s.staking.status who = some .Idle := by
    simpa [validEvent] using hv
  have hnotnom : ∀ noms, s.staking.status who ≠ some (.Nominator noms) :=
    fun noms h => by rw [hval] at h; cases h
  have hwvl : who ∉ keysOf s.voterList := hInv.idleNotInVL who hval
  rw [stepEvent, on_validator_remove_idle hval] at hs'
  have hst_other : ∀ a, a ≠ who →
      (s.staking.removeBond who).status a = s.staking.status a :=
    fun a ha => status_removeBond_other ha
  have hsk_other : ∀ a, a ≠ who →
      (s.staking.removeBond who).stake a = s.staking.stake a :=
    fun a ha => stake_removeBond_other ha
  have hst_self : (s.staking.removeBond who).status who = none :=
    status_removeBond_self _ _
  have hstnd : (stakerKeys (s.staking.removeBond who)).Nodup :=
    nodup_stakerKeys_removeBond hInv.stNodup
  have hls : ∀ t, listersSum (s.staking.removeBond who) t = listersSum s.staking t :=
    listersSum_removeBond_not_nominator hInv.stNodup hnotnom
  by_cases hmem : who ∈ keysOf s.targetList
  · obtain ⟨c, hc⟩ := Option.isSome_iff_exists.mp (getScore_isSome_iff.mpr hmem)
    have hcls : c = listersSum s.staking who := by
      have := hInv.approvals who c hc
      rw [selfWeight, hval] at this
      simpa using this
    by_cases hc0 : c = 0
    · -- score zero: the target node is removed, then the ledger is killed
      have hnolister : ∀ a noms, s.staking.status a = some (.Nominator noms) → who ∉ noms := by
        intro a noms hsta ht
        exact listersSum_ne_zero_of_lister hsta ht (hInv.nomPos a noms hsta) (by omega)
      rw [if_pos (by rw [hc]; simpa using hc0)] at hs'
      rw [onRemove, if_pos (containsAcc_iff.mpr hmem)] at hs'
      simp only [Option.map_some'] at hs'
      have hs'' : s' = { s with
          targetList := removeKey s.targetList who,
          staking := s.staking.removeBond who } :=
        ((Option.some.injEq _ _).mp hs').symm
      subst hs''
      refine ⟨hstnd, nodup_keysOf_removeKey hInv.tlNodup, hInv.vlNodup,
        ?_, ?_, ?_, ?_, ?_, ?_, ?_, ?_, ?_, ?_, ?_, ?_⟩
      · intro a c' hc'
        have ha : a ≠ who := by
          rintro rfl
          rw [getScore_removeKey_self] at hc'
          cases hc'
        rw [getScore_removeKey_other ha] at hc'
        rw [selfWeight_congr (hst_other a ha) (hsk_other a ha), hls]
        exact hInv.approvals a c' hc'
      · intro a hsta
        have ha : a ≠ who := by
          rintro rfl
          rw [hst_self] at hsta
          cases hsta
        rw [hst_other a ha] at hsta
        rw [mem_keys_removeKey_other ha]
        exact hInv.valInTL a hsta
      · intro a hsta
        have ha : a ≠ who := by
          rintro rfl
          rw [hst_self] at hsta
          cases hsta
        rw [hst_other a ha] at hsta
        exact hInv.valInVL a hsta
      · intro a noms hsta
        have ha : a ≠ who := by
          rintro rfl
          rw [hst_self] at hsta
          cases hsta
        rw [hsk_other a ha]
        rw [hst_other a ha] at hsta
        exact hInv.nomInVL a noms hsta
      · intro a noms hsta
        have ha : a ≠ who := by
          rintro rfl
          rw [hst_self] at hsta
          cases hsta
        rw [hst_other a ha] at hsta
        rw [mem_keys_removeKey_other ha]
        exact hInv.nomNotInTL a noms hsta
      · intro a noms hsta
        have ha : a ≠ who := by
          rintro rfl
          rw [hst_self] at hsta
          cases hsta
        rw [hsk_other a ha]
        rw [hst_other a ha] at hsta
        exact hInv.nomPos a noms hsta
      · intro a noms hsta
        have ha : a ≠ who := by
          rintro rfl
          rw [hst_self] at hsta
          cases hsta
        rw [hst_other a ha] at hsta
        exact hInv.nomNodup a noms hsta
      · intro a noms hsta
        have ha : a ≠ who := by
          rintro rfl
          rw [hst_self] at hsta
          cases hsta
        rw [hst_other a ha] at hsta
        exact hInv.nomNotSelf a noms hsta
      · intro a noms t hsta ht
        have ha : a ≠ who := by
          rintro rfl
          rw [hst_self] at hsta
          cases hsta
        rw [hst_other a ha] at hsta
        have htw : t ≠ who := by
          rintro rfl
          exact hnolister a noms hsta ht
        rw [mem_keys_removeKey_other htw]
        exact hInv.listedInTL a noms t hsta ht
      · intro a hsta
        have ha : a ≠ who := by
          rintro rfl
          rw [hst_self] at hsta
          cases hsta
        rw [hst_other a ha] at hsta
        exact hInv.idleNotInVL a hsta
      · intro a hsta
        by_cases ha : a = who
        · subst ha
          exact hwvl
        · rw [hst_other a ha] at hsta
          exact hInv.unknownNotInVL a hsta
      · intro a c' hc' hsta
        have ha : a ≠ who := by
          rintro rfl
          rw [getScore_removeKey_self] at hc'
          cases hc'
        rw [getScore_removeKey_other ha] at hc'
        rw [hst_other a ha] at hsta
        exact hInv.danglingPos a c' hc' hsta
    · -- nonzero score: the node stays (it becomes dangling)
      rw [if_neg (by rw [hc]; simpa using hc0)] at hs'
      have hs'' : s' = { s with staking := s.staking.removeBond who } :=
        ((Option.some.injEq _ _).mp hs').symm
      subst hs''
      refine ⟨hstnd, hInv.tlNodup, hInv.vlNodup,
        ?_, ?_, ?_, ?_, ?_, ?_, ?_, ?_, ?_, ?_, ?_, ?_⟩
      · intro a c' hc'
        by_cases ha : a = who
        · subst ha
          rw [hc] at hc'
          cases hc'
          simp only [selfWeight, hst_self, hls]
          omega
        · rw [selfWeight_congr (hst_other a ha) (hsk_other a ha), hls]
          exact hInv.approvals a c' hc'
      · intro a hsta
        have ha : a ≠ who := by
          rintro rfl
          rw [hst_self] at hsta
          cases hsta
        rw [hst_other a ha] at hsta
        exact hInv.valInTL a hsta
      · intro a hsta
        have ha : a ≠ who := by
          rintro rfl
          rw [hst_self] at hsta
          cases hsta
        rw [hst_other a ha] at hsta
        exact hInv.valInVL a hsta
      · intro a noms hsta
        have ha : a ≠ who := by
          rintro rfl
          rw [hst_self] at hsta
          cases hsta
        rw [hsk_other a ha]
        rw [hst_other a ha] at hsta
        exact hInv.nomInVL a noms hsta
      · intro a noms hsta
        have ha : a ≠ who := by
          rintro rfl
          rw [hst_self] at hsta
          cases hsta
        rw [hst_other a ha] at hsta
        exact hInv.nomNotInTL a noms hsta
      · intro a noms hsta
        have ha : a ≠ who := by
          rintro rfl
          rw [hst_self] at hsta
          cases hsta
        rw [hsk_other a ha]
        rw [hst_other a ha] at hsta
        exact hInv.nomPos a noms hsta
      · intro a noms hsta
        have ha : a ≠ who := by
          rintro rfl
          rw [hst_self] at hsta
          cases hsta
        rw [hst_other a ha] at hsta
        exact hInv.nomNodup a noms hsta
      · intro a noms hsta
        have ha : a ≠ who := by
          rintro rfl
          rw [hst_self] at hsta
          cases hsta
        rw [hst_other a ha] at hsta
        exact hInv.nomNotSelf a noms hsta
      · intro a noms t hsta ht
        have ha : a ≠ who := by
          rintro rfl
          rw [hst_self] at hsta
          cases hsta
        rw [hst_other a ha] at hsta
        exact hInv.listedInTL a noms t hsta ht
      · intro a hsta
        have ha : a ≠ who := by
          rintro rfl
          rw [hst_self] at hsta
          cases hsta
        rw [hst_other a ha] at hsta
        exact hInv.idleNotInVL a hsta
      · intro a hsta
        by_cases ha : a = who
        · subst ha
          exact hwvl
        · rw [hst_other a ha] at hsta
          exact hInv.unknownNotInVL a hsta
      · intro a c' hc' hsta
        by_cases ha : a = who
        · subst ha
          rw [hc] at hc'
          cases hc'
          exact hc0
        · rw [hst_other a ha] at hsta
          exact hInv.danglingPos a c' hc' hsta
  · -- the subject is not tracked: the handler panics, so no step exists
    have hgs : getScore s.targetList who = none :=
      getScore_eq_none_iff.mpr hmem
    rw [hgs] at hs'
    rw [if_pos (by rfl : (none : Option Nat).getD 0 = 0)] at hs'
    rw [onRemove, if_neg (by
      rw [containsAcc_eq_false.mpr hmem]
      exact Bool.false_ne_true)] at hs'
    cases hs'

theorem inv_step_nominatorAdd {s s' : Sys} {who : AccountId} {noms : List AccountId}
    (hInv : Inv s) (hv : validEvent s (.nominatorAdd who noms) = true)
    (hp : posEvent s (.nominatorAdd who noms) = true)
    (hs' : stepEvent s (.nominatorAdd who noms) = some s') : Inv s' := by
  rw [validEvent, Bool.and_eq_true, Bool.and_eq_true, Bool.and_eq_true] at hv
  obtain ⟨⟨⟨hidle, hdist⟩, hall⟩, hnotl⟩ := hv
  rw [beq_iff_eq] at hidle
  rw [allDistinct_iff_nodup] at hdist
  have hvalids : ∀ t ∈ noms, s.staking.status t = some .Validator := by
    intro t ht
    have := List.all_eq_true.mp hall t ht
    rwa [beq_iff_eq] at this
  have hwnotintl : who ∉ keysOf s.targetList := by
    rw [Bool.not_eq_true'] at hnotl
    exact containsAcc_eq_false.mp hnotl
  have hnotself : who ∉ noms := by
    intro hmem
    have := hvalids who hmem
    rw [hidle] at this
    cases this
  obtain ⟨st, hb⟩ := bondOf_of_status hidle
  have hstake : s.staking.stake who = some st := stake_of_bondOf hb
  have hstpos : st ≠ 0 := by
    rw [posEvent, hstake] at hp
    simpa using hp
  -- unfold the step
  simp only [stepEvent, hb] at hs'
  set σ' := s.staking.setBond who ⟨.Nominator noms, st⟩ with hσ'
  have hs'' : s' = on_nominator_add { s with staking := σ' } who noms :=
    ((Option.some.injEq _ _).mp hs').symm
  subst hs''
  -- staking facts
  have hst_self : σ'.status who = some (.Nominator noms) := status_setBond_self _ _ _
  have hsk_self : σ'.stake who = some st := stake_setBond_self _ _ _
  have hst_other : ∀ a, a ≠ who → σ'.status a = s.staking.status a :=
    fun a ha => status_setBond_other _ ha
  have hsk_other : ∀ a, a ≠ who → σ'.stake a = s.staking.stake a :=
    fun a ha => stake_setBond_other _ ha
  have hstnd : (stakerKeys σ').Nodup := nodup_stakerKeys_setBond hInv.stNodup
  have hls : ∀ t, listersSum σ' t
      = listersSum s.staking t + (if t ∈ noms then weight_of st else 0) := by
    intro t
    have h := listersSum_setBond s.staking who t ⟨.Nominator noms, st⟩ hInv.stNodup
    rw [accContrib_of_status_not_nominator
      (fun noms₀ hh => by rw [hidle] at hh; cases hh)] at h
    rw [contribOf_nominator] at h
    rw [hσ']
    omega
  have hwvl : containsAcc s.voterList who = false :=
    containsAcc_eq_false.mpr (hInv.idleNotInVL who hidle)
  have hw : active_vote_of σ' who = st := by
    rw [active_vote_of, hsk_self]
    rfl
  -- the handler
  have hmain : on_nominator_add { s with staking := σ' } who noms
      = { s with
            staking := σ',
            voterList := insertSorted who (weight_of st) s.voterList,
            targetList := foldTargets σ' (.Positive (weight_of st)) s.targetList noms } := by
    rw [on_nominator_add_not_mem_nom (s := { s with staking := σ' }) hwvl hst_self]
    simp only [hw]
  rw [hmain]
  have hvalids' : ∀ t ∈ noms, t ≠ who := by
    intro t ht
    rintro rfl
    have := hvalids t ht
    rw [hidle] at this
    cases this
  have hmemnoms : ∀ t ∈ noms, t ∈ keysOf s.targetList := by
    intro t ht
    exact hInv.valInTL t (hvalids t ht)
  set tl' := foldTargets σ' (.Positive (weight_of st)) s.targetList noms with htl'
  have htlsc : ∀ b c, getScore s.targetList b = some c →
      getScore tl' b = some (c + if b ∈ noms then weight_of st else 0) :=
    fun b c hc => foldTargets_pos_getScore hdist hmemnoms hc
  have hkeys : ∀ b, b ∈ keysOf tl' ↔ b ∈ keysOf s.targetList := by
    intro b
    constructor
    · exact foldTargets_mem_keys_subset hmemnoms
    · intro hbm
      obtain ⟨c, hc⟩ := Option.isSome_iff_exists.mp (getScore_isSome_iff.mpr hbm)
      rw [← getScore_isSome_iff, htlsc b c hc]
      rfl
  -- fields
  refine ⟨hstnd, foldTargets_nodup hInv.tlNodup, ?_, ?_, ?_, ?_, ?_, ?_, ?_, ?_, ?_, ?_,
    ?_, ?_, ?_⟩
  · exact nodup_keysOf_insertSorted hInv.vlNodup (containsAcc_eq_false.mp hwvl)
  · -- approvals
    intro a c' hc'
    have ham : a ∈ keysOf s.targetList := by
      rw [← hkeys]
      exact getScore_isSome_iff.mp (by rw [hc']; rfl)
    have ha : a ≠ who := by
      rintro rfl
      exact hwnotintl ham
    obtain ⟨c, hc⟩ := Option.isSome_iff_exists.mp (getScore_isSome_iff.mpr ham)
    rw [htlsc a c hc] at hc'
    have heq := hInv.approvals a c hc
    rw [Option.some.injEq] at hc'
    rw [← hc', selfWeight_congr (hst_other a ha) (hsk_other a ha), hls]
    omega
  · -- valInTL
    intro a hsta
    have ha : a ≠ who := by
      rintro rfl
      rw [hst_self] at hsta
      cases hsta
    rw [hst_other a ha] at hsta
    rw [hkeys]
    exact hInv.valInTL a hsta
  · -- valInVL
    intro a hsta
    have ha : a ≠ who := by
      rintro rfl
      rw [hst_self] at hsta
      cases hsta
    rw [hst_other a ha] at hsta
    rw [keysOf_insertSorted]
    exact Or.inr (hInv.valInVL a hsta)
  · -- nomInVL
    intro a noms₀ hsta
    by_cases ha : a = who
    · subst ha
      rw [hsk_self]
      rw [getScore_insertSorted_self (containsAcc_eq_false.mp hwvl)]
      rfl
    · rw [hst_other a ha] at hsta
      rw [getScore_insertSorted_other ha, hsk_other a ha]
      exact hInv.nomInVL a noms₀ hsta
  · -- nomNotInTL
    intro a noms₀ hsta
    rw [hkeys]
    by_cases ha : a = who
    · subst ha
      exact hwnotintl
    · rw [hst_other a ha] at hsta
      exact hInv.nomNotInTL a noms₀ hsta
  · -- nomPos
    intro a noms₀ hsta
    by_cases ha : a = who
    · subst ha
      rw [hsk_self]
      simpa using hstpos
    · rw [hsk_other a ha]
      rw [hst_other a ha] at hsta
      exact hInv.nomPos a noms₀ hsta
  · -- nomNodup
    intro a noms₀ hsta
    by_cases ha : a = who
    · subst ha
      rw [hst_self] at hsta
      cases hsta
      exact hdist
    · rw [hst_other a ha] at hsta
      exact hInv.nomNodup a noms₀ hsta
  · -- nomNotSelf
    intro a noms₀ hsta
    by_cases ha : a = who
    · subst ha
      rw [hst_self] at hsta
      cases hsta
      exact hnotself
    · rw [hst_other a ha] at hsta
      exact hInv.nomNotSelf a noms₀ hsta
  · -- listedInTL
    intro a noms₀ t hsta ht
    rw [hkeys]
    by_cases ha : a = who
    · subst ha
      rw [hst_self] at hsta
      cases hsta
      exact hmemnoms t ht
    · rw [hst_other a ha] at hsta
      exact hInv.listedInTL a noms₀ t hsta ht
  · -- idleNotInVL
    intro a hsta
    have ha : a ≠ who := by
      rintro rfl
      rw [hst_self] at hsta
      cases hsta
    rw [hst_other a ha] at hsta
    intro hmem
    rcases keysOf_insertSorted.mp hmem with h | h
    · exact ha h
    · exact hInv.idleNotInVL a hsta h
  · -- unknownNotInVL
    intro a hsta
    have ha : a ≠ who := by
      rintro rfl
      rw [hst_self] at hsta
      cases hsta
    rw [hst_other a ha] at hsta
    intro hmem
    rcases keysOf_insertSorted.mp hmem with h | h
    · exact ha h
    · exact hInv.unknownNotInVL a hsta h
  · -- danglingPos
    intro a c' hc' hsta
    have ha : a ≠ who := by
      rintro rfl
      rw [hst_self] at hsta
      cases hsta
    rw [hst_other a ha] at hsta
    have ham : a ∈ keysOf s.targetList := by
      rw [← hkeys]
      exact getScore_isSome_iff.mp (by rw [hc']; rfl)
    obtain ⟨c, hc⟩ := Option.isSome_iff_exists.mp (getScore_isSome_iff.mpr ham)
    rw [htlsc a c hc, Option.some.injEq] at hc'
    have hanin : a ∉ noms := by
      intro hmem
      have := hvalids a hmem
      rw [hsta] at this
      cases this
    rw [if_neg hanin] at hc'
    have := hInv.danglingPos a c hc hsta
    omega

/-- Core preservation argument shared by `on_nominator_idle` and
`on_nominator_remove`: the departing nominator's weight is subtracted from
every nominated target, and the nominator leaves the voter list.  `σh` is
the staking state the handler reads; `σp` is the post-event staking
state. -/
theorem inv_nominator_departure {s : Sys} {who : AccountId} {noms : List AccountId}
    {st : Nat} (σh σp : StakingState) (hInv : Inv s)
    (hsta : s.staking.status who = some (.Nominator noms))
    (hhst : ∀ b, b ≠ who → σh.status b = s.staking.status b)
    (hpst : ∀ b, b ≠ who → σp.status b = s.staking.status b)
    (hpsk : ∀ b, b ≠ who → σp.stake b = s.staking.stake b)
    (hpwho : σp.status who = none ∨ σp.status who = some .Idle)
    (hpnd : (stakerKeys σp).Nodup)
    (hpls : ∀ t ∈ noms, listersSum σp t + weight_of st = listersSum s.staking t)
    (hpls' : ∀ t, t ∉ noms → listersSum σp t = listersSum s.staking t) :
    Inv { s with
          staking := σp,
          voterList := removeKey s.voterList who,
          targetList := foldTargets σh (.Negative (weight_of st)) s.targetList noms } := by
  have hnd : noms.Nodup := hInv.nomNodup who noms hsta
  have hself : who ∉ noms := hInv.nomNotSelf who noms hsta
  have hmemkeys : ∀ t ∈ noms, t ∈ keysOf s.targetList :=
    fun t ht => hInv.listedInTL who noms t hsta ht
  have hwnotintl : who ∉ keysOf s.targetList := hInv.nomNotInTL who noms hsta
  have hwho_ne : ∀ a, σp.status a = some .Validator → a ≠ who := by
    intro a hv
    rintro rfl
    rcases hpwho with h | h <;> rw [h] at hv <;> cases hv
  have hwho_nenom : ∀ a noms₀, σp.status a = some (.Nominator noms₀) → a ≠ who := by
    intro a noms₀ hv
    rintro rfl
    rcases hpwho with h | h <;> rw [h] at hv <;> cases hv
  set tl' := foldTargets σh (.Negative (weight_of st)) s.targetList noms with htl'
  have hwho_tl' : getScore tl' who = none := by
    rw [htl', foldTargets_getScore_not_mem hself]
    exact getScore_eq_none_iff.mpr hwnotintl
  have hsurvive : ∀ t ∈ noms, ∀ c, getScore s.targetList t = some c →
      ¬(c - weight_of st = 0 ∧ σh.status t = none) →
      getScore tl' t = some (c - weight_of st) := by
    intro t ht c hc hrem
    have := foldTargets_neg_getScore (σ := σh) (d := weight_of st) hnd hmemkeys ht hc
    rwa [if_neg hrem] at this
  refine ⟨hpnd, foldTargets_nodup hInv.tlNodup, nodup_keysOf_removeKey hInv.vlNodup,
    ?_, ?_, ?_, ?_, ?_, ?_, ?_, ?_, ?_, ?_, ?_, ?_⟩
  · -- approvals
    intro a c' hc'
    have ha : a ≠ who := by
      rintro rfl
      rw [hwho_tl'] at hc'
      cases hc'
    by_cases han : a ∈ noms
    · obtain ⟨c, hc⟩ :=
        Option.isSome_iff_exists.mp (getScore_isSome_iff.mpr (hmemkeys a han))
      have hfold := foldTargets_neg_getScore (σ := σh) (d := weight_of st) hnd hmemkeys han hc
      by_cases hrem : c - weight_of st = 0 ∧ σh.status a = none
      · rw [if_pos hrem] at hfold
        exact absurd (getScore_isSome_iff.mp (by rw [hc']; rfl)) hfold
      · rw [if_neg hrem] at hfold
        rw [hfold, Option.some.injEq] at hc'
        have heq := hInv.approvals a c hc
        have hls := hpls a han
        rw [selfWeight_congr (hpst a ha) (hpsk a ha)]
        have hpr : listersSum (Sys.mk σp (removeKey s.voterList who) tl').staking a
            = listersSum σp a := rfl
        rw [hpr]
        omega
    · rw [htl', foldTargets_getScore_not_mem han] at hc'
      have heq := hInv.approvals a c' hc'
      rw [selfWeight_congr (hpst a ha) (hpsk a ha), hpls' a han]
      exact heq
  · -- valInTL
    intro a hva
    have ha : a ≠ who := hwho_ne a hva
    rw [hpst a ha] at hva
    by_cases han : a ∈ noms
    · obtain ⟨c, hc⟩ :=
        Option.isSome_iff_exists.mp (getScore_isSome_iff.mpr (hmemkeys a han))
      have hsur := hsurvive a han c hc (by
        rintro ⟨-, hnone⟩
        rw [hhst a ha, hva] at hnone
        cases hnone)
      exact getScore_isSome_iff.mp (by rw [hsur]; rfl)
    · rw [← getScore_isSome_iff, htl', foldTargets_getScore_not_mem han,
        getScore_isSome_iff]
      exact hInv.valInTL a hva
  · -- valInVL
    intro a hva
    have ha : a ≠ who := hwho_ne a hva
    rw [hpst a ha] at hva
    rw [mem_keys_removeKey_other ha]
    exact hInv.valInVL a hva
  · -- nomInVL
    intro a noms₀ hna
    have ha : a ≠ who := hwho_nenom a noms₀ hna
    rw [hpst a ha] at hna
    rw [getScore_removeKey_other ha, hpsk a ha]
    exact hInv.nomInVL a noms₀ hna
  · -- nomNotInTL
    intro a noms₀ hna
    have ha : a ≠ who := hwho_nenom a noms₀ hna
    rw [hpst a ha] at hna
    intro hmem
    exact hInv.nomNotInTL a noms₀ hna (foldTargets_mem_keys_subset hmemkeys hmem)
  · -- nomPos
    intro a noms₀ hna
    have ha : a ≠ who := hwho_nenom a noms₀ hna
    rw [hpsk a ha]
    rw [hpst a ha] at hna
    exact hInv.nomPos a noms₀ hna
  · -- nomNodup
    intro a noms₀ hna
    have ha : a ≠ who := hwho_nenom a noms₀ hna
    rw [hpst a ha] at hna
    exact hInv.nomNodup a noms₀ hna
  · -- nomNotSelf
    intro a noms₀ hna
    have ha : a ≠ who := hwho_nenom a noms₀ hna
    rw [hpst a ha] at hna
    exact hInv.nomNotSelf a noms₀ hna
  · -- listedInTL
    intro a noms₀ t hna ht
    have ha : a ≠ who := hwho_nenom a noms₀ hna
    have hna' := hna
    rw [hpst a ha] at hna'
    have htl : t ∈ keysOf s.targetList := hInv.listedInTL a noms₀ t hna' ht
    by_cases htn : t ∈ noms
    · obtain ⟨c, hc⟩ := Option.isSome_iff_exists.mp (getScore_isSome_iff.mpr htl)
      have hlsne : listersSum σp t ≠ 0 :=
        listersSum_ne_zero_of_lister hna ht (by
          rw [hpsk a ha]
          exact hInv.nomPos a noms₀ hna')
      have heq := hInv.approvals t c hc
      have hls := hpls t htn
      have hsur := hsurvive t htn c hc (by
        rintro ⟨hzero, -⟩
        omega)
      exact getScore_isSome_iff.mp (by rw [hsur]; rfl)
    · rw [← getScore_isSome_iff, htl', foldTargets_getScore_not_mem htn,
        getScore_isSome_iff]
      exact htl
  · -- idleNotInVL
    intro a hia
    by_cases ha : a = who
    · subst ha
      intro hmem
      exact (keysOf_removeKey.mp hmem).2 rfl
    · rw [hpst a ha] at hia
      rw [mem_keys_removeKey_other ha]
      exact hInv.idleNotInVL a hia
  · -- unknownNotInVL
    intro a hua
    by_cases ha : a = who
    · subst ha
      intro hmem
      exact (keysOf_removeKey.mp hmem).2 rfl
    · rw [hpst a ha] at hua
      rw [mem_keys_removeKey_other ha]
      exact hInv.unknownNotInVL a hua
  · -- danglingPos
    intro a c' hc' hua
    have ha : a ≠ who := by
      rintro rfl
      rw [hwho_tl'] at hc'
      cases hc'
    rw [hpst a ha] at hua
    by_cases han : a ∈ noms
    · obtain ⟨c, hc⟩ :=
        Option.isSome_iff_exists.mp (getScore_isSome_iff.mpr (hmemkeys a han))
      have hfold := foldTargets_neg_getScore (σ := σh) (d := weight_of st) hnd hmemkeys han hc
      by_cases hrem : c - weight_of st = 0 ∧ σh.status a = none
      · rw [if_pos hrem] at hfold
        exact absurd (getScore_isSome_iff.mp (by rw [hc']; rfl)) hfold
      · rw [if_neg hrem] at hfold
        rw [hfold, Option.some.injEq] at hc'
        rw [hhst a ha] at hrem
        intro hzero
        exact hrem (by
          constructor
          · omega
          · exact hua)
    · rw [htl', foldTargets_getScore_not_mem han] at hc'
      exact hInv.danglingPos a c' hc' hua

theorem inv_step_nominatorIdle {s s' : Sys} {who : AccountId} {noms : List AccountId}
    (hInv : Inv s) (hv : validEvent s (.nominatorIdle who noms) = true)
    (hs' : stepEvent s (.nominatorIdle who noms) = some s') : Inv s' := by
  have hval : s.staking.status who = some (.Nominator noms) := by
    simpa [validEvent] using hv
  obtain ⟨st, hb⟩ := bondOf_of_status hval
  simp only [stepEvent, hb] at hs'
  set σ' := s.staking.setBond who ⟨.Idle, st⟩ with hσ'
  have hs'' : s' = on_nominator_idle { s with staking := σ' } who noms :=
    ((Option.some.injEq _ _).mp hs').symm
  subst hs''
  have hw : active_vote_of σ' who = st := by
    rw [active_vote_of, stake_setBond_self]
    rfl
  have hwvl : containsAcc s.voterList who = true := by
    have := hInv.nomInVL who noms hval
    exact contains_of_getScore this
  have hmain : on_nominator_idle { s with staking := σ' } who noms
      = { s with
            staking := σ',
            voterList := removeKey s.voterList who,
            targetList := foldTargets σ' (.Negative (weight_of st)) s.targetList noms } := by
    rw [on_nominator_idle_eq, on_nominator_remove_eq]
    simp only [hw]
    rw [onRemove_getD_of_mem (l := s.voterList) hwvl]
  rw [hmain]
  have haccwho : ∀ t, accContrib (s.staking.bondOf who) t
      = if t ∈ noms then weight_of st else 0 := by
    intro t
    rw [hb, accContrib, contribOf_nominator]
  refine inv_nominator_departure σ' σ' hInv hval
    (fun b hbw => status_setBond_other _ hbw)
    (fun b hbw => status_setBond_other _ hbw)
    (fun b hbw => stake_setBond_other _ hbw)
    (Or.inr (status_setBond_self _ _ _))
    (nodup_stakerKeys_setBond hInv.stNodup) ?_ ?_
  · intro t ht
    have h := listersSum_setBond s.staking who t ⟨.Idle, st⟩ hInv.stNodup
    rw [haccwho t, if_pos ht, contribOf_idle] at h
    rw [hσ']
    omega
  · intro t ht
    have h := listersSum_setBond s.staking who t ⟨.Idle, st⟩ hInv.stNodup
    rw [haccwho t, if_neg ht, contribOf_idle] at h
    rw [hσ']
    omega

theorem inv_step_nominatorRemove {s s' : Sys} {who : AccountId} {noms : List AccountId}
    (hInv : Inv s) (hv : validEvent s (.nominatorRemove who noms) = true)
    (hs' : stepEvent s (.nominatorRemove who noms) = some s') : Inv s' := by
  have hval : s.staking.status who = some (.Nominator noms) := by
    simpa [validEvent] using hv
  obtain ⟨st, hb⟩ := bondOf_of_status hval
  have hstake : s.staking.stake who = some st := stake_of_bondOf hb
  rw [stepEvent] at hs'
  have hs'' : s' = { on_nominator_remove s who noms with
      staking := (on_nominator_remove s who noms).staking.removeBond who } :=
    ((Option.some.injEq _ _).mp hs').symm
  subst hs''
  have hw : active_vote_of s.staking who = st := by
    rw [active_vote_of, hstake]
    rfl
  have hwvl : containsAcc s.voterList who = true :=
    contains_of_getScore (hInv.nomInVL who noms hval)
  have hmain : ({ on_nominator_remove s who noms with
      staking := (on_nominator_remove s who noms).staking.removeBond who } : Sys)
      = { s with
            staking := s.staking.removeBond who,
            voterList := removeKey s.voterList who,
            targetList := foldTargets s.staking (.Negative (weight_of st))
              s.targetList noms } := by
    rw [on_nominator_remove_eq]
    simp only [hw]
    rw [onRemove_getD_of_mem (l := s.voterList) hwvl]
  rw [hmain]
  have haccwho : ∀ t, accContrib (s.staking.bondOf who) t
      = if t ∈ noms then weight_of st else 0 := by
    intro t
    rw [hb, accContrib, contribOf_nominator]
  refine inv_nominator_departure s.staking (s.staking.removeBond who) hInv hval
    (fun b hbw => rfl)
    (fun b hbw => status_removeBond_other hbw)
    (fun b hbw => stake_removeBond_other hbw)
    (Or.inl (status_removeBond_self _ _))
    (nodup_stakerKeys_removeBond hInv.stNodup) ?_ ?_
  · intro t ht
    have h := listersSum_removeBond s.staking who t hInv.stNodup
    rw [haccwho t, if_pos ht] at h
    omega
  · intro t ht
    have h := listersSum_removeBond s.staking who t hInv.stNodup
    rw [haccwho t, if_neg ht] at h
    omega

theorem contrib_le_listersSum {σ : StakingState} {a t : AccountId}
    {noms : List AccountId} {st : Nat}
    (hb : σ.bondOf a = some ⟨.Nominator noms, st⟩) (ht : t ∈ noms) :
    weight_of st ≤ listersSum σ t := by
  have hmem : (a, (⟨.Nominator noms, st⟩ : Bond)) ∈ σ.stakers := bondOf_mem hb
  have hcm : contribOf ⟨.Nominator noms, st⟩ t ∈ σ.stakers.map (fun p => contribOf p.2 t) :=
    List.mem_map.mpr ⟨(a, ⟨.Nominator noms, st⟩), hmem, rfl⟩
  have := List.single_le_sum (fun x _ => Nat.zero_le x) _ hcm
  rwa [contribOf_nominator, if_pos ht] at this

theorem utsl_neg_keep_keys {σ : StakingState} {tl : ListState} {who b : AccountId}
    {d c : Nat} (hc : getScore tl who = some c)
    (hkeep : ¬(c - d = 0 ∧ σ.status who = none)) :
    b ∈ keysOf (update_target_score_tl σ tl who (.Negative d)) ↔ b ∈ keysOf tl := by
  by_cases hbw : b = who
  · subst hbw
    rw [← getScore_isSome_iff, ← getScore_isSome_iff, utsl_neg_mem_keep hc hkeep, hc]
    simp
  · exact mem_keys_utsl_other hbw

theorem vl_onUpdate_getScore_other {l : ListState} {a b : AccountId} {w : Nat}
    (hmem : containsAcc l a = true) (h : b ≠ a) :
    getScore ((onUpdate l a w).getD l) b = getScore l b := by
  rw [onUpdate_getD_of_mem hmem, getScore_insertSorted_other h, getScore_removeKey_other h]

theorem vl_onUpdate_getScore_self {l : ListState} {a : AccountId} {w : Nat}
    (hmem : containsAcc l a = true) :
    getScore ((onUpdate l a w).getD l) a = some w := by
  rw [onUpdate_getD_of_mem hmem]
  exact getScore_insertSorted_self (fun hm => (keysOf_removeKey.mp hm).2 rfl)

theorem vl_onUpdate_nodup {l : ListState} {a : AccountId} {w : Nat}
    (hnd : (keysOf l).Nodup) : (keysOf ((onUpdate l a w).getD l)).Nodup := by
  by_cases hmem : containsAcc l a
  · rw [onUpdate_getD_of_mem hmem]
    exact nodup_keysOf_insertSorted (nodup_keysOf_removeKey hnd)
      (fun hm => (keysOf_removeKey.mp hm).2 rfl)
  · rw [onUpdate_getD_of_not_mem (Bool.eq_false_iff.mpr hmem)]
    exact hnd

theorem vl_onUpdate_mem_other {l : ListState} {a b : AccountId} {w : Nat}
    (hmem : containsAcc l a = true) (h : b ≠ a) :
    b ∈ keysOf ((onUpdate l a w).getD l) ↔ b ∈ keysOf l := by
  rw [← getScore_isSome_iff, ← getScore_isSome_iff, vl_onUpdate_getScore_other hmem h]

theorem vl_onUpdate_mem_self {l : ListState} {a : AccountId} {w : Nat}
    (hmem : containsAcc l a = true) :
    a ∈ keysOf ((onUpdate l a w).getD l) := by
  rw [← getScore_isSome_iff, vl_onUpdate_getScore_self hmem]
  rfl

/-- A stake change of an idle (or freshly bonded) account leaves both lists
alone; only the ledger changes. -/
theorem inv_stake_noop {s : Sys} {who : AccountId} {new : Balance} (hInv : Inv s)
    (hpre : s.staking.status who = none ∨ s.staking.status who = some .Idle) :
    Inv { s with staking := s.staking.setBond who ⟨.Idle, new⟩ } := by
  set σ' := s.staking.setBond who ⟨.Idle, new⟩ with hσ'
  have hst_self : σ'.status who = some .Idle := status_setBond_self _ _ _
  have hst_other : ∀ a, a ≠ who → σ'.status a = s.staking.status a :=
    fun a ha => status_setBond_other _ ha
  have hsk_other : ∀ a, a ≠ who → σ'.stake a = s.staking.stake a :=
    fun a ha => stake_setBond_other _ ha
  have hnotnom : ∀ noms, s.staking.status who ≠ some (.Nominator noms) := by
    intro noms h
    rcases hpre with hp | hp <;> rw [hp] at h <;> cases h
  have hls : ∀ t, listersSum σ' t = listersSum s.staking t :=
    listersSum_setBond_not_nominator hInv.stNodup hnotnom (fun noms h => by cases h)
  have hwvl : who ∉ keysOf s.voterList := by
    rcases hpre with hp | hp
    · exact hInv.unknownNotInVL who hp
    · exact hInv.idleNotInVL who hp
  refine ⟨nodup_stakerKeys_setBond hInv.stNodup, hInv.tlNodup, hInv.vlNodup,
    ?_, ?_, ?_, ?_, ?_, ?_, ?_, ?_, ?_, ?_, ?_, ?_⟩
  · intro a c hc
    by_cases ha : a = who
    · subst ha
      have := hInv.approvals a c hc
      have hsw : selfWeight s.staking a = 0 := by
        rcases hpre with hp | hp <;> rw [selfWeight, hp]
      simp only [selfWeight, hst_self, hls]
      omega
    · rw [selfWeight_congr (hst_other a ha) (hsk_other a ha), hls]
      exact hInv.approvals a c hc
  · intro a hva
    have ha : a ≠ who := by
      rintro rfl
      rw [hst_self] at hva
      cases hva
    rw [hst_other a ha] at hva
    exact hInv.valInTL a hva
  · intro a hva
    have ha : a ≠ who := by
      rintro rfl
      rw [hst_self] at hva
      cases hva
    rw [hst_other a ha] at hva
    exact hInv.valInVL a hva
  · intro a noms hna
    have ha : a ≠ who := by
      rintro rfl
      rw [hst_self] at hna
      cases hna
    rw [hst_other a ha] at hna
    rw [hsk_other a ha]
    exact hInv.nomInVL a noms hna
  · intro a noms hna
    have ha : a ≠ who := by
      rintro rfl
      rw [hst_self] at hna
      cases hna
    rw [hst_other a ha] at hna
    exact hInv.nomNotInTL a noms hna
  · intro a noms hna
    have ha : a ≠ who := by
      rintro rfl
      rw [hst_self] at hna
      cases hna
    rw [hst_other a ha] at hna
    rw [hsk_other a ha]
    exact hInv.nomPos a noms hna
  · intro a noms hna
    have ha : a ≠ who := by
      rintro rfl
      rw [hst_self] at hna
      cases hna
    rw [hst_other a ha] at hna
    exact hInv.nomNodup a noms hna
  · intro a noms hna
    have ha : a ≠ who := by
      rintro rfl
      rw [hst_self] at hna
      cases hna
    rw [hst_other a ha] at hna
    exact hInv.nomNotSelf a noms hna
  · intro a noms t hna ht
    have ha : a ≠ who := by
      rintro rfl
      rw [hst_self] at hna
      cases hna
    rw [hst_other a ha] at hna
    exact hInv.listedInTL a noms t hna ht
  · intro a hia
    by_cases ha : a = who
    · subst ha
      exact hwvl
    · rw [hst_other a ha] at hia
      exact hInv.idleNotInVL a hia
  · intro a hua
    have ha : a ≠ who := by
      rintro rfl
      rw [hst_self] at hua
      cases hua
    rw [hst_other a ha] at hua
    exact hInv.unknownNotInVL a hua
  · intro a c hc hua
    have ha : a ≠ who := by
      rintro rfl
      rw [hst_self] at hua
      cases hua
    rw [hst_other a ha] at hua
    exact hInv.danglingPos a c hc hua

theorem stake_imbalance_of_some (old w : Nat) :
    stake_imbalance_of (some old) (to_vote_extended (weight_of w))
      = if old > w then .Negative (old - w) else .Positive (w - old) := by
  rfl

/-- A stake change of an active validator adjusts its own target score and
its voter-list score. -/
theorem inv_stake_validator {s : Sys} {who : AccountId} {old new : Nat}
    (hInv : Inv s) (hb : s.staking.bondOf who = some ⟨.Validator, old⟩) :
    Inv (on_stake_update { s with staking := s.staking.setBond who ⟨.Validator, new⟩ }
        who (some old) new) := by
  have hval : s.staking.status who = some .Validator := status_of_bondOf hb
  set σ' := s.staking.setBond who ⟨.Validator, new⟩ with hσ'
  have hst_self : σ'.status who = some .Validator := status_setBond_self _ _ _
  have hsk_self : σ'.stake who = some new := stake_setBond_self _ _ _
  have hst_other : ∀ a, a ≠ who → σ'.status a = s.staking.status a :=
    fun a ha => status_setBond_other _ ha
  have hsk_other : ∀ a, a ≠ who → σ'.stake a = s.staking.stake a :=
    fun a ha => stake_setBond_other _ ha
  have hstnd : (stakerKeys σ').Nodup := nodup_stakerKeys_setBond hInv.stNodup
  have hls : ∀ t, listersSum σ' t = listersSum s.staking t :=
    listersSum_setBond_not_nominator hInv.stNodup
      (fun noms h => by rw [hval] at h; cases h) (fun noms h => by cases h)
  have hwtl : who ∈ keysOf s.targetList := hInv.valInTL who hval
  have hwvl : containsAcc s.voterList who = true :=
    containsAcc_iff.mpr (hInv.valInVL who hval)
  obtain ⟨c, hc⟩ := Option.isSome_iff_exists.mp (getScore_isSome_iff.mpr hwtl)
  have hcval : c = old + listersSum s.staking who := by
    have := hInv.approvals who c hc
    rw [selfWeight, hval, stake_of_bondOf hb] at this
    simpa [weight_of] using this
  rw [on_stake_update_validator (s := { s with staking := σ' }) hst_self
    (by rw [hsk_self]; rfl)]
  rw [stake_imbalance_of_some]
  -- the new target score of `who`
  have hkeep : ∀ d : Nat, ¬(c - d = 0 ∧ σ'.status who = none) := by
    rintro d ⟨-, h⟩
    rw [hst_self] at h
    cases h
  have htl_who : getScore (update_target_score_tl σ' s.targetList who
        (if old > new then .Negative (old - new) else .Positive (new - old))) who
      = some (new + listersSum s.staking who) := by
    by_cases hcmp : old > new
    · rw [if_pos hcmp, utsl_neg_mem_keep hc (hkeep (old - new)), Option.some.injEq, hcval]
      omega
    · rw [if_neg hcmp, utsl_pos_mem hc, Option.some.injEq, hcval]
      omega
  have htl_other : ∀ b, b ≠ who →
      getScore (update_target_score_tl σ' s.targetList who
        (if old > new then .Negative (old - new) else .Positive (new - old))) b
      = getScore s.targetList b := by
    intro b hbw
    by_cases hcmp : old > new
    · rw [if_pos hcmp, utsl_getScore_other hbw]
    · rw [if_neg hcmp, utsl_getScore_other hbw]
  have hsw : selfWeight σ' who = new := by
    simp only [selfWeight, hst_self, hsk_self]
    rfl
  refine ⟨hstnd, utsl_nodup hInv.tlNodup, vl_onUpdate_nodup hInv.vlNodup,
    ?_, ?_, ?_, ?_, ?_, ?_, ?_, ?_, ?_, ?_, ?_, ?_⟩
  · intro a c' hc'
    by_cases ha : a = who
    · subst ha
      rw [htl_who, Option.some.injEq] at hc'
      rw [← hc', hsw, hls]
    · rw [htl_other a ha] at hc'
      rw [selfWeight_congr (hst_other a ha) (hsk_other a ha), hls]
      exact hInv.approvals a c' hc'
  · intro a hva
    by_cases ha : a = who
    · subst ha
      exact getScore_isSome_iff.mp (by rw [htl_who]; rfl)
    · rw [hst_other a ha] at hva
      rw [← getScore_isSome_iff, htl_other a ha, getScore_isSome_iff]
      exact hInv.valInTL a hva
  · intro a hva
    by_cases ha : a = who
    · subst ha
      exact vl_onUpdate_mem_self hwvl
    · rw [hst_other a ha] at hva
      rw [vl_onUpdate_mem_other hwvl ha]
      exact hInv.valInVL a hva
  · intro a noms hna
    have ha : a ≠ who := by
      rintro rfl
      rw [hst_self] at hna
      cases hna
    rw [hst_other a ha] at hna
    rw [vl_onUpdate_getScore_other hwvl ha, hsk_other a ha]
    exact hInv.nomInVL a noms hna
  · intro a noms hna
    have ha : a ≠ who := by
      rintro rfl
      rw [hst_self] at hna
      cases hna
    rw [hst_other a ha] at hna
    rw [← getScore_isSome_iff, htl_other a ha, getScore_isSome_iff]
    exact hInv.nomNotInTL a noms hna
  · intro a noms hna
    have ha : a ≠ who := by
      rintro rfl
      rw [hst_self] at hna
      cases hna
    rw [hsk_other a ha]
    rw [hst_other a ha] at hna
    exact hInv.nomPos a noms hna
  · intro a noms hna
    have ha : a ≠ who := by
      rintro rfl
      rw [hst_self] at hna
      cases hna
    rw [hst_other a ha] at hna
    exact hInv.nomNodup a noms hna
  · intro a noms hna
    have ha : a ≠ who := by
      rintro rfl
      rw [hst_self] at hna
      cases hna
    rw [hst_other a ha] at hna
    exact hInv.nomNotSelf a noms hna
  · intro a noms t hna ht
    have ha : a ≠ who := by
      rintro rfl
      rw [hst_self] at hna
      cases hna
    rw [hst_other a ha] at hna
    by_cases htw : t = who
    · subst htw
      exact getScore_isSome_iff.mp (by rw [htl_who]; rfl)
    · rw [← getScore_isSome_iff, htl_other t htw, getScore_isSome_iff]
      exact hInv.listedInTL a noms t hna ht
  · intro a hia
    have ha : a ≠ who := by
      rintro rfl
      rw [hst_self] at hia
      cases hia
    rw [hst_other a ha] at hia
    rw [vl_onUpdate_mem_other hwvl ha]
    exact hInv.idleNotInVL a hia
  · intro a hua
    have ha : a ≠ who := by
      rintro rfl
      rw [hst_self] at hua
      cases hua
    rw [hst_other a ha] at hua
    rw [vl_onUpdate_mem_other hwvl ha]
    exact hInv.unknownNotInVL a hua
  · intro a c' hc' hua
    have ha : a ≠ who := by
      rintro rfl
      rw [hst_self] at hua
      cases hua
    rw [htl_other a ha] at hc'
    rw [hst_other a ha] at hua
    exact hInv.danglingPos a c' hc' hua

/-- A stake change of a nominator adjusts its voter-list score and
propagates the weight delta to every nominated target. -/
theorem inv_stake_nominator {s : Sys} {who : AccountId} {old new : Nat}
    {noms : List AccountId} (hInv : Inv s)
    (hb : s.staking.bondOf who = some ⟨.Nominator noms, old⟩) (hnew : new ≠ 0) :
    Inv (on_stake_update { s with staking := s.staking.setBond who ⟨.Nominator noms, new⟩ }
        who (some old) new) := by
  have hval : s.staking.status who = some (.Nominator noms) := status_of_bondOf hb
  set σ' := s.staking.setBond who ⟨.Nominator noms, new⟩ with hσ'
  have hst_self : σ'.status who = some (.Nominator noms) := status_setBond_self _ _ _
  have hsk_self : σ'.stake who = some new := stake_setBond_self _ _ _
  have hst_other : ∀ a, a ≠ who → σ'.status a = s.staking.status a :=
    fun a ha => status_setBond_other _ ha
  have hsk_other : ∀ a, a ≠ who → σ'.stake a = s.staking.stake a :=
    fun a ha => stake_setBond_other _ ha
  have hstnd : (stakerKeys σ').Nodup := nodup_stakerKeys_setBond hInv.stNodup
  have hnd : noms.Nodup := hInv.nomNodup who noms hval
  have hself : who ∉ noms := hInv.nomNotSelf who noms hval
  have hmemkeys : ∀ t ∈ noms, t ∈ keysOf s.targetList :=
    fun t ht => hInv.listedInTL who noms t hval ht
  have hwnotintl : who ∉ keysOf s.targetList := hInv.nomNotInTL who noms hval
  have hwvl : containsAcc s.voterList who = true :=
    contains_of_getScore (hInv.nomInVL who noms hval)
  have haccwho : ∀ t, accContrib (s.staking.bondOf who) t
      = if t ∈ noms then weight_of old else 0 := by
    intro t
    rw [hb, accContrib, contribOf_nominator]
  have hlsin : ∀ t ∈ noms, listersSum σ' t + old = listersSum s.staking t + new := by
    intro t ht
    have h := listersSum_setBond s.staking who t ⟨.Nominator noms, new⟩ hInv.stNodup
    rw [haccwho t, if_pos ht, contribOf_nominator, if_pos ht] at h
    simp only [weight_of] at h
    rw [hσ']
    omega
  have hlsout : ∀ t, t ∉ noms → listersSum σ' t = listersSum s.staking t := by
    intro t ht
    have h := listersSum_setBond s.staking who t ⟨.Nominator noms, new⟩ hInv.stNodup
    rw [haccwho t, if_neg ht, contribOf_nominator, if_neg ht] at h
    rw [hσ']
    omega
  have hlb : ∀ t ∈ noms, old ≤ listersSum s.staking t := by
    intro t ht
    have := contrib_le_listersSum hb ht
    simpa [weight_of] using this
  rw [on_stake_update_nominator (s := { s with staking := σ' }) hst_self
    (by rw [hsk_self]; rfl)]
  rw [stake_imbalance_of_some]
  set imb := if old > new then StakeImbalance.Negative (old - new)
    else StakeImbalance.Positive (new - old) with himb
  have htl_out : ∀ b, b ∉ noms →
      getScore (foldTargets σ' imb s.targetList noms) b = getScore s.targetList b :=
    fun b hb' => foldTargets_getScore_not_mem hb'
  have htl_in : ∀ t ∈ noms, ∀ c, getScore s.targetList t = some c →
      getScore (foldTargets σ' imb s.targetList noms) t = some (c + new - old) := by
    intro t ht c hc
    have hls_le : listersSum s.staking t ≤ c := by
      have := hInv.approvals t c hc
      omega
    have hcge : old ≤ c := le_trans (hlb t ht) hls_le
    rw [himb]
    by_cases hcmp : old > new
    · rw [if_pos hcmp]
      have hfold := foldTargets_neg_getScore (σ := σ') (d := old - new) hnd hmemkeys ht hc
      rw [if_neg (by
        rintro ⟨hzero, -⟩
        omega)] at hfold
      rw [hfold, Option.some.injEq]
      omega
    · rw [if_neg hcmp]
      rw [foldTargets_pos_getScore (σ := σ') (d := new - old) hnd hmemkeys hc,
        if_pos ht, Option.some.injEq]
      omega
  have hkeys : ∀ b, b ∈ keysOf (foldTargets σ' imb s.targetList noms)
      ↔ b ∈ keysOf s.targetList := by
    intro b
    constructor
    · exact foldTargets_mem_keys_subset hmemkeys
    · intro hbm
      obtain ⟨c, hc⟩ := Option.isSome_iff_exists.mp (getScore_isSome_iff.mpr hbm)
      by_cases hbn : b ∈ noms
      · rw [← getScore_isSome_iff, htl_in b hbn c hc]
        rfl
      · rw [← getScore_isSome_iff, htl_out b hbn, hc]
        rfl
  show Inv { s with
      staking := σ',
      voterList := (onUpdate s.voterList who (weight_of new)).getD s.voterList,
      targetList := foldTargets σ' imb s.targetList noms }
  refine ⟨hstnd, foldTargets_nodup hInv.tlNodup, vl_onUpdate_nodup hInv.vlNodup,
    ?_, ?_, ?_, ?_, ?_, ?_, ?_, ?_, ?_, ?_, ?_, ?_⟩
  · -- approvals
    intro a c' hc'
    show c' = selfWeight σ' a + listersSum σ' a
    have ham : a ∈ keysOf s.targetList := by
      rw [← hkeys]
      exact getScore_isSome_iff.mp (by rw [hc']; rfl)
    have ha : a ≠ who := by
      rintro rfl
      exact hwnotintl ham
    obtain ⟨c, hc⟩ := Option.isSome_iff_exists.mp (getScore_isSome_iff.mpr ham)
    have heq := hInv.approvals a c hc
    rw [selfWeight_congr (hst_other a ha) (hsk_other a ha)]
    by_cases han : a ∈ noms
    · rw [htl_in a han c hc, Option.some.injEq] at hc'
      have hlseq := hlsin a han
      have hlsle := hlb a han
      omega
    · rw [htl_out a han, hc, Option.some.injEq] at hc'
      rw [hlsout a han]
      omega
  · -- valInTL
    intro a hva
    have ha : a ≠ who := by
      rintro rfl
      rw [hst_self] at hva
      cases hva
    rw [hst_other a ha] at hva
    rw [hkeys]
    exact hInv.valInTL a hva
  · -- valInVL
    intro a hva
    have ha : a ≠ who := by
      rintro rfl
      rw [hst_self] at hva
      cases hva
    rw [hst_other a ha] at hva
    rw [vl_onUpdate_mem_other hwvl ha]
    exact hInv.valInVL a hva
  · -- nomInVL
    intro a noms₀ hna
    by_cases ha : a = who
    · subst ha
      rw [vl_onUpdate_getScore_self hwvl, hsk_self]
      rfl
    · rw [hst_other a ha] at hna
      rw [vl_onUpdate_getScore_other hwvl ha, hsk_other a ha]
      exact hInv.nomInVL a noms₀ hna
  · -- nomNotInTL
    intro a noms₀ hna
    rw [hkeys]
    by_cases ha : a = who
    · subst ha
      exact hwnotintl
    · rw [hst_other a ha] at hna
      exact hInv.nomNotInTL a noms₀ hna
  · -- nomPos
    intro a noms₀ hna
    by_cases ha : a = who
    · subst ha
      rw [hsk_self]
      simpa using hnew
    · rw [hsk_other a ha]
      rw [hst_other a ha] at hna
      exact hInv.nomPos a noms₀ hna
  · -- nomNodup
    intro a noms₀ hna
    by_cases ha : a = who
    · subst ha
      rw [hst_self] at hna
      cases hna
      exact hnd
    · rw [hst_other a ha] at hna
      exact hInv.nomNodup a noms₀ hna
  · -- nomNotSelf
    intro a noms₀ hna
    by_cases ha : a = who
    · subst ha
      rw [hst_self] at hna
      cases hna
      exact hself
    · rw [hst_other a ha] at hna
      exact hInv.nomNotSelf a noms₀ hna
  · -- listedInTL
    intro a noms₀ t hna ht
    rw [hkeys]
    by_cases ha : a = who
    · subst ha
      rw [hst_self] at hna
      cases hna
      exact hmemkeys t ht
    · rw [hst_other a ha] at hna
      exact hInv.listedInTL a noms₀ t hna ht
  · -- idleNotInVL
    intro a hia
    have ha : a ≠ who := by
      rintro rfl
      rw [hst_self] at hia
      cases hia
    rw [hst_other a ha] at hia
    rw [vl_onUpdate_mem_other hwvl ha]
    exact hInv.idleNotInVL a hia
  · -- unknownNotInVL
    intro a hua
    have ha : a ≠ who := by
      rintro rfl
      rw [hst_self] at hua
      cases hua
    rw [hst_other a ha] at hua
    rw [vl_onUpdate_mem_other hwvl ha]
    exact hInv.unknownNotInVL a hua
  · -- danglingPos
    intro a c' hc' hua
    have ha : a ≠ who := by
      rintro rfl
      rw [hst_self] at hua
      cases hua
    rw [hst_other a ha] at hua
    have ham : a ∈ keysOf s.targetList := by
      rw [← hkeys]
      exact getScore_isSome_iff.mp (by rw [hc']; rfl)
    obtain ⟨c, hc⟩ := Option.isSome_iff_exists.mp (getScore_isSome_iff.mpr ham)
    by_cases han : a ∈ noms
    · rw [htl_in a han c hc, Option.some.injEq] at hc'
      have heq := hInv.approvals a c hc
      have hlsle := hlb a han
      omega
    · rw [htl_out a han, hc, Option.some.injEq] at hc'
      have := hInv.danglingPos a c hc hua
      omega

theorem inv_step_stakeUpdate {s s' : Sys} {who : AccountId} {prev : Option Balance}
    {new : Balance} (hInv : Inv s)
    (hv : validEvent s (.stakeUpdate who prev new) = true)
    (hp : posEvent s (.stakeUpdate who prev new) = true)
    (hs' : stepEvent s (.stakeUpdate who prev new) = some s') : Inv s' := by
  have hprev : prev = s.staking.stake who := by
    rw [validEvent, beq_iff_eq] at hv
    exact hv
  cases hbond : s.staking.bondOf who with
  | none =>
      have hstat : s.staking.status who = none := by
        rw [status_eq_map_bondOf, hbond]
        rfl
      simp only [stepEvent, hbond] at hs'
      have hs'' : s' = on_stake_update
          { s with staking := s.staking.setBond who ⟨.Idle, new⟩ } who prev new :=
        ((Option.some.injEq _ _).mp hs').symm
      subst hs''
      rw [on_stake_update_idle (s := { s with staking := s.staking.setBond who ⟨.Idle, new⟩ })
        (status_setBond_self _ _ _)]
      exact inv_stake_noop hInv (Or.inl hstat)
  | some b =>
      cases b with
      | mk role oldst =>
          have hstat : s.staking.status who = some role := status_of_bondOf hbond
          have hstk : s.staking.stake who = some oldst := stake_of_bondOf hbond
          have hprev' : prev = some oldst := by rw [hprev, hstk]
          simp only [stepEvent, hbond] at hs'
          have hs'' : s' = on_stake_update
              { s with staking := s.staking.setBond who ⟨role, new⟩ } who prev new :=
            ((Option.some.injEq _ _).mp hs').symm
          subst hs''
          rw [hprev']
          cases role with
          | Idle =>
              rw [on_stake_update_idle
                (s := { s with staking := s.staking.setBond who ⟨.Idle, new⟩ })
                (status_setBond_self _ _ _)]
              exact inv_stake_noop hInv (Or.inr hstat)
          | Validator => exact inv_stake_validator hInv hbond
          | Nominator noms =>
              have hnew : new ≠ 0 := by
                rw [posEvent, hstat] at hp
                simpa using hp
              exact inv_stake_nominator hInv hbond hnew

theorem inv_step_nominatorUpdate {s s' : Sys} {who : AccountId}
    {prev next : List AccountId} (hInv : Inv s)
    (hv : validEvent s (.nominatorUpdate who prev next) = true)
    (hs' : stepEvent s (.nominatorUpdate who prev next) = some s') : Inv s' := by
  rw [validEvent, Bool.and_eq_true, Bool.and_eq_true] at hv
  obtain ⟨⟨hval, hdist⟩, hall⟩ := hv
  rw [beq_iff_eq] at hval
  rw [allDistinct_iff_nodup] at hdist
  have hnextval : ∀ t ∈ next, s.staking.status t = some .Validator := by
    intro t ht
    have := List.all_eq_true.mp hall t ht
    rwa [beq_iff_eq] at this
  obtain ⟨st, hb⟩ := bondOf_of_status hval
  have hstk : s.staking.stake who = some st := stake_of_bondOf hb
  simp only [stepEvent, hb] at hs'
  set σ' := s.staking.setBond who ⟨.Nominator next, st⟩ with hσ'
  have hs'' : s' = on_nominator_update { s with staking := σ' } who prev next :=
    ((Option.some.injEq _ _).mp hs').symm
  subst hs''
  -- staking facts
  have hst_self : σ'.status who = some (.Nominator next) := status_setBond_self _ _ _
  have hsk_self : σ'.stake who = some st := stake_setBond_self _ _ _
  have hst_other : ∀ a, a ≠ who → σ'.status a = s.staking.status a :=
    fun a ha => status_setBond_other _ ha
  have hsk_other : ∀ a, a ≠ who → σ'.stake a = s.staking.stake a :=
    fun a ha => stake_setBond_other _ ha
  have hstnd : (stakerKeys σ').Nodup := nodup_stakerKeys_setBond hInv.stNodup
  -- facts about the old and new nomination sets
  have hprev_nd : prev.Nodup := hInv.nomNodup who prev hval
  have hprev_self : who ∉ prev := hInv.nomNotSelf who prev hval
  have hprev_keys : ∀ t ∈ prev, t ∈ keysOf s.targetList :=
    fun t ht => hInv.listedInTL who prev t hval ht
  have hwnotintl : who ∉ keysOf s.targetList := hInv.nomNotInTL who prev hval
  have hstpos : st ≠ 0 := by
    have := hInv.nomPos who prev hval
    rw [hstk] at this
    simpa using this
  have hnext_self : who ∉ next := by
    intro hmem
    have := hnextval who hmem
    rw [hval] at this
    cases this
  have hnext_keys : ∀ t ∈ next, t ∈ keysOf s.targetList :=
    fun t ht => hInv.valInTL t (hnextval t ht)
  -- the two filtered sets
  set added := next.filter (fun t => !prev.contains t) with hadded
  set removed := prev.filter (fun t => !next.contains t) with hremoved
  have hadd_mem : ∀ t, t ∈ added ↔ t ∈ next ∧ t ∉ prev := by
    intro t
    rw [hadded, List.mem_filter, Bool.not_eq_true']
    constructor
    · rintro ⟨h1, h2⟩
      exact ⟨h1, fun hm => by rw [contains_iff_mem.mpr hm] at h2; cases h2⟩
    · rintro ⟨h1, h2⟩
      exact ⟨h1, Bool.eq_false_iff.mpr (fun hc => h2 (contains_iff_mem.mp hc))⟩
  have hrem_mem : ∀ t, t ∈ removed ↔ t ∈ prev ∧ t ∉ next := by
    intro t
    rw [hremoved, List.mem_filter, Bool.not_eq_true']
    constructor
    · rintro ⟨h1, h2⟩
      exact ⟨h1, fun hm => by rw [contains_iff_mem.mpr hm] at h2; cases h2⟩
    · rintro ⟨h1, h2⟩
      exact ⟨h1, Bool.eq_false_iff.mpr (fun hc => h2 (contains_iff_mem.mp hc))⟩
  have hadd_nd : added.Nodup := hdist.filter _
  have hrem_nd : removed.Nodup := hprev_nd.filter _
  have hadd_keys : ∀ t ∈ added, t ∈ keysOf s.targetList :=
    fun t ht => hnext_keys t ((hadd_mem t).mp ht).1
  have hrem_keys : ∀ t ∈ removed, t ∈ keysOf s.targetList :=
    fun t ht => hprev_keys t ((hrem_mem t).mp ht).1
  -- listers-sum transfer
  have haccwho : ∀ t, accContrib (s.staking.bondOf who) t
      = if t ∈ prev then weight_of st else 0 := by
    intro t
    rw [hb, accContrib, contribOf_nominator]
  have hlsbase : ∀ t, listersSum σ' t + (if t ∈ prev then weight_of st else 0)
      = listersSum s.staking t + (if t ∈ next then weight_of st else 0) := by
    intro t
    have h := listersSum_setBond s.staking who t ⟨.Nominator next, st⟩ hInv.stNodup
    rw [haccwho t, contribOf_nominator] at h
    rw [hσ']
    omega
  have hls_add : ∀ t ∈ added, listersSum σ' t = listersSum s.staking t + weight_of st := by
    intro t ht
    obtain ⟨h1, h2⟩ := (hadd_mem t).mp ht
    have := hlsbase t
    rw [if_pos h1, if_neg h2] at this
    omega
  have hls_rem : ∀ t ∈ removed, listersSum σ' t + weight_of st = listersSum s.staking t := by
    intro t ht
    obtain ⟨h1, h2⟩ := (hrem_mem t).mp ht
    have := hlsbase t
    rw [if_pos h1, if_neg h2] at this
    omega
  have hls_same : ∀ t, t ∉ added → t ∉ removed →
      listersSum σ' t = listersSum s.staking t := by
    intro t hta htr
    have := hlsbase t
    by_cases hp : t ∈ prev
    · have hn : t ∈ next := by
        by_contra hn
        exact htr ((hrem_mem t).mpr ⟨hp, hn⟩)
      rw [if_pos hp, if_pos hn] at this
      omega
    · have hn : t ∉ next := fun hn => hta ((hadd_mem t).mpr ⟨hn, hp⟩)
      rw [if_neg hp, if_neg hn] at this
      omega
  -- the handler
  have hw : active_vote_of σ' who = st := by
    rw [active_vote_of, hsk_self]
    rfl
  have hmain : on_nominator_update { s with staking := σ' } who prev next
      = { s with
            staking := σ',
            targetList := foldTargets σ' (.Negative (weight_of st))
              (foldTargets σ' (.Positive (weight_of st)) s.targetList added)
              removed } := by
    rw [on_nominator_update_eq]
    simp only [hw, hadded, hremoved]
  rw [hmain]
  -- intermediate target list facts
  set tl2 := foldTargets σ' (.Positive (weight_of st)) s.targetList added with htl2
  have htl2sc : ∀ b c, getScore s.targetList b = some c →
      getScore tl2 b = some (c + if b ∈ added then weight_of st else 0) :=
    fun b c hc => foldTargets_pos_getScore hadd_nd hadd_keys hc
  have hkeys2 : ∀ b, b ∈ keysOf tl2 ↔ b ∈ keysOf s.targetList := by
    intro b
    constructor
    · exact foldTargets_mem_keys_subset hadd_keys
    · intro hbm
      obtain ⟨c, hc⟩ := Option.isSome_iff_exists.mp (getScore_isSome_iff.mpr hbm)
      rw [← getScore_isSome_iff, htl2sc b c hc]
      rfl
  have hnd2 : (keysOf tl2).Nodup := foldTargets_nodup hInv.tlNodup
  have hrem_keys2 : ∀ t ∈ removed, t ∈ keysOf tl2 :=
    fun t ht => (hkeys2 t).mpr (hrem_keys t ht)
  set tl3 := foldTargets σ' (.Negative (weight_of st)) tl2 removed with htl3
  have hdisj : ∀ t, t ∈ added → t ∉ removed := by
    intro t hta htr
    exact ((hrem_mem t).mp htr).2 ((hadd_mem t).mp hta).1
  -- final scores
  have htl3_not : ∀ b, b ∉ removed → getScore tl3 b = getScore tl2 b :=
    fun b hb' => foldTargets_getScore_not_mem hb'
  have htl3_rem : ∀ b ∈ removed, ∀ c, getScore tl2 b = some c →
      (if c - weight_of st = 0 ∧ σ'.status b = none
        then b ∉ keysOf tl3
        else getScore tl3 b = some (c - weight_of st)) :=
    fun b hbm c hc => foldTargets_neg_getScore hrem_nd hrem_keys2 hbm hc
  have hkeys3sub : ∀ b, b ∈ keysOf tl3 → b ∈ keysOf s.targetList :=
    fun b hbm => (hkeys2 b).mp (foldTargets_mem_keys_subset hrem_keys2 hbm)
  refine ⟨hstnd, foldTargets_nodup hnd2, hInv.vlNodup,
    ?_, ?_, ?_, ?_, ?_, ?_, ?_, ?_, ?_, ?_, ?_, ?_⟩
  · -- approvals
    intro a c' hc'
    show c' = selfWeight σ' a + listersSum σ' a
    have ham : a ∈ keysOf s.targetList :=
      hkeys3sub a (getScore_isSome_iff.mp (by rw [hc']; rfl))
    have ha : a ≠ who := by
      rintro rfl
      exact hwnotintl ham
    obtain ⟨c, hc⟩ := Option.isSome_iff_exists.mp (getScore_isSome_iff.mpr ham)
    have heq := hInv.approvals a c hc
    rw [selfWeight_congr (hst_other a ha) (hsk_other a ha)]
    by_cases har : a ∈ removed
    · have hc2 : getScore tl2 a = some c := by
        rw [htl2sc a c hc, if_neg (fun hm => hdisj a hm har)]
        rfl
      have := htl3_rem a har c hc2
      by_cases hrm : c - weight_of st = 0 ∧ σ'.status a = none
      · rw [if_pos hrm] at this
        exact absurd (getScore_isSome_iff.mp (by rw [hc']; rfl)) this
      · rw [if_neg hrm] at this
        rw [this, Option.some.injEq] at hc'
        have hls := hls_rem a har
        omega
    · rw [htl3_not a har] at hc'
      by_cases haa : a ∈ added
      · rw [htl2sc a c hc, if_pos haa, Option.some.injEq] at hc'
        have hls := hls_add a haa
        omega
      · rw [htl2sc a c hc, if_neg haa, Option.some.injEq] at hc'
        have hls := hls_same a haa har
        omega
  · -- valInTL
    intro a hva
    have ha : a ≠ who := by
      rintro rfl
      rw [hst_self] at hva
      cases hva
    rw [hst_other a ha] at hva
    have ham : a ∈ keysOf s.targetList := hInv.valInTL a hva
    obtain ⟨c, hc⟩ := Option.isSome_iff_exists.mp (getScore_isSome_iff.mpr ham)
    by_cases har : a ∈ removed
    · have hc2 : getScore tl2 a = some c := by
        rw [htl2sc a c hc, if_neg (fun hm => hdisj a hm har)]
        rfl
      have := htl3_rem a har c hc2
      rw [if_neg (by
        rintro ⟨-, hnone⟩
        rw [hst_other a ha, hva] at hnone
        cases hnone)] at this
      exact getScore_isSome_iff.mp (by rw [this]; rfl)
    · rw [← getScore_isSome_iff, htl3_not a har, getScore_isSome_iff]
      exact (hkeys2 a).mpr ham
  · -- valInVL
    intro a hva
    have ha : a ≠ who := by
      rintro rfl
      rw [hst_self] at hva
      cases hva
    rw [hst_other a ha] at hva
    exact hInv.valInVL a hva
  · -- nomInVL
    intro a noms₀ hna
    by_cases ha : a = who
    · subst ha
      rw [hsk_self]
      have := hInv.nomInVL a prev hval
      rw [hstk] at this
      exact this
    · rw [hst_other a ha] at hna
      rw [hsk_other a ha]
      exact hInv.nomInVL a noms₀ hna
  · -- nomNotInTL
    intro a noms₀ hna
    by_cases ha : a = who
    · subst ha
      intro hm
      exact hwnotintl (hkeys3sub a hm)
    · rw [hst_other a ha] at hna
      intro hm
      exact hInv.nomNotInTL a noms₀ hna (hkeys3sub a hm)
  · -- nomPos
    intro a noms₀ hna
    by_cases ha : a = who
    · subst ha
      rw [hsk_self]
      simpa using hstpos
    · rw [hsk_other a ha]
      rw [hst_other a ha] at hna
      exact hInv.nomPos a noms₀ hna
  · -- nomNodup
    intro a noms₀ hna
    by_cases ha : a = who
    · subst ha
      rw [hst_self] at hna
      cases hna
      exact hdist
    · rw [hst_other a ha] at hna
      exact hInv.nomNodup a noms₀ hna
  · -- nomNotSelf
    intro a noms₀ hna
    by_cases ha : a = who
    · subst ha
      rw [hst_self] at hna
      cases hna
      exact hnext_self
    · rw [hst_other a ha] at hna
      exact hInv.nomNotSelf a noms₀ hna
  · -- listedInTL
    intro a noms₀ t hna ht
    have hstatus_t : t ∈ keysOf s.targetList ∧
        (s.staking.status t = some .Validator ∨ (∃ nx, σ'.status t = some (.Nominator nx)) ∨
          σ'.status t ≠ none ∨ True) := by
      constructor
      · by_cases ha : a = who
        · subst ha
          rw [hst_self] at hna
          cases hna
          exact hnext_keys t ht
        · rw [hst_other a ha] at hna
          exact hInv.listedInTL a noms₀ t hna ht
      · exact Or.inr (Or.inr (Or.inr trivial))
    obtain ⟨htk, -⟩ := hstatus_t
    obtain ⟨c, hc⟩ := Option.isSome_iff_exists.mp (getScore_isSome_iff.mpr htk)
    by_cases har : t ∈ removed
    · -- the remaining lister keeps the target's score positive
      have hlsne : listersSum σ' t ≠ 0 := by
        refine listersSum_ne_zero_of_lister hna ht ?_
        by_cases ha : a = who
        · subst ha
          rw [hsk_self]
          simpa using hstpos
        · rw [hsk_other a ha]
          rw [hst_other a ha] at hna
          exact hInv.nomPos a noms₀ hna
      have hc2 : getScore tl2 t = some c := by
        rw [htl2sc t c hc, if_neg (fun hm => hdisj t hm har)]
        rfl
      have heq := hInv.approvals t c hc
      have hls := hls_rem t har
      have := htl3_rem t har c hc2
      rw [if_neg (by
        rintro ⟨hzero, -⟩
        omega)] at this
      exact getScore_isSome_iff.mp (by rw [this]; rfl)
    · rw [← getScore_isSome_iff, htl3_not t har]
      by_cases haa : t ∈ added
      · rw [htl2sc t c hc]
        rfl
      · rw [htl2sc t c hc]
        rfl
  · -- idleNotInVL
    intro a hia
    have ha : a ≠ who := by
      rintro rfl
      rw [hst_self] at hia
      cases hia
    rw [hst_other a ha] at hia
    exact hInv.idleNotInVL a hia
  · -- unknownNotInVL
    intro a hua
    have ha : a ≠ who := by
      rintro rfl
      rw [hst_self] at hua
      cases hua
    rw [hst_other a ha] at hua
    exact hInv.unknownNotInVL a hua
  · -- danglingPos
    intro a c' hc' hua
    have ha : a ≠ who := by
      rintro rfl
      rw [hst_self] at hua
      cases hua
    rw [hst_other a ha] at hua
    have ham : a ∈ keysOf s.targetList :=
      hkeys3sub a (getScore_isSome_iff.mp (by rw [hc']; rfl))
    obtain ⟨c, hc⟩ := Option.isSome_iff_exists.mp (getScore_isSome_iff.mpr ham)
    have hnotadd : a ∉ added := by
      intro hm
      have := hnextval a ((hadd_mem a).mp hm).1
      rw [hua] at this
      cases this
    by_cases har : a ∈ removed
    · have hc2 : getScore tl2 a = some c := by
        rw [htl2sc a c hc, if_neg (fun hm => hdisj a hm har)]
        rfl
      have := htl3_rem a har c hc2
      by_cases hrm : c - weight_of st = 0 ∧ σ'.status a = none
      · rw [if_pos hrm] at this
        exact absurd (getScore_isSome_iff.mp (by rw [hc']; rfl)) this
      · rw [if_neg hrm] at this
        rw [this, Option.some.injEq] at hc'
        intro hzero
        refine hrm ⟨by omega, ?_⟩
        rw [hst_other a ha]
        exact hua
    · rw [htl3_not a har, htl2sc a c hc, if_neg hnotadd, Option.some.injEq] at hc'
      have := hInv.danglingPos a c hc hua
      omega

/-- Every state reachable under the positive-weight contract satisfies the
inductive invariant. -/
theorem inv_preach : ∀ {s : Sys}, PReach s → Inv s := by
  intro s h
  induction h with
  | init => exact inv_init
  | step hr hv hp hstep ih =>
      rename_i s₀ s₁ e
      cases e with
      | stakeUpdate who prev new => exact inv_step_stakeUpdate ih hv hp hstep
      | validatorAdd who ss => exact inv_step_validatorAdd ih hv hstep
      | validatorIdle who => exact inv_step_validatorIdle ih hv hstep
      | validatorRemove who => exact inv_step_validatorRemove ih hv hstep
      | nominatorAdd who noms => exact inv_step_nominatorAdd ih hv hp hstep
      | nominatorIdle who noms => exact inv_step_nominatorIdle ih hv hstep
      | nominatorRemove who noms => exact inv_step_nominatorRemove ih hv hstep
      | nominatorUpdate who prev next => exact inv_step_nominatorUpdate ih hv hstep
      | slash who => exact inv_step_slash ih hstep

/-! ### Sortedness of the target list along every valid run -/

theorem tlsorted_onInsert_getD {tl : ListState} {a : AccountId} {c : Nat}
    (hs : TLSorted tl) : TLSorted ((onInsert tl a c).getD tl) := by
  rw [onInsert]
  by_cases h : containsAcc tl a
  · rw [if_pos h]
    exact hs
  · rw [if_neg h]
    exact tlsorted_insertSorted hs

theorem tlsorted_on_nominator_add {s : Sys} {who : AccountId} {noms : List AccountId}
    (hs : TLSorted s.targetList) :
    TLSorted (on_nominator_add s who noms).targetList := by
  by_cases h : containsAcc s.voterList who
  · rw [on_nominator_add_mem h]
    exact hs
  · have h' : containsAcc s.voterList who = false := Bool.eq_false_iff.mpr h
    cases hstatus : s.staking.status who with
    | none =>
        rw [on_nominator_add_not_mem_other h' (fun n hn => by rw [hstatus] at hn; cases hn)]
        exact hs
    | some stt =>
        cases stt with
        | Idle =>
            rw [on_nominator_add_not_mem_other h' (fun n hn => by rw [hstatus] at hn; cases hn)]
            exact hs
        | Validator =>
            rw [on_nominator_add_not_mem_other h' (fun n hn => by rw [hstatus] at hn; cases hn)]
            exact hs
        | Nominator noms₀ =>
            rw [on_nominator_add_not_mem_nom h' hstatus]
            exact foldTargets_sorted hs

theorem tlsorted_on_stake_update {s : Sys} {who : AccountId} {prev : Option Balance}
    {st : Nat} (hs : TLSorted s.targetList) :
    TLSorted (on_stake_update s who prev st).targetList := by
  cases hstatus : s.staking.status who with
  | none =>
      rw [on_stake_update_unknown hstatus]
      exact hs
  | some stt =>
      cases stt with
      | Idle =>
          rw [on_stake_update_idle hstatus]
          exact hs
      | Nominator noms =>
          by_cases hstake : (s.staking.stake who).isSome = true
          · rw [on_stake_update_nominator hstatus hstake]
            exact foldTargets_sorted hs
          · rw [on_stake_update, if_neg (by rw [hstatus, Bool.eq_false_iff.mpr hstake]; simp)]
            exact hs
      | Validator =>
          by_cases hstake : (s.staking.stake who).isSome = true
          · rw [on_stake_update_validator hstatus hstake]
            exact utsl_sorted hs
          · rw [on_stake_update, if_neg (by rw [hstatus, Bool.eq_false_iff.mpr hstake]; simp)]
            exact hs

theorem tlsorted_on_validator_remove {s s₁ : Sys} {who : AccountId}
    (h : on_validator_remove s who = some s₁) (hs : TLSorted s.targetList) :
    TLSorted s₁.targetList := by
  cases hstatus : s.staking.status who with
  | none =>
      rw [on_validator_remove_unknown hstatus] at h
      cases h
      exact hs
  | some stt =>
      cases stt with
      | Nominator noms =>
          rw [on_validator_remove_nominator hstatus] at h
          cases h
          exact hs
      | Idle =>
          rw [on_validator_remove_idle hstatus] at h
          by_cases hz : (getScore s.targetList who).getD 0 = 0
          · rw [if_pos hz, onRemove] at h
            by_cases hc : containsAcc s.targetList who
            · rw [if_pos hc] at h
              simp only [Option.map_some'] at h
              cases h
              exact tlsorted_removeKey hs
            · rw [if_neg hc] at h
              simp only [Option.map_none'] at h
              cases h
          · rw [if_neg hz] at h
            cases h
            exact hs
      | Validator =>
          have hsi : TLSorted (on_validator_idle s who).targetList := by
            rw [on_validator_idle_eq]
            exact utsl_sorted hs
          simp only [on_validator_remove_validator hstatus] at h
          by_cases hz : (getScore (on_validator_idle s who).targetList who).getD 0 = 0
          · rw [if_pos hz, onRemove] at h
            by_cases hc : containsAcc (on_validator_idle s who).targetList who
            · rw [if_pos hc] at h
              simp only [Option.map_some'] at h
              cases h
              exact tlsorted_removeKey hsi
            · rw [if_neg hc] at h
              simp only [Option.map_none'] at h
              cases h
          · rw [if_neg hz] at h
            cases h
            exact hsi

theorem tlsorted_stepEvent {s s' : Sys} {e : Event}
    (h : stepEvent s e = some s') (hs : TLSorted s.targetList) :
    TLSorted s'.targetList := by
  cases e with
  | stakeUpdate who prev new =>
      simp only [stepEvent] at h
      cases h
      exact tlsorted_on_stake_update hs
  | validatorAdd who ss =>
      simp only [stepEvent] at h
      cases h
      rw [on_validator_add_eq]
      by_cases hc : containsAcc s.targetList who
      · rw [if_pos hc]
        exact tlsorted_on_nominator_add (utsl_sorted hs)
      · rw [if_neg hc]
        exact tlsorted_on_nominator_add (tlsorted_onInsert_getD hs)
  | validatorIdle who =>
      simp only [stepEvent] at h
      cases h
      rw [on_validator_idle_eq]
      exact utsl_sorted hs
  | validatorRemove who =>
      rw [stepEvent] at h
      cases hh : on_validator_remove s who with
      | none =>
          rw [hh] at h
          cases h
      | some s₁ =>
          rw [hh] at h
          simp only [Option.map_some'] at h
          cases h
          show TLSorted s₁.targetList
          exact tlsorted_on_validator_remove hh hs
  | nominatorAdd who noms =>
      simp only [stepEvent] at h
      cases h
      exact tlsorted_on_nominator_add hs
  | nominatorIdle who noms =>
      simp only [stepEvent] at h
      cases h
      rw [on_nominator_idle_eq, on_nominator_remove_eq]
      exact foldTargets_sorted hs
  | nominatorRemove who noms =>
      simp only [stepEvent] at h
      cases h
      show TLSorted (on_nominator_remove s who noms).targetList
      rw [on_nominator_remove_eq]
      exact foldTargets_sorted hs
  | nominatorUpdate who prev next =>
      simp only [stepEvent] at h
      cases h
      rw [on_nominator_update_eq]
      exact foldTargets_sorted (foldTargets_sorted hs)
  | slash who =>
      rw [stepEvent] at h
      cases h
      exact hs

/-- The target list of every reachable state is sorted by non-increasing
score. -/
theorem reach_sorted : ∀ {s : Sys}, Reach s → TLSorted s.targetList := by
  intro s h
  induction h with
  | init => exact List.Pairwise.nil
  | step hr hv hstep ih => exact tlsorted_stepEvent hstep ih

/-! ### Correctness of the approvals checker on invariant states -/

theorem mapLookup_eq_getScore (m : AccMap) (k : AccountId) :
    mapLookup m k = getScore m k := rfl

theorem getScore_mapAdd_self (m : AccMap) (k : AccountId) (v : Nat) :
    getScore (mapAdd m k v) k = some ((getScore m k).getD 0 + v) := by
  induction m with
  | nil => simp [mapAdd, getScore]
  | cons p rest ih =>
      obtain ⟨k', v'⟩ := p
      rw [mapAdd]
      by_cases h : k' = k
      · subst h
        rw [if_pos rfl, getScore_cons, if_pos rfl, getScore_cons, if_pos rfl]
        rfl
      · rw [if_neg h, getScore_cons, if_neg h, getScore_cons, if_neg h, ih]

theorem getScore_mapAdd_other (m : AccMap) (k : AccountId) (v : Nat) {x : AccountId}
    (h : x ≠ k) : getScore (mapAdd m k v) x = getScore m x := by
  induction m with
  | nil =>
      rw [mapAdd, getScore_cons, if_neg (fun hh => h hh.symm)]
  | cons p rest ih =>
      obtain ⟨k', v'⟩ := p
      rw [mapAdd]
      by_cases hk : k' = k
      · subst hk
        rw [if_pos rfl, getScore_cons, if_neg (fun hh => h hh.symm), getScore_cons,
          if_neg (fun hh => h hh.symm)]
      · rw [if_neg hk, getScore_cons, getScore_cons, ih]

theorem mem_keysOf_mapAdd (m : AccMap) (k : AccountId) (v : Nat) (x : AccountId) :
    x ∈ keysOf (mapAdd m k v) ↔ x ∈ keysOf m ∨ x = k := by
  induction m with
  | nil => simp [mapAdd, keysOf]
  | cons p rest ih =>
      obtain ⟨k', v'⟩ := p
      rw [mapAdd]
      by_cases h : k' = k
      · subst h
        rw [if_pos rfl, keysOf_cons, keysOf_cons]
        simp only [List.mem_cons]
        tauto
      · rw [if_neg h, keysOf_cons, keysOf_cons]
        simp only [List.mem_cons, ih]
        tauto

theorem nodup_keysOf_mapAdd (m : AccMap) (k : AccountId) (v : Nat)
    (h : (keysOf m).Nodup) : (keysOf (mapAdd m k v)).Nodup := by
  induction m with
  | nil => simp [mapAdd, keysOf]
  | cons p rest ih =>
      obtain ⟨k', v'⟩ := p
      rw [keysOf_cons, List.nodup_cons] at h
      rw [mapAdd]
      by_cases hk : k' = k
      · subst hk
        rw [if_pos rfl, keysOf_cons, List.nodup_cons]
        exact h
      · rw [if_neg hk, keysOf_cons, List.nodup_cons]
        refine ⟨fun hm => ?_, ih h.2⟩
        rcases (mem_keysOf_mapAdd rest k v k').mp hm with hm | hm
        · exact h.1 hm
        · exact hk hm

theorem foldAdd_getScore_not_mem {v : Nat} {t : AccountId} :
    ∀ {noms : List AccountId} {m : AccMap}, t ∉ noms →
      getScore (noms.foldl (fun acc n => mapAdd acc n v) m) t = getScore m t := by
  intro noms
  induction noms with
  | nil => intro m _; rfl
  | cons n rest ih =>
      intro m hmem
      rw [List.foldl_cons, ih (fun h => hmem (List.mem_cons_of_mem _ h))]
      exact getScore_mapAdd_other m n v (fun h => hmem (h ▸ List.mem_cons_self _ _))

theorem foldAdd_getScore_mem {v : Nat} {t : AccountId} :
    ∀ {noms : List AccountId} {m : AccMap}, noms.Nodup → t ∈ noms →
      getScore (noms.foldl (fun acc n => mapAdd acc n v) m) t
        = some ((getScore m t).getD 0 + v) := by
  intro noms
  induction noms with
  | nil => intro m _ hmem; simp at hmem
  | cons n rest ih =>
      intro m hnd hmem
      rw [List.nodup_cons] at hnd
      rw [List.foldl_cons]
      by_cases ht : t = n
      · subst ht
        rw [foldAdd_getScore_not_mem hnd.1, getScore_mapAdd_self]
      · have htr : t ∈ rest := by
          rcases List.mem_cons.mp hmem with h | h
          · exact absurd h ht
          · exact h
        rw [ih hnd.2 htr, getScore_mapAdd_other m n v ht]

theorem foldAdd_mem_keysOf {v : Nat} {x : AccountId} :
    ∀ {noms : List AccountId} {m : AccMap},
      x ∈ keysOf (noms.foldl (fun acc n => mapAdd acc n v) m)
        ↔ x ∈ keysOf m ∨ x ∈ noms := by
  intro noms
  induction noms with
  | nil => intro m; simp
  | cons n rest ih =>
      intro m
      rw [List.foldl_cons]
      rw [ih]
      rw [mem_keysOf_mapAdd]
      simp only [List.mem_cons]
      tauto

theorem foldAdd_nodup_keysOf {v : Nat} :
    ∀ {noms : List AccountId} {m : AccMap}, (keysOf m).Nodup →
      (keysOf (noms.foldl (fun acc n => mapAdd acc n v) m)).Nodup := by
  intro noms
  induction noms with
  | nil => intro m h; exact h
  | cons n rest ih =>
      intro m h
      rw [List.foldl_cons]
      exact ih (nodup_keysOf_mapAdd m n v h)

theorem map_sum_filter_ne_zero (f : AccountId → Nat) (l : List AccountId) :
    (l.map f).sum = ((l.filter (fun a => f a != 0)).map f).sum := by
  induction l with
  | nil => rfl
  | cons a rest ih =>
      rw [List.map_cons, List.sum_cons, List.filter_cons]
      by_cases h : f a = 0
      · have hb : (f a != 0) = false := by rw [h]; rfl
        rw [hb, if_neg Bool.false_ne_true, h, Nat.zero_add, ih]
      · have hb : (f a != 0) = true := by
          rw [bne_iff_ne]
          exact h
        rw [hb, if_pos rfl, List.map_cons, List.sum_cons, ih]

theorem sum_eq_of_nodup_iff {f : AccountId → Nat} {l₁ l₂ : List AccountId}
    (h₁ : l₁.Nodup) (h₂ : l₂.Nodup)
    (hiff : ∀ a, f a ≠ 0 → (a ∈ l₁ ↔ a ∈ l₂)) :
    (l₁.map f).sum = (l₂.map f).sum := by
  rw [map_sum_filter_ne_zero f l₁, map_sum_filter_ne_zero f l₂]
  have hperm : List.Perm (l₁.filter (fun a => f a != 0)) (l₂.filter (fun a => f a != 0)) := by
    refine (List.perm_ext_iff_of_nodup (h₁.filter _) (h₂.filter _)).mpr ?_
    intro a
    simp only [List.mem_filter, bne_iff_ne, ne_eq]
    constructor
    · rintro ⟨hm, hf⟩
      exact ⟨(hiff a hf).mp hm, hf⟩
    · rintro ⟨hm, hf⟩
      exact ⟨(hiff a hf).mpr hm, hf⟩
  exact (hperm.map f).sum_eq

theorem map_sum_ne_zero_exists {f : AccountId → Nat} {l : List AccountId}
    (h : (l.map f).sum ≠ 0) : ∃ a ∈ l, f a ≠ 0 := by
  by_contra hn
  push_neg at hn
  refine h (List.sum_eq_zero ?_)
  intro x hx
  obtain ⟨a, ha, rfl⟩ := List.mem_map.mp hx
  exact hn a ha

theorem listersSum_eq_contribKeysSum {σ : StakingState}
    (hnd : (stakerKeys σ).Nodup) (t : AccountId) :
    listersSum σ t = contribKeysSum σ t (stakerKeys σ) := by
  rw [listersSum, contribKeysSum, stakerKeys, List.map_map]
  refine congrArg List.sum (List.map_congr_left ?_)
  intro p hp
  have hb : σ.bondOf p.1 = some p.2 := mem_bondOf hnd hp
  simp [Function.comp, accContrib, hb]

theorem nominationsOf_eq_some_iff {σ : StakingState} {a : AccountId}
    {noms : List AccountId} :
    σ.nominationsOf a = some noms ↔ σ.status a = some (.Nominator noms) := by
  rw [StakingState.nominationsOf]
  cases hst : σ.status a with
  | none => simp
  | some st =>
      cases st with
      | Nominator ts => simp
      | Validator => simp
      | Idle => simp

theorem accContrib_ne_zero {σ : StakingState} {a t : AccountId}
    (h : accContrib (σ.bondOf a) t ≠ 0) :
    ∃ noms, σ.status a = some (.Nominator noms) ∧ t ∈ noms ∧
      (σ.stake a).getD 0 ≠ 0 := by
  cases hb : σ.bondOf a with
  | none => rw [hb] at h; exact absurd rfl h
  | some b =>
      rw [hb] at h
      obtain ⟨role, active⟩ := b
      cases role with
      | Validator => exact absurd rfl h
      | Idle => exact absurd rfl h
      | Nominator noms =>
          rw [accContrib, contribOf_nominator] at h
          by_cases ht : t ∈ noms
          · refine ⟨noms, ?_, ht, ?_⟩
            · rw [status_eq_map_bondOf, hb]
              rfl
            · rw [stake_of_bondOf hb]
              rw [if_pos ht] at h
              simpa [weight_of] using h
          · rw [if_neg ht] at h
            exact absurd rfl h

theorem contribKeysSum_vl {s : Sys} (hInv : Inv s) (t : AccountId) :
    contribKeysSum s.staking t (keysOf s.voterList) = listersSum s.staking t := by
  rw [listersSum_eq_contribKeysSum hInv.stNodup t, contribKeysSum, contribKeysSum]
  refine sum_eq_of_nodup_iff hInv.vlNodup hInv.stNodup ?_
  intro a hfa
  obtain ⟨noms, hst, -, -⟩ := accContrib_ne_zero hfa
  have hsk : a ∈ stakerKeys s.staking := by
    refine bondOf_isSome_iff.mp ?_
    obtain ⟨st, hb⟩ := bondOf_of_status hst
    rw [hb]
    rfl
  have hvl : a ∈ keysOf s.voterList := by
    have := hInv.nomInVL a noms hst
    refine getScore_isSome_iff.mp ?_
    rw [this]
    rfl
  exact iff_of_true hvl hsk

theorem contribKeysSum_cons (σ : StakingState) (t a : AccountId)
    (rest : List AccountId) :
    contribKeysSum σ t (a :: rest)
      = accContrib (σ.bondOf a) t + contribKeysSum σ t rest := by
  rw [contribKeysSum, List.map_cons, List.sum_cons, contribKeysSum]

theorem accContrib_of_no_noms {σ : StakingState} {a : AccountId}
    (h : σ.nominationsOf a = none) (t : AccountId) :
    accContrib (σ.bondOf a) t = 0 := by
  cases hb : σ.bondOf a with
  | none => rfl
  | some b =>
      obtain ⟨role, active⟩ := b
      cases role with
      | Validator => rfl
      | Idle => rfl
      | Nominator noms =>
          have : σ.nominationsOf a = some noms :=
            nominationsOf_eq_some_iff.mpr (by rw [status_eq_map_bondOf, hb]; rfl)
          rw [this] at h
          cases h

theorem scanVoters_ok {σ : StakingState} {vl : ListState}
    (hok : ∀ a noms, σ.nominationsOf a = some noms →
        getScore vl a = some (weight_of ((σ.stake a).getD 0)) ∧
        (σ.stake a).isSome = true ∧ noms.Nodup) :
    ∀ (voters : List AccountId) (m : AccMap),
      ∃ m', scanVoters σ vl voters m = .ok m' ∧
        (∀ t, (getScore m' t).getD 0
            = (getScore m t).getD 0 + contribKeysSum σ t voters) ∧
        (∀ x, x ∈ keysOf m' ↔ x ∈ keysOf m ∨
            ∃ a ∈ voters, ∃ noms, σ.nominationsOf a = some noms ∧ x ∈ noms) ∧
        ((keysOf m).Nodup → (keysOf m').Nodup) := by
  intro voters
  induction voters with
  | nil =>
      intro m
      refine ⟨m, rfl, fun t => by simp [contribKeysSum], fun x => by simp, id⟩
  | cons a rest ih =>
      intro m
      cases hna : σ.nominationsOf a with
      | none =>
          obtain ⟨m', hrun, hlook, hkeys, hnd⟩ := ih m
          refine ⟨m', ?_, ?_, ?_, hnd⟩
          · show scanVoters σ vl (a :: rest) m = .ok m'
            simp only [scanVoters, hna]
            exact hrun
          · intro t
            rw [hlook t, contribKeysSum_cons, accContrib_of_no_noms hna t]
            omega
          · intro x
            rw [hkeys x]
            constructor
            · rintro (h | ⟨a', ha', noms, hnoms, hx⟩)
              · exact Or.inl h
              · exact Or.inr ⟨a', List.mem_cons_of_mem _ ha', noms, hnoms, hx⟩
            · rintro (h | ⟨a', ha', noms, hnoms, hx⟩)
              · exact Or.inl h
              · rcases List.mem_cons.mp ha' with rfl | ha'
                · rw [hna] at hnoms; cases hnoms
                · exact Or.inr ⟨a', ha', noms, hnoms, hx⟩
      | some noms =>
          obtain ⟨hsc, hstk, hnoms⟩ := hok a noms hna
          cases hstake : σ.stake a with
          | none => rw [hstake] at hstk; cases hstk
          | some st =>
              rw [hstake, Option.getD_some] at hsc
              have hst : σ.status a = some (.Nominator noms) :=
                nominationsOf_eq_some_iff.mp hna
              obtain ⟨st', hb⟩ := bondOf_of_status hst
              have hst'eq : st' = st := by
                have := stake_of_bondOf hb
                rw [hstake] at this
                simpa using this.symm
              rw [hst'eq] at hb
              obtain ⟨m', hrun, hlook, hkeys, hnd⟩ :=
                ih (noms.foldl (fun acc n => mapAdd acc n
                  (to_vote_extended (weight_of st))) m)
              refine ⟨m', ?_, ?_, ?_, ?_⟩
              · show scanVoters σ vl (a :: rest) m = .ok m'
                simp only [scanVoters, hna, hsc, hstake, beq_self_eq_true, if_true]
                exact hrun
              · intro t
                rw [hlook t, contribKeysSum_cons]
                have hacc : accContrib (σ.bondOf a) t
                    = if t ∈ noms then weight_of st else 0 := by
                  rw [hb]
                  exact contribOf_nominator
                by_cases ht : t ∈ noms
                · rw [foldAdd_getScore_mem hnoms ht, Option.getD_some, hacc, if_pos ht]
                  show (getScore m t).getD 0 + weight_of st + contribKeysSum σ t rest
                    = (getScore m t).getD 0 + (weight_of st + contribKeysSum σ t rest)
                  omega
                · rw [foldAdd_getScore_not_mem ht, hacc, if_neg ht]
                  omega
              · intro x
                rw [hkeys x, foldAdd_mem_keysOf]
                constructor
                · rintro ((h | h) | ⟨a', ha', noms', hnoms', hx⟩)
                  · exact Or.inl h
                  · exact Or.inr ⟨a, List.mem_cons_self _ _, noms, hna, h⟩
                  · exact Or.inr ⟨a', List.mem_cons_of_mem _ ha', noms', hnoms', hx⟩
                · rintro (h | ⟨a', ha', noms', hnoms', hx⟩)
                  · exact Or.inl (Or.inl h)
                  · rcases List.mem_cons.mp ha' with rfl | ha'
                    · rw [hna] at hnoms'
                      cases hnoms'
                      exact Or.inl (Or.inr hx)
                    · exact Or.inr ⟨a', ha', noms', hnoms', hx⟩
              · intro hmnd
                exact hnd (foldAdd_nodup_keysOf hmnd)

theorem scanTargets_ok {σ : StakingState} {vl tl : ListState} :
    ∀ (targets : List AccountId), targets.Nodup →
      (∀ a ∈ targets,
        (∀ noms, σ.status a ≠ some (.Nominator noms)) ∧
        (σ.status a = some .Validator →
            containsAcc vl a = true ∧ (σ.stake a).isSome = true) ∧
        (σ.status a = some .Idle → containsAcc vl a = false) ∧
        (σ.status a = none → containsAcc vl a = false ∧
            ∃ sc, getScore tl a = some sc ∧ 0 < sc)) →
      ∀ (m : AccMap),
      ∃ m', scanTargets σ vl tl targets m = .ok m' ∧
        (∀ t, t ∉ targets → getScore m' t = getScore m t) ∧
        (∀ t ∈ targets, σ.status t = none → getScore m' t = getScore m t) ∧
        (∀ t ∈ targets, σ.status t ≠ none →
            getScore m' t = some ((getScore m t).getD 0 + selfWeight σ t)) ∧
        (∀ x, x ∈ keysOf m' ↔ x ∈ keysOf m ∨ (x ∈ targets ∧ σ.status x ≠ none)) ∧
        ((keysOf m).Nodup → (keysOf m').Nodup) := by
  intro targets
  induction targets with
  | nil =>
      intro _ _ m
      refine ⟨m, rfl, fun t _ => rfl, fun t ht => absurd ht (List.not_mem_nil t),
        fun t ht => absurd ht (List.not_mem_nil t), fun x => by simp, id⟩
  | cons a rest ih =>
      intro hnd hprops m
      rw [List.nodup_cons] at hnd
      obtain ⟨hnom, hval, hidle, hnone⟩ := hprops a (List.mem_cons_self _ _)
      have hprops' : ∀ a' ∈ rest, _ := fun a' ha' =>
        hprops a' (List.mem_cons_of_mem _ ha')
      cases hstatus : σ.status a with
      | none =>
          obtain ⟨hcvl, sc, hsc, hpos⟩ := hnone hstatus
          obtain ⟨m', hrun, hout, hnl, hsl, hkeys, hmnd⟩ := ih hnd.2 hprops' m
          refine ⟨m', ?_, ?_, ?_, ?_, ?_, hmnd⟩
          · show scanTargets σ vl tl (a :: rest) m = .ok m'
            simp only [scanTargets, hstatus]
            rw [if_neg (by rw [hcvl]; exact Bool.false_ne_true)]
            simp only [hsc]
            rw [if_pos hpos]
            exact hrun
          · intro t ht
            exact hout t (fun h => ht (List.mem_cons_of_mem _ h))
          · intro t ht hstn
            rcases List.mem_cons.mp ht with rfl | ht
            · exact hout t hnd.1
            · exact hnl t ht hstn
          · intro t ht hstn
            rcases List.mem_cons.mp ht with rfl | ht
            · exact absurd hstatus hstn
            · exact hsl t ht hstn
          · intro x
            rw [hkeys x]
            constructor
            · rintro (h | ⟨hm, hs⟩)
              · exact Or.inl h
              · exact Or.inr ⟨List.mem_cons_of_mem _ hm, hs⟩
            · rintro (h | ⟨hm, hs⟩)
              · exact Or.inl h
              · rcases List.mem_cons.mp hm with rfl | hm
                · exact absurd hstatus hs
                · exact Or.inr ⟨hm, hs⟩
      | some stt =>
          cases stt with
          | Nominator noms => exact absurd hstatus (hnom noms)
          | Idle =>
              have hcvl := hidle hstatus
              obtain ⟨m', hrun, hout, hnl, hsl, hkeys, hmnd⟩ :=
                ih hnd.2 hprops' (mapAdd m a 0)
              refine ⟨m', ?_, ?_, ?_, ?_, ?_, ?_⟩
              · show scanTargets σ vl tl (a :: rest) m = .ok m'
                simp only [scanTargets, hstatus]
                rw [if_neg (by rw [hcvl]; exact Bool.false_ne_true)]
                exact hrun
              · intro t ht
                have htr : t ∉ rest := fun h => ht (List.mem_cons_of_mem _ h)
                have hta : t ≠ a := fun h => ht (h ▸ List.mem_cons_self _ _)
                rw [hout t htr, getScore_mapAdd_other m a 0 hta]
              · intro t ht hstn
                rcases List.mem_cons.mp ht with rfl | ht
                · rw [hstatus] at hstn; cases hstn
                · have hta : t ≠ a := fun h => hnd.1 (h ▸ ht)
                  rw [hnl t ht hstn, getScore_mapAdd_other m a 0 hta]
              · intro t ht hstn
                rcases List.mem_cons.mp ht with rfl | ht
                · rw [hout t hnd.1, getScore_mapAdd_self]
                  have hsw : selfWeight σ t = 0 := by
                    simp only [selfWeight, hstatus]
                  rw [hsw]
                · have hta : t ≠ a := fun h => hnd.1 (h ▸ ht)
                  rw [hsl t ht hstn, getScore_mapAdd_other m a 0 hta]
              · intro x
                rw [hkeys x, mem_keysOf_mapAdd]
                constructor
                · rintro ((h | rfl) | ⟨hm, hs⟩)
                  · exact Or.inl h
                  · exact Or.inr ⟨List.mem_cons_self _ _, by rw [hstatus]; simp⟩
                  · exact Or.inr ⟨List.mem_cons_of_mem _ hm, hs⟩
                · rintro (h | ⟨hm, hs⟩)
                  · exact Or.inl (Or.inl h)
                  · rcases List.mem_cons.mp hm with rfl | hm
                    · exact Or.inl (Or.inr rfl)
                    · exact Or.inr ⟨hm, hs⟩
              · intro hk
                exact hmnd (nodup_keysOf_mapAdd m a 0 hk)
          | Validator =>
              obtain ⟨hcvl, hstk⟩ := hval hstatus
              cases hstake : σ.stake a with
              | none => rw [hstake] at hstk; cases hstk
              | some st =>
                  obtain ⟨m', hrun, hout, hnl, hsl, hkeys, hmnd⟩ :=
                    ih hnd.2 hprops' (mapAdd m a (weight_of st))
                  refine ⟨m', ?_, ?_, ?_, ?_, ?_, ?_⟩
                  · show scanTargets σ vl tl (a :: rest) m = .ok m'
                    simp only [scanTargets, hstatus]
                    rw [if_pos hcvl]
                    simp only [hstake]
                    exact hrun
                  · intro t ht
                    have htr : t ∉ rest := fun h => ht (List.mem_cons_of_mem _ h)
                    have hta : t ≠ a := fun h => ht (h ▸ List.mem_cons_self _ _)
                    rw [hout t htr, getScore_mapAdd_other m a (weight_of st) hta]
                  · intro t ht hstn
                    rcases List.mem_cons.mp ht with rfl | ht
                    · rw [hstatus] at hstn; cases hstn
                    · have hta : t ≠ a := fun h => hnd.1 (h ▸ ht)
                      rw [hnl t ht hstn, getScore_mapAdd_other m a (weight_of st) hta]
                  · intro t ht hstn
                    rcases List.mem_cons.mp ht with rfl | ht
                    · rw [hout t hnd.1, getScore_mapAdd_self]
                      have hsw : selfWeight σ t = weight_of st := by
                        simp only [selfWeight, hstatus, hstake, Option.getD_some]
                      rw [hsw]
                    · have hta : t ≠ a := fun h => hnd.1 (h ▸ ht)
                      rw [hsl t ht hstn, getScore_mapAdd_other m a (weight_of st) hta]
                  · intro x
                    rw [hkeys x, mem_keysOf_mapAdd]
                    constructor
                    · rintro ((h | rfl) | ⟨hm, hs⟩)
                      · exact Or.inl h
                      · exact Or.inr ⟨List.mem_cons_self _ _, by rw [hstatus]; simp⟩
                      · exact Or.inr ⟨List.mem_cons_of_mem _ hm, hs⟩
                    · rintro (h | ⟨hm, hs⟩)
                      · exact Or.inl (Or.inl h)
                      · rcases List.mem_cons.mp hm with rfl | hm
                        · exact Or.inl (Or.inr rfl)
                        · exact Or.inr ⟨hm, hs⟩
                  · intro hk
                    exact hmnd (nodup_keysOf_mapAdd m a (weight_of st) hk)

theorem compareApprovals_ok {tl : ListState} :
    ∀ {m : AccMap}, (∀ p ∈ m, getScore tl p.1 = some p.2) →
      compareApprovals tl m = .ok := by
  intro m
  induction m with
  | nil => intro _; rfl
  | cons p rest ih =>
      intro h
      obtain ⟨k, v⟩ := p
      have hk := h (k, v) (List.mem_cons_self _ _)
      show compareApprovals tl ((k, v) :: rest) = .ok
      simp only [compareApprovals, hk]
      rw [show to_vote_extended v = v from rfl, if_pos (rfl : v = v)]
      exact ih (fun p hp => h p (List.mem_cons_of_mem _ hp))

/-- On any state satisfying the inductive invariant, the approvals checker
succeeds. -/
theorem do_try_state_ok_of_inv {s : Sys} (hInv : Inv s) : do_try_state s = .ok := by
  have hok : ∀ a noms, s.staking.nominationsOf a = some noms →
      getScore s.voterList a = some (weight_of ((s.staking.stake a).getD 0)) ∧
      (s.staking.stake a).isSome = true ∧ noms.Nodup := by
    intro a noms hna
    have hst := nominationsOf_eq_some_iff.mp hna
    obtain ⟨st, hb⟩ := bondOf_of_status hst
    refine ⟨hInv.nomInVL a noms hst, ?_, hInv.nomNodup a noms hst⟩
    rw [stake_of_bondOf hb]
    rfl
  obtain ⟨m₁, hrun1, hlook1, hkeys1, hnd1⟩ :=
    scanVoters_ok hok (keysOf s.voterList) ([] : AccMap)
  have hnd1' : (keysOf m₁).Nodup := hnd1 (by simp [keysOf])
  have hlook1' : ∀ t, (getScore m₁ t).getD 0 = listersSum s.staking t := by
    intro t
    rw [hlook1 t, contribKeysSum_vl hInv t]
    simp [getScore]
  have hm1keys : ∀ x, x ∈ keysOf m₁ ↔
      ∃ a ∈ keysOf s.voterList, ∃ noms,
        s.staking.nominationsOf a = some noms ∧ x ∈ noms := by
    intro x
    have := hkeys1 x
    simpa [keysOf] using this
  have hdang : ∀ t ∈ keysOf s.targetList, s.staking.status t = none →
      getScore m₁ t = some (listersSum s.staking t) := by
    intro t htl hstn
    obtain ⟨c, hc⟩ := Option.isSome_iff_exists.mp (getScore_isSome_iff.mpr htl)
    have happ := hInv.approvals t c hc
    have hsw : selfWeight s.staking t = 0 := by simp only [selfWeight, hstn]
    have hne := hInv.danglingPos t c hc hstn
    have hls : listersSum s.staking t ≠ 0 := by
      rw [hsw, Nat.zero_add] at happ
      omega
    have hl := hlook1' t
    cases hm : getScore m₁ t with
    | none =>
        rw [hm] at hl
        simp at hl
        exact absurd hl.symm hls
    | some x =>
        rw [hm] at hl
        simp at hl
        rw [hl]
  have htprops : ∀ a ∈ keysOf s.targetList,
      (∀ noms, s.staking.status a ≠ some (.Nominator noms)) ∧
      (s.staking.status a = some .Validator →
          containsAcc s.voterList a = true ∧ (s.staking.stake a).isSome = true) ∧
      (s.staking.status a = some .Idle → containsAcc s.voterList a = false) ∧
      (s.staking.status a = none → containsAcc s.voterList a = false ∧
          ∃ sc, getScore s.targetList a = some sc ∧ 0 < sc) := by
    intro a ha
    refine ⟨?_, ?_, ?_, ?_⟩
    · intro noms hn
      exact hInv.nomNotInTL a noms hn ha
    · intro hv
      refine ⟨containsAcc_iff.mpr (hInv.valInVL a hv), ?_⟩
      obtain ⟨st, hb⟩ := bondOf_of_status hv
      rw [stake_of_bondOf hb]
      rfl
    · intro hi
      exact Bool.eq_false_iff.mpr
        (fun hc => hInv.idleNotInVL a hi (containsAcc_iff.mp hc))
    · intro hn
      refine ⟨Bool.eq_false_iff.mpr
        (fun hc => hInv.unknownNotInVL a hn (containsAcc_iff.mp hc)), ?_⟩
      obtain ⟨c, hc⟩ := Option.isSome_iff_exists.mp (getScore_isSome_iff.mpr ha)
      exact ⟨c, hc, Nat.pos_of_ne_zero (hInv.danglingPos a c hc hn)⟩
  obtain ⟨m₂, hrun2, hout2, hnone2, hsome2, hkeys2, hnd2f⟩ :=
    scanTargets_ok (keysOf s.targetList) hInv.tlNodup htprops m₁
  have hnd2 : (keysOf m₂).Nodup := hnd2f hnd1'
  have hm2tl : ∀ x ∈ keysOf m₂, x ∈ keysOf s.targetList := by
    intro x hx
    rcases (hkeys2 x).mp hx with hm1 | ⟨htl, -⟩
    · obtain ⟨a, ha, noms, hnoms, hxn⟩ := (hm1keys x).mp hm1
      exact hInv.listedInTL a noms x (nominationsOf_eq_some_iff.mp hnoms) hxn
    · exact htl
  have hcomp : ∀ p ∈ m₂, getScore s.targetList p.1 = some p.2 := by
    intro p hp
    have hpk : p.1 ∈ keysOf m₂ := mem_keysOf.mpr ⟨p.2, by simpa using hp⟩
    have hlk : getScore m₂ p.1 = some p.2 := mem_getScore hnd2 (by simpa using hp)
    have hptl : p.1 ∈ keysOf s.targetList := hm2tl p.1 hpk
    obtain ⟨c, hc⟩ := Option.isSome_iff_exists.mp (getScore_isSome_iff.mpr hptl)
    have happ := hInv.approvals p.1 c hc
    by_cases hstn : s.staking.status p.1 = none
    · rw [hnone2 p.1 hptl hstn, hdang p.1 hptl hstn, Option.some.injEq] at hlk
      have hsw : selfWeight s.staking p.1 = 0 := by simp only [selfWeight, hstn]
      rw [hsw, Nat.zero_add] at happ
      rw [hc, Option.some.injEq, happ]
      exact hlk
    · rw [hsome2 p.1 hptl hstn, hlook1' p.1, Option.some.injEq] at hlk
      rw [hc, Option.some.injEq]
      omega
  have hsup : ∀ x ∈ keysOf s.targetList, x ∈ keysOf m₂ := by
    intro x hx
    cases hstx : s.staking.status x with
    | none =>
        have hd := hdang x hx hstx
        have hxm1 : x ∈ keysOf m₁ := getScore_isSome_iff.mp (by rw [hd]; rfl)
        exact (hkeys2 x).mpr (Or.inl hxm1)
    | some stt =>
        refine (hkeys2 x).mpr (Or.inr ⟨hx, ?_⟩)
        rw [hstx]
        simp
  have hperm : List.Perm (keysOf m₂) (keysOf s.targetList) :=
    (List.perm_ext_iff_of_nodup hnd2 hInv.tlNodup).mpr
      (fun x => ⟨fun h => hm2tl x h, fun h => hsup x h⟩)
  have hlen : m₂.length = s.targetList.length := by
    have h1 := hperm.length_eq
    simpa [keysOf] using h1
  have hrw1 : scanVoters s.staking s.voterList
      (s.voterList.map (fun p => p.1)) [] = .ok m₁ := hrun1
  have hrw2 : scanTargets s.staking s.voterList s.targetList
      (s.targetList.map (fun p => p.1)) m₁ = .ok m₂ := hrun2
  have hcmp : compareApprovals s.targetList m₂ = .ok := compareApprovals_ok hcomp
  simp only [do_try_state, do_try_state_approvals, hrw1, hrw2, hcmp]
  rw [if_pos hlen]

/-! ## The claims

Concrete runs used as witnesses and counterexamples. -/

/-- Modelled from the spec: the spec's strictly-descending ordering claim
for the target list. -/
def TLStrictSorted (l : ListState) : Prop := l.Pairwise (fun p q => q.2 < p.2)

/-- A positively-weighted valid run: two validators (10, 11) at stake 5 and
a nominator (2) at stake 100 nominating both. -/
def evsW : List Event := [
  .stakeUpdate 10 none 5, .validatorAdd 10 (some 5),
  .stakeUpdate 11 none 5, .validatorAdd 11 (some 5),
  .stakeUpdate 2 none 100, .nominatorAdd 2 [10, 11]]

/-- The final state of `evsW`. -/
def sW : Sys :=
  ⟨⟨[(2, ⟨.Nominator [10, 11], 100⟩), (11, ⟨.Validator, 5⟩), (10, ⟨.Validator, 5⟩)]⟩,
   [(2, 100), (10, 5), (11, 5)],
   [(10, 105), (11, 105)]⟩

theorem runEventsPos_evsW : runEventsPos initSys evsW = some sW := by decide

theorem sW_preach : PReach sW := runEventsPos_preach PReach.init runEventsPos_evsW

theorem sW_reach : Reach sW := preach_reach sW_preach

/-- A valid (but not positively-weighted) run: a zero-stake nominator's
target is removed and later re-added, losing the nominator's weight. -/
def evsC1 : List Event := [
  .stakeUpdate 2 none 0, .stakeUpdate 1 none 5, .validatorAdd 1 (some 5),
  .nominatorAdd 2 [1], .validatorIdle 1, .validatorRemove 1,
  .stakeUpdate 2 (some 0) 100, .stakeUpdate 1 none 5, .validatorAdd 1 (some 5)]

/-- The final state of `evsC1`: target 1 holds score 5 while nominator 2
(weight 100) still lists it. -/
def sC1 : Sys :=
  ⟨⟨[(1, ⟨.Validator, 5⟩), (2, ⟨.Nominator [1], 100⟩)]⟩,
   [(2, 100), (1, 5)],
   [(1, 5)]⟩

theorem runEvents_evsC1 : runEvents initSys evsC1 = some sC1 := by decide

theorem sC1_reach : Reach sC1 := runEvents_reach Reach.init runEvents_evsC1

/-- The first six events of `evsC1`: the zero-weight nominator's target has
been dropped from the target list while still nominated. -/
def evsC4 : List Event := [
  .stakeUpdate 2 none 0, .stakeUpdate 1 none 5, .validatorAdd 1 (some 5),
  .nominatorAdd 2 [1], .validatorIdle 1, .validatorRemove 1]

/-- The final state of `evsC4`. -/
def sC4 : Sys := ⟨⟨[(2, ⟨.Nominator [1], 0⟩)]⟩, [(2, 0)], []⟩

theorem runEvents_evsC4 : runEvents initSys evsC4 = some sC4 := by decide

theorem sC4_reach : Reach sC4 := runEvents_reach Reach.init runEvents_evsC4

/-- A valid run producing two targets with equal scores. -/
def evsC2 : List Event := [
  .stakeUpdate 1 none 5, .validatorAdd 1 (some 5),
  .stakeUpdate 2 none 5, .validatorAdd 2 (some 5)]

/-- The final state of `evsC2`: a score tie in the target list. -/
def sC2 : Sys :=
  ⟨⟨[(2, ⟨.Validator, 5⟩), (1, ⟨.Validator, 5⟩)]⟩,
   [(1, 5), (2, 5)],
   [(1, 5), (2, 5)]⟩

theorem runEvents_evsC2 : runEvents initSys evsC2 = some sC2 := by decide

theorem sC2_reach : Reach sC2 := runEvents_reach Reach.init runEvents_evsC2

/-- A one-account ledger with an idle staker absent from both lists. -/
def sC9 : Sys := ⟨⟨[(1, ⟨.Idle, 0⟩)]⟩, [], []⟩

/-- C1: in every state reachable under the staking contract strengthened
with positive nominator weights, every target present in the target list
scores exactly its self-weight plus the summed weights of the nominators
currently listing it.  (Over merely-valid sequences the claim fails:
`C1_zero_weight_counterexample`.) -/
theorem C1_approvals_invariant {s : Sys} (h : PReach s) :
    ∀ a c, getScore s.targetList a = some c →
      c = selfWeight s.staking a + listersSum s.staking a :=
  (inv_preach h).approvals

/-- C1 witness: the invariant evaluated on the concrete reachable state
`sW`. -/
theorem C1_approvals_invariant_witness :
    getScore sW.targetList 10 = some 105 ∧
      (105 : Nat) = selfWeight sW.staking 10 + listersSum sW.staking 10 :=
  ⟨by decide, C1_approvals_invariant sW_preach 10 105 (by decide)⟩

/-- C1 counterexample: a reachable state (zero-weight nominator, allowed by
the baseline contract) whose target score misses its lister's weight. -/
theorem C1_zero_weight_counterexample :
    Reach sC1 ∧ ¬ (∀ a c, getScore sC1.targetList a = some c →
      c = selfWeight sC1.staking a + listersSum sC1.staking a) :=
  ⟨sC1_reach, fun h => absurd (h 1 5 (by decide)) (by decide)⟩

/-- C2: in every reachable state the target list is sorted by
*non-increasing* score; the spec's *strictly*-descending claim fails on
score ties (`C2_tie_counterexample`). -/
theorem C2_sorted_invariant {s : Sys} (h : Reach s) : TLSorted s.targetList :=
  reach_sorted h

/-- C2 witness: sortedness of the concrete reachable state `sW`. -/
theorem C2_sorted_invariant_witness : TLSorted sW.targetList :=
  C2_sorted_invariant sW_reach

/-- C2 counterexample: a reachable state whose target list holds a score
tie, hence is non-increasing but not strictly descending. -/
theorem C2_tie_counterexample :
    Reach sC2 ∧ TLSorted sC2.targetList ∧ ¬ TLStrictSorted sC2.targetList :=
  ⟨sC2_reach,
   by show List.Pairwise (fun p q => q.2 ≤ p.2) sC2.targetList; decide,
   by show ¬ List.Pairwise (fun p q => q.2 < p.2) sC2.targetList; decide⟩

/-- C3: a negative imbalance on a listed target reads the current score,
subtracts with saturation at zero, removes the target exactly when the new
score is zero and its ledger lookup fails, otherwise writes the reduced
score back; no other entry changes. -/
theorem C3_negative_imbalance {s : Sys} {who : AccountId} {d c : Nat}
    (hc : getScore s.targetList who = some c) :
    (∀ b, b ≠ who →
        getScore (update_target_score s who (.Negative d)).targetList b
          = getScore s.targetList b) ∧
    (c - d = 0 → s.staking.status who = none →
        who ∉ keysOf (update_target_score s who (.Negative d)).targetList) ∧
    (¬(c - d = 0 ∧ s.staking.status who = none) →
        getScore (update_target_score s who (.Negative d)).targetList who
          = some (c - d)) :=
  ⟨fun _ hb => utsl_getScore_other hb,
   fun h0 hst => utsl_neg_mem_remove hc h0 hst,
   fun hkeep => utsl_neg_mem_keep hc hkeep⟩

/-- C3 witness: subtracting 5 from listed target 10 (score 105, an active
validator) keeps it with score 100. -/
theorem C3_negative_imbalance_witness :
    getScore sW.targetList 10 = some 105 ∧
      getScore (update_target_score sW 10 (.Negative 5)).targetList 10
        = some 100 :=
  ⟨by decide, (@C3_negative_imbalance sW 10 5 105 (by decide)).2.2 (by decide)⟩

/-- C4: after every positively-weighted valid sequence the consistency
checker reports ok and the target list is sorted; over merely-valid
sequences it can abort (`C4_abort_counterexample`). -/
theorem C4_checker_ok {s : Sys} (h : PReach s) :
    do_try_state s = .ok ∧ TLSorted s.targetList :=
  ⟨do_try_state_ok_of_inv (inv_preach h), reach_sorted (preach_reach h)⟩

/-- C4 witness: the checker on the concrete reachable state `sW`. -/
theorem C4_checker_ok_witness :
    do_try_state sW = CheckOutcome.ok ∧ TLSorted sW.targetList :=
  C4_checker_ok sW_preach

/-- C4 counterexample: a reachable state on which the checker aborts (the
approvals accumulator holds a key the target list lost). -/
theorem C4_abort_counterexample :
    Reach sC4 ∧ do_try_state sC4 = .aborted "target must exist; qed." :=
  ⟨sC4_reach, rfl⟩

/-- C5: on_validator_remove requires the idle role: a nominator or unknown
role is a defensive no-op, an active validator is first idled, and an idle
target is removed exactly when its score is zero. -/
theorem C5_validator_remove_cases (s : Sys) (who : AccountId) :
    (∀ noms, s.staking.status who = some (.Nominator noms) →
        on_validator_remove s who = some s) ∧
    (s.staking.status who = none → on_validator_remove s who = some s) ∧
    (s.staking.status who = some .Validator →
        on_validator_remove s who
          = (if (getScore (on_validator_idle s who).targetList who).getD 0 = 0 then
              (onRemove (on_validator_idle s who).targetList who).map
                (fun tl => { on_validator_idle s who with targetList := tl })
            else some (on_validator_idle s who))) ∧
    (s.staking.status who = some .Idle →
        on_validator_remove s who
          = (if (getScore s.targetList who).getD 0 = 0 then
              (onRemove s.targetList who).map (fun tl => { s with targetList := tl })
            else some s)) :=
  ⟨fun _ h => on_validator_remove_nominator h,
   fun h => on_validator_remove_unknown h,
   fun h => on_validator_remove_validator h,
   fun h => on_validator_remove_idle h⟩

/-- C6: update_target_score on a target absent from the target list: an
unknown, nominator or validator role leaves the whole state unchanged; an
idle target is lazily inserted with score zero and the imbalance is then
applied to the extended list. -/
theorem C6_absent_target {s : Sys} {who : AccountId} {imb : StakeImbalance}
    (habs : containsAcc s.targetList who = false) :
    (s.staking.status who = none → update_target_score s who imb = s) ∧
    (∀ noms, s.staking.status who = some (.Nominator noms) →
        update_target_score s who imb = s) ∧
    (s.staking.status who = some .Validator → update_target_score s who imb = s) ∧
    (s.staking.status who = some .Idle →
        (update_target_score s who imb).targetList
          = apply_target_imbalance s.staking (insertSorted who 0 s.targetList)
              who imb) := by
  refine ⟨?_, ?_, ?_, ?_⟩
  · intro h
    show { s with targetList := update_target_score_tl s.staking s.targetList who imb } = s
    rw [utsl_absent_skip habs (Or.inl h)]
  · intro noms h
    show { s with targetList := update_target_score_tl s.staking s.targetList who imb } = s
    rw [utsl_absent_skip habs (Or.inr (Or.inl ⟨noms, h⟩))]
  · intro h
    show { s with targetList := update_target_score_tl s.staking s.targetList who imb } = s
    rw [utsl_absent_skip habs (Or.inr (Or.inr h))]
  · intro h
    exact utsl_absent_idle habs h

/-- C6 witness: a positive imbalance on an unknown absent target is a
no-op on the empty initial state. -/
theorem C6_absent_target_witness :
    containsAcc initSys.targetList 1 = false ∧
      update_target_score initSys 1 (.Positive 7) = initSys :=
  ⟨by decide, (C6_absent_target (by decide)).1 (by decide)⟩

/-- C7: on_nominator_add is idempotent: the second of two consecutive calls
finds who already in the voter list and changes nothing. -/
theorem C7_nominator_add_idempotent (s : Sys) (who : AccountId)
    (noms : List AccountId) :
    on_nominator_add (on_nominator_add s who noms) who noms
      = on_nominator_add s who noms := by
  apply on_nominator_add_mem
  by_cases h : containsAcc s.voterList who
  · rw [on_nominator_add_mem h]
    exact h
  · have h' : containsAcc s.voterList who = false := Bool.eq_false_iff.mpr h
    have hins : ∀ w : Nat, containsAcc (insertSorted who w s.voterList) who = true :=
      fun w => containsAcc_iff.mpr (keysOf_insertSorted.mpr (Or.inl rfl))
    cases hstatus : s.staking.status who with
    | none =>
        rw [on_nominator_add_not_mem_other h'
          (fun n hn => by rw [hstatus] at hn; cases hn)]
        exact hins _
    | some stt =>
        cases stt with
        | Idle =>
            rw [on_nominator_add_not_mem_other h'
              (fun n hn => by rw [hstatus] at hn; cases hn)]
            exact hins _
        | Validator =>
            rw [on_nominator_add_not_mem_other h'
              (fun n hn => by rw [hstatus] at hn; cases hn)]
            exact hins _
        | Nominator noms₀ =>
            rw [on_nominator_add_not_mem_nom h' hstatus]
            exact hins _

/-- C8: updating nominations with identical previous and new sets is the
identity on the whole state, and any target nominated both before and
after the update keeps its score. -/
theorem C8_nominator_update_same (s : Sys) (who : AccountId) :
    (∀ S, on_nominator_update s who S S = s) ∧
    (∀ prev next t, t ∈ prev → t ∈ next →
        getScore (on_nominator_update s who prev next).targetList t
          = getScore s.targetList t) := by
  constructor
  · intro S
    rw [on_nominator_update_eq]
    have hfil : S.filter (fun t => !S.contains t) = [] := by
      refine List.filter_eq_nil_iff.mpr ?_
      intro a ha
      intro hcon
      rw [Bool.not_eq_true'] at hcon
      exact Bool.noConfusion ((contains_iff_mem.mpr ha).symm.trans hcon)
    rw [hfil, foldTargets_nil, foldTargets_nil]
  · intro prev next t htp htn
    have hm1 : t ∉ prev.filter (fun x => !next.contains x) := by
      intro hm
      have h2 := (List.mem_filter.mp hm).2
      rw [Bool.not_eq_true'] at h2
      exact Bool.noConfusion ((contains_iff_mem.mpr htn).symm.trans h2)
    have hm2 : t ∉ next.filter (fun x => !prev.contains x) := by
      intro hm
      have h2 := (List.mem_filter.mp hm).2
      rw [Bool.not_eq_true'] at h2
      exact Bool.noConfusion ((contains_iff_mem.mpr htp).symm.trans h2)
    rw [on_nominator_update_eq]
    show getScore
        (foldTargets s.staking (.Negative (weight_of (active_vote_of s.staking who)))
          (foldTargets s.staking (.Positive (weight_of (active_vote_of s.staking who)))
            s.targetList (next.filter (fun x => !prev.contains x)))
          (prev.filter (fun x => !next.contains x))) t
      = getScore s.targetList t
    rw [foldTargets_getScore_not_mem hm1, foldTargets_getScore_not_mem hm2]

/-- C9: with an idle role, on_validator_remove's final removal is guarded
only by the role check: if who is absent from the target list the defaulted
zero score sends it into a removal whose expect panics; if who is present
the call returns. -/
theorem C9_idle_expect {s : Sys} {who : AccountId}
    (hidle : s.staking.status who = some .Idle) :
    (containsAcc s.targetList who = false → on_validator_remove s who = none) ∧
    (containsAcc s.targetList who = true →
        (on_validator_remove s who).isSome = true) := by
  constructor
  · intro habs
    rw [on_validator_remove_idle hidle]
    have hnm : who ∉ keysOf s.targetList := fun hm => by
      rw [containsAcc_iff.mpr hm] at habs
      cases habs
    have hsc : getScore s.targetList who = none := by
      cases hg : getScore s.targetList who with
      | none => rfl
      | some c =>
          exact absurd (getScore_isSome_iff.mp (by rw [hg]; rfl)) hnm
    rw [if_pos (by rw [hsc]; rfl)]
    rw [onRemove, if_neg (by rw [habs]; exact Bool.false_ne_true)]
    rfl
  · intro hmem
    rw [on_validator_remove_idle hidle]
    by_cases hz : (getScore s.targetList who).getD 0 = 0
    · rw [if_pos hz, onRemove, if_pos hmem]
      rfl
    · rw [if_neg hz]
      rfl

/-- C9 witness: an idle staker absent from the target list makes the call
panic (return `none`). -/
theorem C9_idle_expect_witness :
    sC9.staking.status 1 = some .Idle ∧ on_validator_remove sC9 1 = none :=
  ⟨rfl, (@C9_idle_expect sC9 1 rfl).1 rfl⟩

/-- C10: on_stake_update is a complete no-op whenever the status or stake
lookup of the updated account fails, for every reported previous and new
stake. -/
theorem C10_unknown_staker_noop {s : Sys} {who : AccountId}
    (h : s.staking.status who = none ∨ s.staking.stake who = none) :
    ∀ (prev : Option Balance) (new : Balance), on_stake_update s who prev new = s := by
  intro prev new
  rw [on_stake_update]
  rcases h with h | h
  · rw [if_neg (by rw [h]; simp)]
  · rw [if_neg (by rw [h]; simp)]

/-- C10 witness: a stake update for an unbonded account leaves the empty
initial state unchanged. -/
theorem C10_unknown_staker_noop_witness :
    initSys.staking.status 3 = none ∧ on_stake_update initSys 3 none 42 = initSys :=
  ⟨rfl, @C10_unknown_staker_noop initSys 3 (Or.inl rfl) none 42⟩

end StakeTracker
